import Mathlib

/-! Contract enforcement engine of `contract/contract.hpp`.

A shallow embedding of the header-only Design-by-Contract library: the
contract check statement, the check context, the scope guards
(`fun_contract`, `class_contract_base`, `class_contract`), the hierarchy
composer (`base_class_contract`), the `contractor` dispatch and the violation
handler registry.

Modelling conventions.

* C++ control flow is made explicit: every operation maps a `machine` to an
  `outcome` and a new `machine`.  An `outcome` is a normal return, an
  exception leaving the operation, or `std::terminate`.
* `machine.uncaught_exception` is the value `std::uncaught_exception()` would
  return at that point.
* `machine.trace` is ghost state: a chronological log of the observable steps
  (a block being run, a condition being evaluated, the handler being called,
  the guarded body running).  It is only written, never read, by the model.
* A condition expression is a pure function of the program state `σ`; a
  violation handler is described by what it writes to `std::cerr` and by how
  control leaves it.
-/

namespace contract

/-! ## Violation records -/

/-- Values for types of contract checks (`enum class type`). -/
inductive type where
  | precondition
  | postcondition
  | invariant
deriving DecidableEq

/-- Context of the contract violation (`struct violation_context`). -/
structure violation_context where
  contract_type : type
  message : String
  condition : String
  file : String
  line : Nat
deriving DecidableEq

/-- The ways control can leave a call of a violation handler: it falls off
its end, it exits via an exception, or it ends the process itself. -/
inductive handler_exit (ε : Type) where
  | returns
  | raises (e : ε)
  | terminates
deriving DecidableEq

/-- The observable effect of one handler call: the text written to
`std::cerr` and how control leaves the handler. -/
structure handler_effect (ε : Type) where
  output : String
  exit : handler_exit ε
deriving DecidableEq

/-- Type alias for the contract violation handler function
(`std::function<void (violation_context const &)>`). -/
abbrev violation_handler (ε : Type) := violation_context → handler_effect ε

namespace detail

/-! ## Check context -/

/-- Context in which a contract check is done (`struct contract_context`). -/
structure contract_context where
  check_pre : Bool
  check_post : Bool
  check_inv : Bool
deriving DecidableEq

/-- The member `check_precondition()`. -/
def contract_context.check_precondition (c : contract_context) : Bool :=
  c.check_pre

/-- The member `check_postcondition()`; `uncaught` is the value of
`std::uncaught_exception()` at the call. -/
def contract_context.check_postcondition (c : contract_context) (uncaught : Bool) : Bool :=
  c.check_post && !uncaught

/-- The member `check_invariant()`. -/
def contract_context.check_invariant (c : contract_context) : Bool :=
  c.check_inv

end detail

open detail

/-! ## Machine state -/

/-- Ghost log entries. -/
inductive event where
  | block_run (ctx : contract_context)
  | class_run (cls : String) (ctx : contract_context)
  | evaluated (c : violation_context)
  | handler_called (c : violation_context)
  | body_run
deriving DecidableEq

/-- How an operation ends. -/
inductive outcome (ε : Type) where
  | normal
  | raised (e : ε)
  | terminated
deriving DecidableEq

/-- Process state: the handler slot `handler_holder<>::current_handler`, the
in-flight-exception flag, the user program state read by conditions and
written by bodies, the text written to `std::cerr`, and the ghost log. -/
structure machine (σ ε : Type) where
  current_handler : violation_handler ε
  uncaught_exception : Bool
  state : σ
  cerr : String
  trace : List event

variable {σ ε : Type}

/-- Append one entry to the ghost log. -/
def machine.log (m : machine σ ε) (e : event) : machine σ ε :=
  { m with trace := m.trace ++ [e] }

/-! ## Violation handler registry -/

/-- The function `handle_violation`: call the installed handler, then
`std::terminate()` if it returns.  When the handler exits via an exception,
that exception is in flight from then on. -/
def handle_violation (context : violation_context) (m : machine σ ε) :
    outcome ε × machine σ ε :=
  let r := m.current_handler context
  let m1 := { m.log (event.handler_called context) with cerr := m.cerr ++ r.output }
  match r.exit with
  | handler_exit.returns => (outcome.terminated, m1)
  | handler_exit.raises e => (outcome.raised e, { m1 with uncaught_exception := true })
  | handler_exit.terminates => (outcome.terminated, m1)

/-- The function `set_handler`: returns the previous handler. -/
def set_handler (new_handler : violation_handler ε) (m : machine σ ε) :
    violation_handler ε × machine σ ε :=
  let old_handler := m.current_handler
  (old_handler, { m with current_handler := new_handler })

/-- The function `get_handler`. -/
def get_handler (m : machine σ ε) : violation_handler ε :=
  m.current_handler

namespace detail

/-- The string chosen by the `switch (context.contract_type)` of
`default_handler`. -/
def type_str : type → String
  | type.precondition => "precondition"
  | type.postcondition => "postcondition"
  | type.invariant => "invariant"

/-- The function `default_handler`: the two chains of `<<` on `std::cerr`
(the line number is printed in decimal, `std::endl` writes a newline), then
`std::terminate()`. -/
def default_handler : violation_handler ε :=
  fun context =>
    { output :=
        (context.file ++ ":" ++ Nat.repr context.line ++
          ": error: contract violation of type '") ++
        (type_str context.contract_type ++ "'\n" ++
          "message:   " ++ context.message ++ "\n" ++
          "condition: " ++ context.condition ++ "\n")
      exit := handler_exit.terminates }

end detail

/-- The process at its start: `handler_holder<>::current_handler` is
initialised with `default_handler`, no exception is in flight, nothing was
written. -/
def initial_machine (st : σ) : machine σ ε :=
  { current_handler := default_handler, uncaught_exception := false, state := st,
    cerr := "", trace := [] }

/-! ## Contract check statements -/

/-- The token-pasted call `contract_context__.check_ ## TYPE()` of
`contract_check__`. -/
def check_ (ctx : contract_context) (TYPE : type) (uncaught : Bool) : Bool :=
  match TYPE with
  | type.precondition => ctx.check_precondition
  | type.postcondition => ctx.check_postcondition uncaught
  | type.invariant => ctx.check_invariant

/-- A statement of a contract block after preprocessing: either the expansion
`contract_check__(TYPE, COND, MSG)` (with `#COND`, `__FILE__`, `__LINE__`), or
the expansion `do {} while (false && (cond))` of a disabled check. -/
inductive statement (σ : Type) where
  | contract_check__ (TYPE : type) (COND : σ → Bool) (MSG : String)
      (COND_text : String) (file : String) (line : Nat)
  | disabled (cond : σ → Bool)

/-- The record `contract::violation_context(contract::type::TYPE, MSG, #COND,
__FILE__, __LINE__)` built by a check statement. -/
def statement.record : statement σ → Option violation_context
  | statement.contract_check__ TYPE _ MSG COND_text file line =>
      some (violation_context.mk TYPE MSG COND_text file line)
  | statement.disabled _ => none

/-- Execution of one statement of a block: `if (contract_context__.check_TYPE()
&& !(COND)) contract::handle_violation(...)`.  The condition is evaluated only
when the first conjunct is true. -/
def statement.run (ctx : contract_context) (s : statement σ) (m : machine σ ε) :
    outcome ε × machine σ ε :=
  match s with
  | statement.contract_check__ TYPE COND MSG COND_text file line =>
      if check_ ctx TYPE m.uncaught_exception then
        let m1 := m.log (event.evaluated (violation_context.mk TYPE MSG COND_text file line))
        if !(COND m1.state) then
          handle_violation (violation_context.mk TYPE MSG COND_text file line) m1
        else (outcome.normal, m1)
      else (outcome.normal, m)
  | statement.disabled _ => (outcome.normal, m)

/-- Sequential execution of the statements of a block; an exception or a
termination ends it. -/
def run_statements (ctx : contract_context) :
    List (statement σ) → machine σ ε → outcome ε × machine σ ε
  | [], m => (outcome.normal, m)
  | s :: rest, m =>
      match s.run ctx m with
      | (outcome.normal, m1) => run_statements ctx rest m1
      | r => r

/-! ## The check declarations and the build configuration -/

/-- The three build switches `CONTRACT_DISABLE_PRECONDITIONS`,
`CONTRACT_DISABLE_POSTCONDITIONS`, `CONTRACT_DISABLE_INVARIANTS`; a field is
true when the symbol is defined. -/
structure build_config where
  CONTRACT_DISABLE_PRECONDITIONS : Bool
  CONTRACT_DISABLE_POSTCONDITIONS : Bool
  CONTRACT_DISABLE_INVARIANTS : Bool
deriving DecidableEq

/-- The build in which none of the three symbols is defined. -/
def build_config.all_enabled : build_config :=
  { CONTRACT_DISABLE_PRECONDITIONS := false
    CONTRACT_DISABLE_POSTCONDITIONS := false
    CONTRACT_DISABLE_INVARIANTS := false }

/-- Whether the checks of a kind are disabled in a build. -/
def build_config.disabled (cfg : build_config) : type → Bool
  | type.precondition => cfg.CONTRACT_DISABLE_PRECONDITIONS
  | type.postcondition => cfg.CONTRACT_DISABLE_POSTCONDITIONS
  | type.invariant => cfg.CONTRACT_DISABLE_INVARIANTS

/-- A check as written in a block: `PRECONDITION(...)`, `POSTCONDITION(...)`
or `INVARIANT(...)` with one argument (`msg = none`) or two, at a source
location.  `cond_text` is the spelling `#cond` of the condition. -/
structure check (σ : Type) where
  kind : type
  cond : σ → Bool
  cond_text : String
  msg : Option String
  file : String
  line : Nat

/-- The form `PRECONDITION2(cond, msg)`: `contract_check__(precondition, cond,
msg)` unless `CONTRACT_DISABLE_PRECONDITIONS` is defined. -/
def PRECONDITION2 (cfg : build_config) (cond : σ → Bool) (cond_text : String) (msg : String)
    (file : String) (line : Nat) : statement σ :=
  if !cfg.CONTRACT_DISABLE_PRECONDITIONS then
    statement.contract_check__ type.precondition cond msg cond_text file line
  else
    statement.disabled cond

/-- The form `PRECONDITION1(cond)`: `PRECONDITION2(cond, #cond)`. -/
def PRECONDITION1 (cfg : build_config) (cond : σ → Bool) (cond_text : String)
    (file : String) (line : Nat) : statement σ :=
  PRECONDITION2 cfg cond cond_text cond_text file line

/-- The form `POSTCONDITION2(cond, msg)`: `contract_check__(postcondition,
cond, msg)` unless `CONTRACT_DISABLE_POSTCONDITIONS` is defined. -/
def POSTCONDITION2 (cfg : build_config) (cond : σ → Bool) (cond_text : String) (msg : String)
    (file : String) (line : Nat) : statement σ :=
  if !cfg.CONTRACT_DISABLE_POSTCONDITIONS then
    statement.contract_check__ type.postcondition cond msg cond_text file line
  else
    statement.disabled cond

/-- The form `POSTCONDITION1(cond)`: `POSTCONDITION2(cond, #cond)`. -/
def POSTCONDITION1 (cfg : build_config) (cond : σ → Bool) (cond_text : String)
    (file : String) (line : Nat) : statement σ :=
  POSTCONDITION2 cfg cond cond_text cond_text file line

/-- The form `INVARIANT2(cond, msg)`: `contract_check__(invariant, cond, msg)`
unless `CONTRACT_DISABLE_INVARIANTS` is defined. -/
def INVARIANT2 (cfg : build_config) (cond : σ → Bool) (cond_text : String) (msg : String)
    (file : String) (line : Nat) : statement σ :=
  if !cfg.CONTRACT_DISABLE_INVARIANTS then
    statement.contract_check__ type.invariant cond msg cond_text file line
  else
    statement.disabled cond

/-- The form `INVARIANT1(cond)`: `INVARIANT2(cond, #cond)`. -/
def INVARIANT1 (cfg : build_config) (cond : σ → Bool) (cond_text : String)
    (file : String) (line : Nat) : statement σ :=
  INVARIANT2 cfg cond cond_text cond_text file line

/-- Preprocessing of one check: `PRECONDITION(...)`, `POSTCONDITION(...)` and
`INVARIANT(...)` dispatch on the argument count
(`concat__(PRECONDITION, arg_count__(__VA_ARGS__))`). -/
def check.expand (cfg : build_config) (c : check σ) : statement σ :=
  match c.kind, c.msg with
  | type.precondition, none => PRECONDITION1 cfg c.cond c.cond_text c.file c.line
  | type.precondition, some msg => PRECONDITION2 cfg c.cond c.cond_text msg c.file c.line
  | type.postcondition, none => POSTCONDITION1 cfg c.cond c.cond_text c.file c.line
  | type.postcondition, some msg => POSTCONDITION2 cfg c.cond c.cond_text msg c.file c.line
  | type.invariant, none => INVARIANT1 cfg c.cond c.cond_text c.file c.line
  | type.invariant, some msg => INVARIANT2 cfg c.cond c.cond_text msg c.file c.line

/-- A contract block: the checks written between the braces, in order. -/
abbrev block (σ : Type) := List (check σ)

/-- The body of the lambda (or of `class_contract__`) after preprocessing. -/
def expand (cfg : build_config) (b : block σ) : List (statement σ) :=
  b.map (check.expand cfg)

/-- A call `contr_(ctx)` of the contract lambda of a block. -/
def invoke (cfg : build_config) (b : block σ) (ctx : contract_context) (m : machine σ ε) :
    outcome ε × machine σ ε :=
  run_statements ctx (expand cfg b) (m.log (event.block_run ctx))

/-- The loop contract `contract_loop__`: `if (contract_context
contract_context__{false, false, true}) { ... }`; the conversion to `bool` is
always true, so the block runs once with that context. -/
def contract_loop__ (cfg : build_config) (b : block σ) (m : machine σ ε) :
    outcome ε × machine σ ε :=
  invoke cfg b (contract_context.mk false false true) m

/-! ## Class contracts and the hierarchy composer -/

/-- What a class declares about its contract: nothing (no member
`class_contract__` is visible), `CONTRACT(class) { body }`, or
`CONTRACT(derived)(bases...) { body }`.  `name` identifies the class in the
ghost log. -/
inductive class_decl (σ : Type) where
  | no_contract
  | contract_class__ (name : String) (body : block σ)
  | contract_derived__ (name : String) (bases : List (class_decl σ)) (body : block σ)

/-- The name of a class with a class contract (empty when it has none). -/
def class_decl.name : class_decl σ → String
  | class_decl.no_contract => ""
  | class_decl.contract_class__ name _ => name
  | class_decl.contract_derived__ name _ _ => name

/-- The bases listed in `CONTRACT(derived)(...)` (none otherwise). -/
def class_decl.bases : class_decl σ → List (class_decl σ)
  | class_decl.no_contract => []
  | class_decl.contract_class__ _ _ => []
  | class_decl.contract_derived__ _ bases _ => bases

/-- The block written as the body of `class_contract__` (empty when the class
has no contract). -/
def class_decl.body : class_decl σ → block σ
  | class_decl.no_contract => []
  | class_decl.contract_class__ _ body => body
  | class_decl.contract_derived__ _ _ body => body

namespace detail

/-- The metafunction `has_class_contract<T>::type::value`: whether
`class_contract__` can be called on a `T`. -/
def has_class_contract : class_decl σ → Bool
  | class_decl.no_contract => false
  | class_decl.contract_class__ _ _ => true
  | class_decl.contract_derived__ _ _ _ => true

end detail

/-- The member `T::class_contract__(contract_context__)`: the body the user
wrote after `CONTRACT(class)` or `CONTRACT(derived)(...)`. -/
def class_contract__ (cfg : build_config) (T : class_decl σ) (ctx : contract_context)
    (m : machine σ ε) : outcome ε × machine σ ε :=
  match T with
  | class_decl.no_contract => (outcome.normal, m)
  | class_decl.contract_class__ name body =>
      run_statements ctx (expand cfg body) (m.log (event.class_run name ctx))
  | class_decl.contract_derived__ name _ body =>
      run_statements ctx (expand cfg body) (m.log (event.class_run name ctx))

namespace detail

/-- The two overloads of `base_class_contract<Base, Bases...>::do_enforce`,
selected by `has_class_contract<T>`: call `obj->class_contract__(context)` or
do nothing. -/
def do_enforce (cfg : build_config) (T : class_decl σ) (context : contract_context)
    (m : machine σ ε) : outcome ε × machine σ ε :=
  if has_class_contract T then class_contract__ cfg T context m
  else (outcome.normal, m)

/-- The static member `base_class_contract<Bases...>::enforce`: the primary
template does nothing, the specialisation for `Base, Bases...` runs
`do_enforce` on the object viewed as `Base` and then recurses on `Bases...`. -/
def enforce (cfg : build_config) (context : contract_context) :
    List (class_decl σ) → machine σ ε → outcome ε × machine σ ε
  | [], m => (outcome.normal, m)
  | Base :: Bases, m =>
      match do_enforce cfg Base context m with
      | (outcome.normal, m1) => enforce cfg context Bases m1
      | r => r

end detail

/-- The member `T::prepare_contract__(contract_context__)`.  For
`CONTRACT(class)` it only returns its argument; for `CONTRACT(derived)(...)`
it first calls `base_class_contract<...>::enforce(this, contract_context__)`.
The context it returns is always its argument. -/
def prepare_contract__ (cfg : build_config) (T : class_decl σ) (ctx : contract_context)
    (m : machine σ ε) : outcome ε × machine σ ε :=
  match T with
  | class_decl.no_contract => (outcome.normal, m)
  | class_decl.contract_class__ _ _ => (outcome.normal, m)
  | class_decl.contract_derived__ _ bases _ => enforce cfg ctx bases m

/-- The expression `obj_->class_contract__(obj_->prepare_contract__(ctx))`. -/
def class_invariant (cfg : build_config) (T : class_decl σ) (ctx : contract_context)
    (m : machine σ ε) : outcome ε × machine σ ε :=
  match prepare_contract__ cfg T ctx m with
  | (outcome.normal, m1) => class_contract__ cfg T ctx m1
  | r => r

/-! ## Scope guards -/

namespace detail

/-- Constructor of `fun_contract`: `contr_(contract_context{true, false,
enter})`. -/
def fun_contract.constructor (cfg : build_config) (f : block σ) (enter : Bool)
    (m : machine σ ε) : outcome ε × machine σ ε :=
  invoke cfg f (contract_context.mk true false enter) m

/-- Destructor of `fun_contract`: `contr_(contract_context{false, true,
exit_})`. -/
def fun_contract.destructor (cfg : build_config) (contr_ : block σ) (exit_ : Bool)
    (m : machine σ ε) : outcome ε × machine σ ε :=
  invoke cfg contr_ (contract_context.mk false true exit_) m

/-- Constructor of `class_contract_base`. -/
def class_contract_base.constructor (cfg : build_config) (obj : class_decl σ) (enter : Bool)
    (m : machine σ ε) : outcome ε × machine σ ε :=
  if enter then class_invariant cfg obj (contract_context.mk false false true) m
  else (outcome.normal, m)

/-- Destructor of `class_contract_base`. -/
def class_contract_base.destructor (cfg : build_config) (obj_ : class_decl σ) (exit_ : Bool)
    (m : machine σ ε) : outcome ε × machine σ ε :=
  if exit_ && !m.uncaught_exception then
    class_invariant cfg obj_ (contract_context.mk false false true) m
  else (outcome.normal, m)

/-- The object `contract_obj__` of a guarded scope: a `fun_contract<Func>` or
a `class_contract<T, Func>`, with its constructor arguments. -/
inductive guard (σ : Type) where
  | fun_contract (f : block σ) (enter : Bool) (exit : Bool)
  | class_contract (obj : class_decl σ) (f : block σ) (enter : Bool) (exit : Bool)

/-- The expression `contractor<T>(obj, enter, exit) + f`: the specialisation
`contractor<T, false>` discards its arguments and builds `fun_contract<Func>{f,
true, true}`; `contractor<T, true>` builds `class_contract<T, Func>{obj_, f,
enter_, exit_}`. -/
def contractor (T : class_decl σ) (enter : Bool) (exit : Bool) (f : block σ) : guard σ :=
  if has_class_contract T then guard.class_contract T f enter exit
  else guard.fun_contract f true true

/-- Construction of the guard.  For `class_contract` the base
`class_contract_base<T>` is constructed first, then `fun_contract<ContrFunc>`;
if the second constructor exits via an exception the first base, already
constructed, is destroyed while the exception is in flight, and an exception
leaving that destructor ends the process. -/
def guard.construct (cfg : build_config) (g : guard σ) (m : machine σ ε) :
    outcome ε × machine σ ε :=
  match g with
  | guard.fun_contract f enter _ => fun_contract.constructor cfg f enter m
  | guard.class_contract obj f enter exit =>
      match class_contract_base.constructor cfg obj enter m with
      | (outcome.normal, m1) =>
          match fun_contract.constructor cfg f enter m1 with
          | (outcome.raised e, m2) =>
              match class_contract_base.destructor cfg obj exit m2 with
              | (outcome.normal, m3) => (outcome.raised e, m3)
              | (_, m3) => (outcome.terminated, m3)
          | r => r
      | r => r

/-- Destruction of the guard; `unwinding` tells whether it is destroyed by
stack unwinding (the guarded body exited via an exception).  Bases are
destroyed in reverse order: `fun_contract<ContrFunc>` first, then
`class_contract_base<T>`.  An exception leaving a destructor during stack
unwinding ends the process; when the first destructor exits via an exception
on the normal path, the remaining base is destroyed while that exception is
in flight. -/
def guard.destroy (cfg : build_config) (unwinding : Bool) (g : guard σ) (m : machine σ ε) :
    outcome ε × machine σ ε :=
  match g with
  | guard.fun_contract f _ exit =>
      match fun_contract.destructor cfg f exit m with
      | (outcome.raised e, m1) =>
          if unwinding then (outcome.terminated, m1) else (outcome.raised e, m1)
      | r => r
  | guard.class_contract obj f _ exit =>
      match fun_contract.destructor cfg f exit m with
      | (outcome.normal, m1) =>
          match class_contract_base.destructor cfg obj exit m1 with
          | (outcome.raised e, m2) =>
              if unwinding then (outcome.terminated, m2) else (outcome.raised e, m2)
          | r => r
      | (outcome.raised e, m1) =>
          if unwinding then (outcome.terminated, m1)
          else
            match class_contract_base.destructor cfg obj exit m1 with
            | (outcome.normal, m2) => (outcome.raised e, m2)
            | (_, m2) => (outcome.terminated, m2)
      | r => r

/-- The block held by a guard (its member `contr_`). -/
def guard.block : guard σ → block σ
  | guard.fun_contract f _ _ => f
  | guard.class_contract _ f _ _ => f

/-- The argument `enter` with which the `fun_contract` part of a guard is
constructed. -/
def guard.enter_ : guard σ → Bool
  | guard.fun_contract _ enter _ => enter
  | guard.class_contract _ _ enter _ => enter

/-- The member `exit_` of a guard. -/
def guard.exit_ : guard σ → Bool
  | guard.fun_contract _ _ exit => exit
  | guard.class_contract _ _ _ exit => exit

end detail

/-- The object built by `CONTRACT(fun)`: `contractor<void *>(0) + f`. -/
def contract_fun__ (f : block σ) : guard σ :=
  contractor class_decl.no_contract true true f

/-- The object built by `CONTRACT(mfun)` in a member of `T`:
`contractor<T>(this) + f`. -/
def contract_mfun__ (T : class_decl σ) (f : block σ) : guard σ :=
  contractor T true true f

/-- The object built by `CONTRACT(ctor)`: `contractor<T>(this, false, true) + f`. -/
def contract_ctor__ (T : class_decl σ) (f : block σ) : guard σ :=
  contractor T false true f

/-- The object built by `CONTRACT(dtor)`: `contractor<T>(this, true, false) + f`. -/
def contract_dtor__ (T : class_decl σ) (f : block σ) : guard σ :=
  contractor T true false f

/-- A guarded body: from the program state it computes the new state and
either completes, exits via an exception, or ends the process. -/
abbrev body (σ ε : Type) := σ → σ × outcome ε

/-- Execution of the guarded body; from the point where it throws, an
exception is in flight. -/
def run_body (b : body σ ε) (m : machine σ ε) : outcome ε × machine σ ε :=
  let m1 := { m.log event.body_run with state := (b m.state).1 }
  match (b m.state).2 with
  | outcome.raised e => (outcome.raised e, { m1 with uncaught_exception := true })
  | o => (o, m1)

/-- One activation of a guarded scope `{ CONTRACT(...) { block }; body }`:
the guard object is constructed, the body runs, the guard is destroyed, on
the normal path or by stack unwinding.  When a constructor of the guard exits
via an exception the object does not exist and its destructor is not run.
The object `contract_obj__` is initialised in place from the result of
`operator+`: no temporary guard is destroyed in between. -/
def run_guarded (cfg : build_config) (g : guard σ) (b : body σ ε) (m : machine σ ε) :
    outcome ε × machine σ ε :=
  match g.construct cfg m with
  | (outcome.normal, m1) =>
      match run_body b m1 with
      | (outcome.normal, m2) => g.destroy cfg false m2
      | (outcome.raised e, m2) =>
          match g.destroy cfg true m2 with
          | (outcome.normal, m3) => (outcome.raised e, m3)
          | (_, m3) => (outcome.terminated, m3)
      | r => r
  | r => r

/-! ## Observations on runs -/

/-- The record a check passes to `handle_violation` when it reports: the
message is the second argument, or `#cond` for the one-argument form. -/
def check.record (c : check σ) : violation_context :=
  violation_context.mk c.kind (c.msg.getD c.cond_text) c.cond_text c.file c.line

/-- Whether a statement calls `handle_violation` in a given context, flag and
program state: the test `contract_context__.check_TYPE() && !(COND)`. -/
def statement.fails (ctx : contract_context) (uncaught : Bool) (st : σ) : statement σ → Bool
  | statement.contract_check__ TYPE COND _ _ _ _ => check_ ctx TYPE uncaught && !(COND st)
  | statement.disabled _ => false

/-- Whether a check, as preprocessed in a build, reports. -/
def check.fails (cfg : build_config) (ctx : contract_context) (uncaught : Bool) (st : σ)
    (c : check σ) : Bool :=
  (c.expand cfg).fails ctx uncaught st

/-- The log entry of a statement whose condition gets evaluated. -/
def statement.evaluation (ctx : contract_context) (uncaught : Bool) : statement σ → List event
  | statement.contract_check__ TYPE _ MSG COND_text file line =>
      if check_ ctx TYPE uncaught then
        [event.evaluated (violation_context.mk TYPE MSG COND_text file line)]
      else []
  | statement.disabled _ => []

/-- The log entries of the evaluations made by a block whose checks all pass. -/
def evaluations (cfg : build_config) (ctx : contract_context) (uncaught : Bool)
    (b : block σ) : List event :=
  (expand cfg b).flatMap (statement.evaluation ctx uncaught)

/-- The records passed to the handler, in order, in a piece of log. -/
def handler_calls (tr : List event) : List violation_context :=
  tr.filterMap fun e =>
    match e with
    | event.handler_called c => some c
    | _ => none

/-- The records of the checks whose condition was evaluated, in order. -/
def evaluated_checks (tr : List event) : List violation_context :=
  tr.filterMap fun e =>
    match e with
    | event.evaluated c => some c
    | _ => none

/-- The classes whose `class_contract__` body was run, in order. -/
def class_runs (tr : List event) : List String :=
  tr.filterMap fun e =>
    match e with
    | event.class_run cls _ => some cls
    | _ => none

/-- The contexts passed to the `class_contract__` bodies that were run, in
order. -/
def class_run_contexts (tr : List event) : List contract_context :=
  tr.filterMap fun e =>
    match e with
    | event.class_run _ ctx => some ctx
    | _ => none

/-- The contexts with which the contract lambda was called, in order. -/
def block_runs (tr : List event) : List contract_context :=
  tr.filterMap fun e =>
    match e with
    | event.block_run ctx => some ctx
    | _ => none

/-- The log written by `enforce` over a list of bases whose checks all pass:
for each base that has a class contract, in order, the run of its body and the
evaluations made in it. -/
def enforce_trace (cfg : build_config) (ctx : contract_context) (uncaught : Bool)
    (bases : List (class_decl σ)) : List event :=
  (bases.filter has_class_contract).flatMap fun B =>
    event.class_run B.name ctx :: evaluations cfg ctx uncaught B.body

/-- The log written by the class invariant operation of `T` when all checks
pass: the bases, then the body of `T` itself. -/
def class_invariant_trace (cfg : build_config) (ctx : contract_context) (uncaught : Bool)
    (T : class_decl σ) : List event :=
  enforce_trace cfg ctx uncaught T.bases ++
    event.class_run T.name ctx :: evaluations cfg ctx uncaught T.body

/-- The order of composition the specification describes for the invariant of
a class: the bodies of the listed bases that have a class contract, in
declaration order, then the body of the class itself. -/
def composed_order (T : class_decl σ) : List String :=
  (T.bases.filter has_class_contract).map class_decl.name ++ [T.name]

/-- Whether no check of the class invariant of `T` fails in a context, flag
and program state: none in the bodies of the listed bases, none in the body
of `T` itself. -/
def class_invariant_passes (cfg : build_config) (ctx : contract_context) (uncaught : Bool)
    (st : σ) (T : class_decl σ) : Bool :=
  (T.bases.all fun B => B.body.all fun d => !d.fails cfg ctx uncaught st) &&
    T.body.all fun d => !d.fails cfg ctx uncaught st

/-- The log written before the block is run at entry when the class
invariant passes: the composed invariant for a type with a class contract
when `enter` is true, nothing otherwise. -/
def entry_class_trace (cfg : build_config) (T : class_decl σ) (enter : Bool) (uncaught : Bool) :
    List event :=
  if has_class_contract T && enter then
    class_invariant_trace cfg (contract_context.mk false false true) uncaught T
  else []

/-- The invariant flag of the entry context of the guard built by
`contractor<T>(obj, enter, exit) + f`: `enter` for a type with a class
contract, `true` otherwise. -/
def entry_invariant_flag (T : class_decl σ) (enter : Bool) : Bool :=
  if has_class_contract T then enter else true

/-- The invariant flag of the exit context of the guard built by
`contractor<T>(obj, enter, exit) + f`: `exit` for a type with a class
contract, `true` otherwise. -/
def exit_invariant_flag (T : class_decl σ) (exit : Bool) : Bool :=
  if has_class_contract T then exit else true

/-- A piece of log in which no handler is called, no block is run and no
guarded body runs. -/
def silent (tr : List event) : Prop :=
  handler_calls tr = [] ∧ block_runs tr = [] ∧ event.body_run ∉ tr

/-- The part of the log written by a run that started in `m`. -/
def emitted (m : machine σ ε) (r : outcome ε × machine σ ε) : List event :=
  r.2.trace.drop m.trace.length

/-- How a call of `handle_violation` ends, given how control leaves the
handler: a handler that returns is followed by `std::terminate()`. -/
def handler_exit.outcome : handler_exit ε → outcome ε
  | handler_exit.returns => outcome.terminated
  | handler_exit.raises e => outcome.raised e
  | handler_exit.terminates => outcome.terminated

/-- The shape of the log written by one phase of a guard (its construction or
its destruction): the guarded body does not run in it, the lambda of the block
is called only with contexts satisfying `P`, and the class contract bodies are
run only with the context `{false, false, true}`. -/
def phase_log (P : contract_context → Prop) (new : List event) : Prop :=
  event.body_run ∉ new ∧ (∀ ctx ∈ block_runs new, P ctx) ∧
  ∀ ctx ∈ class_run_contexts new, ctx = contract_context.mk false false true

/-- The result `r` of one phase of a guard started in `m`: the log is extended
by a piece of the shape `phase_log`; a phase that completes has called no
handler and left the in-flight flag as it was; a phase that does not complete
has called the handler exactly once; and an exception leaving the phase is in
flight. -/
def phase_ok (P : contract_context → Prop) (m : machine σ ε)
    (r : outcome ε × machine σ ε) : Prop :=
  ∃ new, r.2.trace = m.trace ++ new ∧ phase_log P new ∧
    (r.1 = outcome.normal →
      handler_calls new = [] ∧ r.2.uncaught_exception = m.uncaught_exception) ∧
    (r.1 ≠ outcome.normal → (handler_calls new).length = 1) ∧
    ∀ e, r.1 = outcome.raised e → r.2.uncaught_exception = true

/-- The contexts of the entry call of the lambda of a block. -/
def entry_context (ctx : contract_context) : Prop :=
  ctx.check_pre = true ∧ ctx.check_post = false

/-- The contexts of the exit call of the lambda of a block. -/
def exit_context (ctx : contract_context) : Prop :=
  ctx.check_pre = false ∧ ctx.check_post = true

/-- A piece of log in which every condition evaluated and every record passed
to the handler is that of an `INVARIANT` check. -/
def invariants_only (new : List event) : Prop :=
  (∀ rec ∈ evaluated_checks new, rec.contract_type = type.invariant) ∧
  ∀ rec ∈ handler_calls new, rec.contract_type = type.invariant

/-! ## The functions of the test suite -/

namespace test

/-- Modelled from the spec: the errors of the test helper `contract_error.hpp`,
which is not among the sources: the distinguishable error raised by the
substitute handler, carrying the kind and the message of the record, and the
unrelated error thrown by a test body. -/
inductive error where
  | contract_error (t : type) (message : String)
  | non_contract_error
deriving DecidableEq

/-- Modelled from the spec: the substitute handler installed by
`test::contract_handler_frame` (in `contract_error.hpp`, not among the
sources): it writes nothing and raises a `contract_error`. -/
def handler : violation_handler error :=
  fun c => { output := "", exit := handler_exit.raises (error.contract_error c.contract_type c.message) }

/-- A handler that falls off its end. -/
def returning_handler : violation_handler error :=
  fun _ => { output := "", exit := handler_exit.returns }

/-- The machine at the start of a test case: the substitute handler is
installed and no exception is in flight. -/
def start {σ : Type} (st : σ) : machine σ error :=
  { current_handler := handler, uncaught_exception := false, state := st, cerr := "", trace := [] }

/-- An empty function body. -/
def empty_body {σ : Type} : body σ error :=
  fun st => (st, outcome.normal)

/-- The check `PRECONDITION(pre)` of `fun_contract_test_all` in
`funcontract.cpp`; the program state is the triple of arguments
`(pre, inv, post)`. -/
def check_pre : check (Bool × Bool × Bool) :=
  { kind := type.precondition, cond := fun a => a.1, cond_text := "pre", msg := none,
    file := "funcontract.cpp", line := 47 }

/-- The check `INVARIANT(inv)` of `fun_contract_test_all`. -/
def check_inv : check (Bool × Bool × Bool) :=
  { kind := type.invariant, cond := fun a => a.2.1, cond_text := "inv", msg := none,
    file := "funcontract.cpp", line := 48 }

/-- The check `POSTCONDITION(post)` of `fun_contract_test_all`. -/
def check_post : check (Bool × Bool × Bool) :=
  { kind := type.postcondition, cond := fun a => a.2.2, cond_text := "post", msg := none,
    file := "funcontract.cpp", line := 49 }

/-- The block of `fun_contract_test_all(bool pre, bool inv, bool post)`. -/
def fun_contract_test_all : block (Bool × Bool × Bool) :=
  [check_pre, check_inv, check_post]

/-- The block of `fun_contract_test_postcondition_exception()`:
`POSTCONDITION(false)`. -/
def fun_contract_test_postcondition_exception : block Unit :=
  [ { kind := type.postcondition, cond := fun _ => false, cond_text := "false", msg := none,
      file := "funcontract.cpp", line := 39 } ]

/-- The body of `fun_contract_test_postcondition_exception()`:
`throw test::non_contract_error{}`. -/
def throwing_body {σ : Type} : body σ error :=
  fun st => (st, outcome.raised error.non_contract_error)

/-- The blocks of `disablepreconditions.cpp`, `disablepostconditions.cpp`
and `disableinvariants.cpp`: a single check of the given kind on the literal
`false`. -/
def check_false (kind : type) (file : String) (line : Nat) : block Unit :=
  [ { kind := kind, cond := fun _ => false, cond_text := "false", msg := none,
      file := file, line := line } ]

/-- The build of `disablepreconditions.cpp`, which defines
`CONTRACT_DISABLE_PRECONDITIONS` before including the header. -/
def disable_preconditions : build_config :=
  { CONTRACT_DISABLE_PRECONDITIONS := true
    CONTRACT_DISABLE_POSTCONDITIONS := false
    CONTRACT_DISABLE_INVARIANTS := false }

/-- A block with one invariant on a counter: `INVARIANT(x == 0)`. -/
def counter_invariant : block Nat :=
  [ { kind := type.invariant, cond := fun x => x == 0, cond_text := "x == 0", msg := none,
      file := "example.cpp", line := 3 } ]

/-- A body that sets the counter to one and then throws
`test::non_contract_error{}`. -/
def increment_and_throw : body Nat error :=
  fun _ => (1, outcome.raised error.non_contract_error)

/-- A body that throws `test::non_contract_error{}` and leaves the counter
alone. -/
def only_throw : body Nat error :=
  fun x => (x, outcome.raised error.non_contract_error)

/-- A class over a counter with `CONTRACT(class) { INVARIANT(x <= 10); }`. -/
def bounded : class_decl Nat :=
  class_decl.contract_class__ "bounded"
    [ { kind := type.invariant, cond := fun x => decide (x ≤ 10), cond_text := "x <= 10",
        msg := none, file := "example.cpp", line := 10 } ]

/-- The block `{ PRECONDITION(x < 10); }` of a method of `bounded`. -/
def below_ten : block Nat :=
  [ { kind := type.precondition, cond := fun x => decide (x < 10), cond_text := "x < 10",
      msg := none, file := "example.cpp", line := 20 } ]

/-- A method body that increments the counter. -/
def increment : body Nat error :=
  fun x => (x + 1, outcome.normal)

/-- A base class `A` with `CONTRACT(class) { INVARIANT(x <= 10); }`. -/
def base_a : class_decl Nat :=
  class_decl.contract_class__ "A"
    [ { kind := type.invariant, cond := fun x => decide (x ≤ 10), cond_text := "x <= 10",
        msg := none, file := "hierarchy.cpp", line := 5 } ]

/-- A base class `B` with `CONTRACT(class) { INVARIANT(x != 5); }`. -/
def base_b : class_decl Nat :=
  class_decl.contract_class__ "B"
    [ { kind := type.invariant, cond := fun x => x != 5, cond_text := "x != 5",
        msg := none, file := "hierarchy.cpp", line := 12 } ]

/-- The block `{ INVARIANT(x != 7); }` of the derived classes below. -/
def derived_body : block Nat :=
  [ { kind := type.invariant, cond := fun x => x != 7, cond_text := "x != 7",
      msg := none, file := "hierarchy.cpp", line := 20 } ]

/-- A class `D : A, B` with `CONTRACT(derived)(A, B) { INVARIANT(x != 7); }`. -/
def derived_d : class_decl Nat :=
  class_decl.contract_derived__ "D" [base_a, base_b] derived_body

/-- A class `E : P, B`, where `P` has no class contract, with
`CONTRACT(derived)(P, B) { INVARIANT(x != 7); }`. -/
def derived_e : class_decl Nat :=
  class_decl.contract_derived__ "E" [class_decl.no_contract, base_b] derived_body

/-- A class `G` with `CONTRACT(class) { INVARIANT(x == 0); }`. -/
def grand_g : class_decl Nat :=
  class_decl.contract_class__ "G"
    [ { kind := type.invariant, cond := fun x => x == 0, cond_text := "x == 0",
        msg := none, file := "chain.cpp", line := 5 } ]

/-- A class `B : G` with `CONTRACT(derived)(G) { INVARIANT(x <= 10); }`. -/
def middle_b : class_decl Nat :=
  class_decl.contract_derived__ "B" [grand_g]
    [ { kind := type.invariant, cond := fun x => decide (x ≤ 10), cond_text := "x <= 10",
        msg := none, file := "chain.cpp", line := 12 } ]

/-- A class `D : B` with `CONTRACT(derived)(B) { INVARIANT(x != 7); }`. -/
def leaf_d : class_decl Nat :=
  class_decl.contract_derived__ "D" [middle_b]
    [ { kind := type.invariant, cond := fun x => x != 7, cond_text := "x != 7",
        msg := none, file := "chain.cpp", line := 19 } ]

/-- A method body that leaves the counter alone. -/
def keep : body Nat error :=
  fun x => (x, outcome.normal)

/-- The check of `fun_contract_test_precondition(bool par, char const * msg)`
in `funcontract.cpp`, `PRECONDITION(par, msg)`, in the call with `msg` equal to
`"precondition"`; the program state is the argument `par`. -/
def check_par_msg : check Bool :=
  { kind := type.precondition, cond := fun par => par, cond_text := "par",
    msg := some "precondition", file := "funcontract.cpp", line := 14 }

/-- The check of `fun_contract_test_precondition(bool par)`: `PRECONDITION(par)`. -/
def check_par : check Bool :=
  { kind := type.precondition, cond := fun par => par, cond_text := "par",
    msg := none, file := "funcontract.cpp", line := 9 }

/-- The check `INVARIANT(i <= 10)` of a loop `CONTRACT(loop) { INVARIANT(i <=
10); }` over a counter. -/
def loop_invariant : check Nat :=
  { kind := type.invariant, cond := fun i => decide (i ≤ 10), cond_text := "i <= 10",
    msg := none, file := "loop.cpp", line := 7 }

/-- The machine of a test case entered while an exception is in flight. -/
def start_unwinding {σ : Type} (st : σ) : machine σ error :=
  { current_handler := handler, uncaught_exception := true, state := st, cerr := "", trace := [] }

/-- The block `{ INVARIANT(x == 1); }` of a constructor or destructor of a
class over a counter. -/
def is_one : block Nat :=
  [ { kind := type.invariant, cond := fun x => x == 1, cond_text := "x == 1", msg := none,
      file := "plain.cpp", line := 8 } ]

/-- A constructor body that establishes `x == 1`. -/
def set_one : body Nat error :=
  fun _ => (1, outcome.normal)

/-- A destructor body that tears the object down to `x == 0`. -/
def set_zero : body Nat error :=
  fun _ => (0, outcome.normal)

/-- A class over a counter with `CONTRACT(class) { INVARIANT(x <= 1); }`. -/
def at_most_one : class_decl Nat :=
  class_decl.contract_class__ "at_most_one"
    [ { kind := type.invariant, cond := fun x => decide (x ≤ 1), cond_text := "x <= 1",
        msg := none, file := "plain.cpp", line := 3 } ]

/-- The check `POSTCONDITION(x == 0)` over a counter. -/
def post_zero : check Nat :=
  { kind := type.postcondition, cond := fun x => x == 0, cond_text := "x == 0", msg := none,
    file := "example.cpp", line := 30 }

/-- The check `PRECONDITION(x < 10)` over a counter. -/
def pre_below_ten : check Nat :=
  { kind := type.precondition, cond := fun x => decide (x < 10), cond_text := "x < 10",
    msg := none, file := "example.cpp", line := 20 }

/-- A class over a counter whose class contract holds a check of each kind:
`CONTRACT(class) { PRECONDITION(x < 10); INVARIANT(x <= 10);
POSTCONDITION(x == 0); }`. -/
def mixed_contract : class_decl Nat :=
  class_decl.contract_class__ "mixed"
    [ pre_below_ten,
      { kind := type.invariant, cond := fun x => decide (x ≤ 10), cond_text := "x <= 10",
        msg := none, file := "example.cpp", line := 41 },
      post_zero ]

end test

/-! ## Basic lemmas -/

theorem machine_log_trace (m : machine σ ε) (e : event) :
    (m.log e).trace = m.trace ++ [e] := rfl

theorem statement_run_of_not_fails (ctx : contract_context) (s : statement σ)
    (m : machine σ ε) (h : s.fails ctx m.uncaught_exception m.state = false) :
    s.run ctx m =
      (outcome.normal,
        { m with trace := m.trace ++ s.evaluation ctx m.uncaught_exception }) := by
  cases s with
  | contract_check__ TYPE COND MSG COND_text file line =>
      simp only [statement.fails, Bool.and_eq_false_imp] at h
      by_cases hc : check_ ctx TYPE m.uncaught_exception = true
      · have hcond := h hc
        simp only [Bool.not_eq_false'] at hcond
        simp [statement.run, statement.evaluation, hc, machine.log, hcond]
      · simp [statement.run, statement.evaluation, hc]
  | disabled cond => simp [statement.run, statement.evaluation]

theorem statement_run_of_fails (ctx : contract_context) (s : statement σ)
    (m : machine σ ε) (h : s.fails ctx m.uncaught_exception m.state = true) :
    ∃ rec, s.record = some rec ∧
      s.run ctx m = handle_violation rec (m.log (event.evaluated rec)) := by
  cases s with
  | contract_check__ TYPE COND MSG COND_text file line =>
      simp only [statement.fails, Bool.and_eq_true, Bool.not_eq_true'] at h
      refine ⟨_, rfl, ?_⟩
      simp [statement.run, h.1, h.2, machine.log]
  | disabled cond => simp [statement.fails] at h

theorem run_statements_of_pass (ctx : contract_context) (ss : List (statement σ))
    (m : machine σ ε)
    (h : ∀ s ∈ ss, s.fails ctx m.uncaught_exception m.state = false) :
    run_statements ctx ss m =
      (outcome.normal,
        { m with trace := m.trace ++ ss.flatMap (statement.evaluation ctx m.uncaught_exception) }) := by
  induction ss generalizing m with
  | nil => simp [run_statements]
  | cons s rest ih =>
      have hs := h s (List.mem_cons_self _ _)
      have hrest : ∀ t ∈ rest, t.fails ctx m.uncaught_exception m.state = false :=
        fun t ht => h t (List.mem_cons_of_mem _ ht)
      rw [run_statements, statement_run_of_not_fails ctx s m hs]
      simp only
      rw [ih { m with trace := m.trace ++ s.evaluation ctx m.uncaught_exception } hrest]
      simp [List.flatMap_cons, List.append_assoc]

theorem run_statements_first_failure (ctx : contract_context)
    (pre : List (statement σ)) (s : statement σ) (rest : List (statement σ))
    (m : machine σ ε)
    (hpre : ∀ t ∈ pre, t.fails ctx m.uncaught_exception m.state = false)
    (hs : s.fails ctx m.uncaught_exception m.state = true) :
    ∃ rec, s.record = some rec ∧
      run_statements ctx (pre ++ s :: rest) m =
        handle_violation rec
          { m with trace := m.trace ++ pre.flatMap (statement.evaluation ctx m.uncaught_exception)
                      ++ [event.evaluated rec] } := by
  induction pre generalizing m with
  | nil =>
      obtain ⟨rec, hrec, hrun⟩ := statement_run_of_fails ctx s m hs
      refine ⟨rec, hrec, ?_⟩
      simp only [List.nil_append, run_statements, hrun, List.flatMap_nil, List.append_nil]
      unfold handle_violation
      cases hx : (m.current_handler rec).exit <;> simp [machine.log, hx]
  | cons t pre ih =>
      have ht := hpre t (List.mem_cons_self _ _)
      have hpre2 : ∀ u ∈ pre, u.fails ctx m.uncaught_exception m.state = false :=
        fun u hu => hpre u (List.mem_cons_of_mem _ hu)
      obtain ⟨rec, hrec, hrun⟩ :=
        ih { m with trace := m.trace ++ t.evaluation ctx m.uncaught_exception } hpre2 hs
      refine ⟨rec, hrec, ?_⟩
      rw [List.cons_append, run_statements, statement_run_of_not_fails ctx t m ht]
      simp only
      rw [hrun]
      simp [List.flatMap_cons, List.append_assoc]

theorem emitted_of_trace_eq (m : machine σ ε) (r : outcome ε × machine σ ε)
    (new : List event) (h : r.2.trace = m.trace ++ new) : emitted m r = new := by
  simp [emitted, h]

/-- Preprocessing of a check in one formula: the check statement with the
record of the check, unless its kind is disabled. -/
theorem check_expand_eq (cfg : build_config) (c : check σ) :
    c.expand cfg =
      if cfg.disabled c.kind = true then statement.disabled c.cond
      else statement.contract_check__ c.kind c.cond (c.msg.getD c.cond_text) c.cond_text
        c.file c.line := by
  unfold check.expand
  cases hk : c.kind <;> cases hm : c.msg <;>
    simp only [PRECONDITION1, PRECONDITION2, POSTCONDITION1, POSTCONDITION2, INVARIANT1,
      INVARIANT2, build_config.disabled, Option.getD] <;>
    split <;> simp_all

theorem check_fails_eq (cfg : build_config) (ctx : contract_context) (uncaught : Bool)
    (st : σ) (c : check σ) :
    c.fails cfg ctx uncaught st =
      (!cfg.disabled c.kind && (check_ ctx c.kind uncaught && !c.cond st)) := by
  unfold check.fails
  rw [check_expand_eq]
  cases hd : cfg.disabled c.kind <;> simp [statement.fails]

theorem check_expand_record (cfg : build_config) (c : check σ)
    (h : cfg.disabled c.kind = false) : (c.expand cfg).record = some c.record := by
  rw [check_expand_eq, h]
  simp [statement.record, check.record]

theorem handler_calls_append (a b : List event) :
    handler_calls (a ++ b) = handler_calls a ++ handler_calls b := by
  simp [handler_calls, List.filterMap_append]

theorem handler_calls_cons_called (c : violation_context) (t : List event) :
    handler_calls (event.handler_called c :: t) = c :: handler_calls t := rfl

theorem handler_calls_cons_block_run (ctx : contract_context) (t : List event) :
    handler_calls (event.block_run ctx :: t) = handler_calls t := rfl

theorem handler_calls_cons_class_run (cls : String) (ctx : contract_context) (t : List event) :
    handler_calls (event.class_run cls ctx :: t) = handler_calls t := rfl

theorem handler_calls_cons_evaluated (c : violation_context) (t : List event) :
    handler_calls (event.evaluated c :: t) = handler_calls t := rfl

theorem handler_calls_cons_body_run (t : List event) :
    handler_calls (event.body_run :: t) = handler_calls t := rfl

theorem handler_calls_nil : handler_calls [] = [] := rfl

theorem block_runs_append (a b : List event) :
    block_runs (a ++ b) = block_runs a ++ block_runs b := by
  simp [block_runs, List.filterMap_append]

theorem class_runs_append (a b : List event) :
    class_runs (a ++ b) = class_runs a ++ class_runs b := by
  simp [class_runs, List.filterMap_append]

theorem evaluation_cases (ctx : contract_context) (uncaught : Bool) (s : statement σ)
    (e : event) (h : e ∈ s.evaluation ctx uncaught) : ∃ c, e = event.evaluated c := by
  cases s with
  | contract_check__ TYPE COND MSG COND_text file line =>
      simp only [statement.evaluation] at h
      split at h
      · simp only [List.mem_singleton] at h
        exact ⟨_, h⟩
      · simp at h
  | disabled cond => simp [statement.evaluation] at h

theorem evaluations_cases (cfg : build_config) (ctx : contract_context) (uncaught : Bool)
    (b : block σ) (e : event) (h : e ∈ evaluations cfg ctx uncaught b) :
    ∃ c, e = event.evaluated c := by
  simp only [evaluations, List.mem_flatMap] at h
  obtain ⟨s, _, hs⟩ := h
  exact evaluation_cases ctx uncaught s e hs

theorem filterMap_eq_nil_of_forall {α β : Type} (f : α → Option β) (l : List α)
    (h : ∀ a ∈ l, f a = none) : l.filterMap f = [] := by
  induction l with
  | nil => rfl
  | cons a t ih =>
      have ha := h a (List.mem_cons_self _ _)
      simp only [List.filterMap_cons, ha]
      exact ih fun x hx => h x (List.mem_cons_of_mem _ hx)

theorem handler_calls_evaluations (cfg : build_config) (ctx : contract_context)
    (uncaught : Bool) (b : block σ) :
    handler_calls (evaluations cfg ctx uncaught b) = [] := by
  apply filterMap_eq_nil_of_forall
  intro e he
  obtain ⟨c, rfl⟩ := evaluations_cases cfg ctx uncaught b e he
  rfl

theorem block_runs_evaluations (cfg : build_config) (ctx : contract_context)
    (uncaught : Bool) (b : block σ) :
    block_runs (evaluations cfg ctx uncaught b) = [] := by
  apply filterMap_eq_nil_of_forall
  intro e he
  obtain ⟨c, rfl⟩ := evaluations_cases cfg ctx uncaught b e he
  rfl

theorem class_runs_evaluations (cfg : build_config) (ctx : contract_context)
    (uncaught : Bool) (b : block σ) :
    class_runs (evaluations cfg ctx uncaught b) = [] := by
  apply filterMap_eq_nil_of_forall
  intro e he
  obtain ⟨c, rfl⟩ := evaluations_cases cfg ctx uncaught b e he
  rfl

theorem body_run_not_mem_evaluations (cfg : build_config) (ctx : contract_context)
    (uncaught : Bool) (b : block σ) :
    event.body_run ∉ evaluations cfg ctx uncaught b := by
  intro h
  obtain ⟨c, hc⟩ := evaluations_cases cfg ctx uncaught b _ h
  cases hc

/-- A block all of whose checks pass: the lambda returns normally and logs
the evaluations it made. -/
theorem invoke_of_pass (cfg : build_config) (b : block σ) (ctx : contract_context)
    (m : machine σ ε)
    (h : ∀ d ∈ b, d.fails cfg ctx m.uncaught_exception m.state = false) :
    invoke cfg b ctx m =
      (outcome.normal,
        { m with trace := m.trace ++ event.block_run ctx ::
                    evaluations cfg ctx m.uncaught_exception b }) := by
  unfold invoke
  rw [run_statements_of_pass]
  · simp [machine.log, evaluations, List.append_assoc]
  · intro s hs
    simp only [expand, List.mem_map] at hs
    obtain ⟨d, hd, rfl⟩ := hs
    exact h d hd

/-- A block whose first failing check is `c`: the lambda ends in
`handle_violation` with the record of `c`. -/
theorem invoke_first_failure (cfg : build_config) (pre : block σ) (c : check σ)
    (rest : block σ) (ctx : contract_context) (m : machine σ ε)
    (hpre : ∀ d ∈ pre, d.fails cfg ctx m.uncaught_exception m.state = false)
    (hc : c.fails cfg ctx m.uncaught_exception m.state = true) :
    invoke cfg (pre ++ c :: rest) ctx m =
      handle_violation c.record
        { m with trace := m.trace ++ event.block_run ctx ::
                    (evaluations cfg ctx m.uncaught_exception pre ++
                      [event.evaluated c.record]) } := by
  have hen : cfg.disabled c.kind = false := by
    rw [check_fails_eq] at hc
    simp only [Bool.and_eq_true, Bool.not_eq_true'] at hc
    exact hc.1
  unfold invoke
  simp only [expand, List.map_append, List.map_cons]
  obtain ⟨rec, hrec, hrun⟩ :=
    run_statements_first_failure ctx (pre.map (check.expand cfg)) (c.expand cfg)
      (rest.map (check.expand cfg)) (m.log (event.block_run ctx))
      (by
        intro s hs
        simp only [List.mem_map] at hs
        obtain ⟨d, hd, rfl⟩ := hs
        exact hpre d hd)
      hc
  rw [check_expand_record cfg c hen] at hrec
  cases hrec
  rw [hrun]
  simp [machine.log, evaluations, expand, List.append_assoc]

/-! ## Function contracts -/

theorem contract_fun_eq (f : block σ) :
    contract_fun__ f = guard.fun_contract f true true := rfl

/-- C1: in a `CONTRACT(fun)` block, with preconditions enabled and a handler
that raises `e` on the record, a `PRECONDITION` whose condition is false at
entry, preceded only by checks that do not fail at entry, makes the
activation end with the error `e`; the handler is called exactly once, with
the record of that check, of kind precondition; the body does not run, the
block is run once only (with the entry context), and the program state is
untouched. -/
theorem C1_precondition_failure_stops_before_body
    (cfg : build_config) (hcfg : cfg.CONTRACT_DISABLE_PRECONDITIONS = false)
    (pre : block σ) (c : check σ) (rest : block σ) (b : body σ ε) (m : machine σ ε) (e : ε)
    (hkind : c.kind = type.precondition)
    (hhandler : (m.current_handler c.record).exit = handler_exit.raises e)
    (hpre : ∀ d ∈ pre,
      d.fails cfg (contract_context.mk true false true) m.uncaught_exception m.state = false)
    (hcond : c.cond m.state = false) :
    (run_guarded cfg (contract_fun__ (pre ++ c :: rest)) b m).1 = outcome.raised e ∧
    emitted m (run_guarded cfg (contract_fun__ (pre ++ c :: rest)) b m) =
      event.block_run (contract_context.mk true false true) ::
        (evaluations cfg (contract_context.mk true false true) m.uncaught_exception pre ++
          [event.evaluated c.record, event.handler_called c.record]) ∧
    handler_calls (emitted m (run_guarded cfg (contract_fun__ (pre ++ c :: rest)) b m)) =
      [c.record] ∧
    c.record.contract_type = type.precondition ∧
    event.body_run ∉ emitted m (run_guarded cfg (contract_fun__ (pre ++ c :: rest)) b m) ∧
    block_runs (emitted m (run_guarded cfg (contract_fun__ (pre ++ c :: rest)) b m)) =
      [contract_context.mk true false true] ∧
    (run_guarded cfg (contract_fun__ (pre ++ c :: rest)) b m).2.state = m.state := by
  have hfail : c.fails cfg (contract_context.mk true false true) m.uncaught_exception m.state
      = true := by
    rw [check_fails_eq, hkind]
    simp [build_config.disabled, hcfg, check_, contract_context.check_precondition, hcond]
  have hrun : run_guarded cfg (contract_fun__ (pre ++ c :: rest)) b m =
      (outcome.raised e,
        { m with
          trace := m.trace ++ event.block_run (contract_context.mk true false true) ::
            (evaluations cfg (contract_context.mk true false true) m.uncaught_exception pre ++
              [event.evaluated c.record, event.handler_called c.record])
          cerr := m.cerr ++ (m.current_handler c.record).output
          uncaught_exception := true }) := by
    simp only [run_guarded, contract_fun_eq, guard.construct, fun_contract.constructor]
    rw [invoke_first_failure cfg pre c rest _ m hpre hfail]
    simp [handle_violation, hhandler, machine.log, List.append_assoc]
  have hem := emitted_of_trace_eq m _ _ (congrArg (fun r => r.2.trace) hrun)
  rw [hem]
  refine ⟨by rw [hrun], rfl, ?_, ?_, ?_, ?_, by rw [hrun]⟩
  · rw [← List.singleton_append, handler_calls_append, handler_calls_append,
      handler_calls_evaluations]
    rfl
  · simp [check.record, hkind]
  · intro h
    simp only [List.mem_cons, List.mem_append, List.mem_singleton, List.not_mem_nil] at h
    rcases h with h | h | h | h | h
    · cases h
    · exact body_run_not_mem_evaluations _ _ _ _ h
    · cases h
    · cases h
    · exact h
  · rw [← List.singleton_append, block_runs_append, block_runs_append,
      block_runs_evaluations]
    rfl

/-- Witness of C1 on `fun_contract_test_all(false, true, true)` of
`funcontract.cpp`: the caller observes the error of the precondition, the
handler was called once with the precondition record, the body did not run. -/
theorem C1_witness_fun_contract_test_all :
    (run_guarded build_config.all_enabled (contract_fun__ test.fun_contract_test_all)
        test.empty_body (test.start (false, true, true))).1 =
      outcome.raised (test.error.contract_error type.precondition "pre") ∧
    handler_calls (emitted (test.start (false, true, true))
        (run_guarded build_config.all_enabled (contract_fun__ test.fun_contract_test_all)
          test.empty_body (test.start (false, true, true)))) =
      [violation_context.mk type.precondition "pre" "pre" "funcontract.cpp" 47] ∧
    event.body_run ∉ emitted (test.start (false, true, true))
        (run_guarded build_config.all_enabled (contract_fun__ test.fun_contract_test_all)
          test.empty_body (test.start (false, true, true))) :=
  have h := C1_precondition_failure_stops_before_body build_config.all_enabled rfl []
    test.check_pre [test.check_inv, test.check_post]
    test.empty_body (test.start (false, true, true))
    (test.error.contract_error type.precondition "pre") rfl rfl
    (fun _ hd => absurd hd (List.not_mem_nil _)) rfl
  ⟨h.1, h.2.2.1, h.2.2.2.2.1⟩

theorem handle_violation_outcome (context : violation_context) (m : machine σ ε) :
    (handle_violation context m).1 = (m.current_handler context).exit.outcome := by
  unfold handle_violation
  cases h : (m.current_handler context).exit <;> simp [h, handler_exit.outcome]

theorem handle_violation_trace (context : violation_context) (m : machine σ ε) :
    (handle_violation context m).2.trace = m.trace ++ [event.handler_called context] := by
  unfold handle_violation
  cases h : (m.current_handler context).exit <;> simp [h, machine.log]

theorem handle_violation_state (context : violation_context) (m : machine σ ε) :
    (handle_violation context m).2.state = m.state := by
  unfold handle_violation
  cases h : (m.current_handler context).exit <;> simp [h, machine.log]

theorem handle_violation_handler (context : violation_context) (m : machine σ ε) :
    (handle_violation context m).2.current_handler = m.current_handler := by
  unfold handle_violation
  cases h : (m.current_handler context).exit <;> simp [h, machine.log]

theorem handle_violation_not_normal (context : violation_context) (m : machine σ ε) :
    (handle_violation context m).1 ≠ outcome.normal := by
  unfold handle_violation
  cases h : (m.current_handler context).exit <;> simp [h]

theorem run_body_of_normal (b : body σ ε) (m : machine σ ε)
    (h : (b m.state).2 = outcome.normal) :
    run_body b m =
      (outcome.normal,
        { m with trace := m.trace ++ [event.body_run], state := (b m.state).1 }) := by
  simp [run_body, h, machine.log]

theorem run_body_of_raised (b : body σ ε) (m : machine σ ε) (e : ε)
    (h : (b m.state).2 = outcome.raised e) :
    run_body b m =
      (outcome.raised e,
        { m with trace := m.trace ++ [event.body_run], state := (b m.state).1,
                 uncaught_exception := true }) := by
  simp [run_body, h, machine.log]

/-- On the normal path the destructor of a `fun_contract` passes on whatever
the exit call of the block gives. -/
theorem fun_contract_destroy_normal_path (cfg : build_config) (f : block σ)
    (enter exit : Bool) (m : machine σ ε) :
    (guard.fun_contract f enter exit).destroy cfg false m =
      fun_contract.destructor cfg f exit m := by
  simp only [guard.destroy]
  split <;> simp_all

/-- C2: in a `CONTRACT(fun)` block, with postconditions enabled, no error in
flight, an entry phase in which no check fails and a body that completes
normally, a `POSTCONDITION` whose condition is false at exit, preceded only by
checks that do not fail at exit, is reported: the handler is called exactly
once, with the record of that check, of kind postcondition; the call comes
after the body has run and none comes before it; the activation ends as the
handler call ends, never normally. -/
theorem C2_postcondition_failure_reported_after_body
    (cfg : build_config) (hcfg : cfg.CONTRACT_DISABLE_POSTCONDITIONS = false)
    (pre : block σ) (c : check σ) (rest : block σ) (b : body σ ε) (m : machine σ ε)
    (hkind : c.kind = type.postcondition)
    (hflag : m.uncaught_exception = false)
    (hentry : ∀ d ∈ pre ++ c :: rest,
      d.fails cfg (contract_context.mk true false true) false m.state = false)
    (hbody : (b m.state).2 = outcome.normal)
    (hpre : ∀ d ∈ pre,
      d.fails cfg (contract_context.mk false true true) false (b m.state).1 = false)
    (hcond : c.cond (b m.state).1 = false) :
    emitted m (run_guarded cfg (contract_fun__ (pre ++ c :: rest)) b m) =
      (event.block_run (contract_context.mk true false true) ::
        evaluations cfg (contract_context.mk true false true) false (pre ++ c :: rest)) ++
      event.body_run ::
      (event.block_run (contract_context.mk false true true) ::
        (evaluations cfg (contract_context.mk false true true) false pre ++
          [event.evaluated c.record, event.handler_called c.record])) ∧
    handler_calls (emitted m (run_guarded cfg (contract_fun__ (pre ++ c :: rest)) b m)) =
      [c.record] ∧
    c.record.contract_type = type.postcondition ∧
    handler_calls (event.block_run (contract_context.mk true false true) ::
        evaluations cfg (contract_context.mk true false true) false (pre ++ c :: rest)) = [] ∧
    (run_guarded cfg (contract_fun__ (pre ++ c :: rest)) b m).1 =
      (m.current_handler c.record).exit.outcome ∧
    (run_guarded cfg (contract_fun__ (pre ++ c :: rest)) b m).1 ≠ outcome.normal := by
  have hfail : c.fails cfg (contract_context.mk false true true) false (b m.state).1
      = true := by
    rw [check_fails_eq, hkind]
    simp [build_config.disabled, hcfg, check_, contract_context.check_postcondition, hcond]
  have hrun : run_guarded cfg (contract_fun__ (pre ++ c :: rest)) b m =
      handle_violation c.record
        { m with
          trace := m.trace ++
            ((event.block_run (contract_context.mk true false true) ::
              evaluations cfg (contract_context.mk true false true) false (pre ++ c :: rest)) ++
            event.body_run ::
            (event.block_run (contract_context.mk false true true) ::
              (evaluations cfg (contract_context.mk false true true) false pre ++
                [event.evaluated c.record])))
          state := (b m.state).1 } := by
    simp only [run_guarded, contract_fun_eq, guard.construct, fun_contract.constructor]
    rw [invoke_of_pass cfg _ _ m (by rw [hflag]; exact hentry)]
    simp only
    rw [run_body_of_normal b _ (by exact hbody)]
    simp only
    rw [fun_contract_destroy_normal_path, fun_contract.destructor,
      invoke_first_failure cfg pre c rest _ _ (by simpa [hflag] using hpre)
        (by simpa [hflag] using hfail)]
    simp [hflag, List.append_assoc]
  have htrace := handle_violation_trace c.record
    { m with
      trace := m.trace ++
        ((event.block_run (contract_context.mk true false true) ::
          evaluations cfg (contract_context.mk true false true) false (pre ++ c :: rest)) ++
        event.body_run ::
        (event.block_run (contract_context.mk false true true) ::
          (evaluations cfg (contract_context.mk false true true) false pre ++
            [event.evaluated c.record])))
      state := (b m.state).1 }
  rw [← hrun] at htrace
  have hem := emitted_of_trace_eq m _
    ((event.block_run (contract_context.mk true false true) ::
        evaluations cfg (contract_context.mk true false true) false (pre ++ c :: rest)) ++
      event.body_run ::
      (event.block_run (contract_context.mk false true true) ::
        (evaluations cfg (contract_context.mk false true true) false pre ++
          [event.evaluated c.record, event.handler_called c.record])))
    (by rw [htrace]; simp [List.append_assoc])
  have hentry_calls : handler_calls (event.block_run (contract_context.mk true false true) ::
        evaluations cfg (contract_context.mk true false true) false (pre ++ c :: rest)) = [] := by
    rw [← List.singleton_append, handler_calls_append, handler_calls_evaluations]
    rfl
  refine ⟨hem, ?_, by simp [check.record, hkind], hentry_calls, ?_, ?_⟩
  · rw [hem, handler_calls_append, hentry_calls]
    simp [handler_calls_cons_body_run, handler_calls_cons_block_run, handler_calls_append,
      handler_calls_evaluations, handler_calls_cons_evaluated, handler_calls_cons_called,
      handler_calls_nil]
  · rw [hrun, handle_violation_outcome]
  · rw [hrun]
    exact handle_violation_not_normal _ _

/-- Witness of C2 on `fun_contract_test_all(true, true, false)` of
`funcontract.cpp`: the handler is called once, with the postcondition record,
and the caller observes the error it raises. -/
theorem C2_witness_fun_contract_test_all :
    handler_calls (emitted (test.start (true, true, false))
        (run_guarded build_config.all_enabled (contract_fun__ test.fun_contract_test_all)
          test.empty_body (test.start (true, true, false)))) =
      [violation_context.mk type.postcondition "post" "post" "funcontract.cpp" 49] ∧
    (run_guarded build_config.all_enabled (contract_fun__ test.fun_contract_test_all)
        test.empty_body (test.start (true, true, false))).1 =
      outcome.raised (test.error.contract_error type.postcondition "post") :=
  have h := C2_postcondition_failure_reported_after_body build_config.all_enabled rfl
    [test.check_pre, test.check_inv] test.check_post []
    test.empty_body (test.start (true, true, false)) rfl rfl
    (by decide) rfl (by decide) rfl
  ⟨h.2.1, h.2.2.2.2.1⟩

theorem evaluation_expand (cfg : build_config) (ctx : contract_context) (uncaught : Bool)
    (c : check σ) :
    (c.expand cfg).evaluation ctx uncaught =
      if (!cfg.disabled c.kind && check_ ctx c.kind uncaught) = true then
        [event.evaluated c.record]
      else [] := by
  rw [check_expand_eq]
  cases hd : cfg.disabled c.kind <;> simp [statement.evaluation, check.record]

theorem evaluations_of_inactive (cfg : build_config) (ctx : contract_context)
    (uncaught : Bool) (b : block σ)
    (h : ∀ d ∈ b, (!cfg.disabled d.kind && check_ ctx d.kind uncaught) = false) :
    evaluations cfg ctx uncaught b = [] := by
  simp only [evaluations, expand, List.flatMap_eq_nil_iff, List.mem_map]
  rintro s ⟨d, hd, rfl⟩
  rw [evaluation_expand, h d hd]
  rfl

theorem check_fails_of_inactive (cfg : build_config) (ctx : contract_context)
    (uncaught : Bool) (st : σ) (c : check σ)
    (h : (!cfg.disabled c.kind && check_ ctx c.kind uncaught) = false) :
    c.fails cfg ctx uncaught st = false := by
  rw [check_fails_eq, ← Bool.and_assoc, h]
  rfl

theorem check_postcondition_unwinding (ctx : contract_context) :
    check_ ctx type.postcondition true = false := by
  simp [check_, contract_context.check_postcondition]

/-- A block none of whose checks is active in the context: the lambda only
runs through. -/
theorem invoke_of_inactive (cfg : build_config) (b : block σ) (ctx : contract_context)
    (m : machine σ ε)
    (h : ∀ d ∈ b, (!cfg.disabled d.kind && check_ ctx d.kind m.uncaught_exception) = false) :
    invoke cfg b ctx m = (outcome.normal, m.log (event.block_run ctx)) := by
  rw [invoke_of_pass cfg b ctx m
    (fun d hd => check_fails_of_inactive cfg _ _ _ d (h d hd)),
    evaluations_of_inactive cfg _ _ b h]
  rfl

/-- On the unwinding path the destructor of a `fun_contract` whose exit call
of the block returns normally returns normally. -/
theorem fun_contract_destroy_of_normal (cfg : build_config) (f : block σ)
    (enter exit unwinding : Bool) (m m1 : machine σ ε)
    (h : fun_contract.destructor cfg f exit m = (outcome.normal, m1)) :
    (guard.fun_contract f enter exit).destroy cfg unwinding m = (outcome.normal, m1) := by
  simp [guard.destroy, h]

/-- C3: when the block of a guarded function contains only `POSTCONDITION`
checks and the body raises `e`, then, whatever their conditions, the build
and the flag in flight at entry: no condition is evaluated, the handler is
never called, the log shows the entry call of the block, the body and the
exit call only, and the caller observes exactly `e`; and `check_postcondition()`
is false under an in-flight exception for every context. -/
theorem C3_postconditions_skipped_when_body_raises
    (cfg : build_config) (blk : block σ) (b : body σ ε) (m : machine σ ε) (e : ε)
    (hblk : ∀ d ∈ blk, d.kind = type.postcondition)
    (hbody : (b m.state).2 = outcome.raised e) :
    (∀ ctx : contract_context, ctx.check_postcondition true = false) ∧
    (run_guarded cfg (contract_fun__ blk) b m).1 = outcome.raised e ∧
    emitted m (run_guarded cfg (contract_fun__ blk) b m) =
      [event.block_run (contract_context.mk true false true), event.body_run,
        event.block_run (contract_context.mk false true true)] ∧
    handler_calls (emitted m (run_guarded cfg (contract_fun__ blk) b m)) = [] ∧
    evaluated_checks (emitted m (run_guarded cfg (contract_fun__ blk) b m)) = [] := by
  have hin1 : ∀ d ∈ blk, (!cfg.disabled d.kind &&
      check_ (contract_context.mk true false true) d.kind m.uncaught_exception) = false := by
    intro d hd
    rw [hblk d hd]
    simp [check_, contract_context.check_postcondition]
  have hin2 : ∀ d ∈ blk, (!cfg.disabled d.kind &&
      check_ (contract_context.mk false true true) d.kind true) = false := by
    intro d hd
    rw [hblk d hd, check_postcondition_unwinding, Bool.and_false]
  have hrun : run_guarded cfg (contract_fun__ blk) b m =
      (outcome.raised e,
        { m with
          trace := m.trace ++
            [event.block_run (contract_context.mk true false true), event.body_run,
              event.block_run (contract_context.mk false true true)]
          state := (b m.state).1
          uncaught_exception := true }) := by
    simp only [run_guarded, contract_fun_eq, guard.construct, fun_contract.constructor]
    rw [invoke_of_inactive cfg _ _ m hin1]
    simp only
    rw [run_body_of_raised b _ e (by exact hbody)]
    simp only
    rw [fun_contract_destroy_of_normal cfg blk true true true _ _
      (invoke_of_inactive cfg blk _ _ (by exact hin2))]
    simp [machine.log, List.append_assoc]
  have hem := emitted_of_trace_eq m _ _ (congrArg (fun r => r.2.trace) hrun)
  refine ⟨fun ctx => by simp [contract_context.check_postcondition], by rw [hrun], hem, ?_, ?_⟩
  · rw [hem]
    rfl
  · rw [hem]
    rfl

/-- Witness of C3 on `fun_contract_test_postcondition_exception()` of
`funcontract.cpp`: `POSTCONDITION(false)` followed by `throw
test::non_contract_error{}` gives `non_contract_error` and no handler call. -/
theorem C3_witness_postcondition_exception :
    (run_guarded build_config.all_enabled
        (contract_fun__ test.fun_contract_test_postcondition_exception)
        test.throwing_body (test.start ())).1 =
      outcome.raised test.error.non_contract_error ∧
    handler_calls (emitted (test.start ())
        (run_guarded build_config.all_enabled
          (contract_fun__ test.fun_contract_test_postcondition_exception)
          test.throwing_body (test.start ()))) = [] :=
  have h := C3_postconditions_skipped_when_body_raises build_config.all_enabled
    test.fun_contract_test_postcondition_exception test.throwing_body (test.start ())
    test.error.non_contract_error (by decide) rfl
  ⟨h.2.1, h.2.2.2.1⟩

/-! ## The handler registry -/

/-- C9: with `h1` installed, `set_handler(h2)` returns `h1` and afterwards
`get_handler()` returns `h2`; a following `set_handler(h1)` returns `h2` and
gives back exactly the machine there was before the first call, so that
`handle_violation` behaves on every record as it did before, calling `h1`. -/
theorem C9_set_handler_is_a_swap (m : machine σ ε) (h1 h2 : violation_handler ε) :
    (set_handler h2 { m with current_handler := h1 }).1 = h1 ∧
    get_handler (set_handler h2 { m with current_handler := h1 }).2 = h2 ∧
    (set_handler h1 (set_handler h2 { m with current_handler := h1 }).2).1 = h2 ∧
    (set_handler h1 (set_handler h2 { m with current_handler := h1 }).2).2 =
      { m with current_handler := h1 } ∧
    get_handler (set_handler h1 (set_handler h2 { m with current_handler := h1 }).2).2 = h1 ∧
    ∀ context : violation_context,
      handle_violation context
          (set_handler h1 (set_handler h2 { m with current_handler := h1 }).2).2 =
        handle_violation context { m with current_handler := h1 } :=
  ⟨rfl, rfl, rfl, rfl, rfl, fun _ => rfl⟩

/-- C10: `handle_violation` calls the installed handler exactly once, with
the record it was given, and writes what the handler writes; it never returns
normally: it ends as the handler call ends, where a handler that returns is
followed by termination and a handler that raises `e` gives the error `e`; the
installed handler and the program state are those of before the call. -/
theorem C10_handle_violation_never_returns (context : violation_context) (m : machine σ ε) :
    emitted m (handle_violation context m) = [event.handler_called context] ∧
    handler_calls (emitted m (handle_violation context m)) = [context] ∧
    (handle_violation context m).2.cerr = m.cerr ++ (m.current_handler context).output ∧
    (handle_violation context m).1 ≠ outcome.normal ∧
    (handle_violation context m).1 = (m.current_handler context).exit.outcome ∧
    (handler_exit.returns : handler_exit ε).outcome = outcome.terminated ∧
    (handler_exit.terminates : handler_exit ε).outcome = outcome.terminated ∧
    (∀ e : ε, (handler_exit.raises e).outcome = outcome.raised e) ∧
    (handle_violation context m).2.current_handler = m.current_handler ∧
    get_handler (handle_violation context m).2 = get_handler m ∧
    (handle_violation context m).2.state = m.state := by
  have hem := emitted_of_trace_eq m _ _ (handle_violation_trace context m)
  refine ⟨hem, by rw [hem]; rfl, ?_, handle_violation_not_normal context m,
    handle_violation_outcome context m, rfl, rfl, fun _ => rfl,
    handle_violation_handler context m, handle_violation_handler context m,
    handle_violation_state context m⟩
  unfold handle_violation
  cases h : (m.current_handler context).exit <;> simp [h, machine.log]

/-! ## Build switches -/

theorem check_expand_of_enabled (cfg : build_config) (c : check σ)
    (h : cfg.disabled c.kind = false) :
    c.expand cfg = c.expand build_config.all_enabled := by
  have h0 : build_config.all_enabled.disabled c.kind = false := by
    cases c.kind <;> rfl
  rw [check_expand_eq, check_expand_eq, h, h0]

theorem check_expand_of_disabled (cfg : build_config) (c : check σ)
    (h : cfg.disabled c.kind = true) :
    c.expand cfg = statement.disabled c.cond := by
  rw [check_expand_eq, h]
  rfl

theorem run_statements_expand_filter (cfg : build_config) (ctx : contract_context)
    (blk : block σ) (m : machine σ ε) :
    run_statements ctx (expand cfg blk) m =
      run_statements ctx
        (expand build_config.all_enabled (blk.filter fun c => !cfg.disabled c.kind)) m := by
  induction blk generalizing m with
  | nil => rfl
  | cons c rest ih =>
      cases hd : cfg.disabled c.kind with
      | true =>
          simp only [expand, List.map_cons, List.filter_cons, hd, Bool.not_true,
            Bool.false_eq_true, if_false]
          rw [check_expand_of_disabled cfg c hd]
          simp only [run_statements, statement.run]
          exact ih m
      | false =>
          simp only [expand, List.map_cons, List.filter_cons, hd, Bool.not_false, if_true]
          rw [check_expand_of_enabled cfg c hd]
          simp only [run_statements]
          cases hr : (c.expand build_config.all_enabled).run ctx m with
          | mk o m1 =>
              cases o with
              | normal => exact ih m1
              | raised e => rfl
              | terminated => rfl

/-- C8: in a build where the kind `K` is disabled, a check of kind `K`
does nothing in any context and machine (its condition is not evaluated, the
handler is not called, the machine is unchanged) whatever its condition; a
check of a kind that is not disabled is preprocessed exactly as in the build
where nothing is disabled; and a whole block behaves, in every context, as the
block without its disabled checks behaves in the build where nothing is
disabled. -/
theorem C8_disabled_kind_is_inert (cfg : build_config) (K : type)
    (hK : cfg.disabled K = true) :
    (∀ (c : check σ) (ctx : contract_context) (m : machine σ ε), c.kind = K →
      (c.expand cfg).run ctx m = (outcome.normal, m)) ∧
    (∀ (c : check σ) (ctx : contract_context) (uncaught : Bool) (st : σ), c.kind = K →
      c.fails cfg ctx uncaught st = false ∧ (c.expand cfg).evaluation ctx uncaught = []) ∧
    (∀ c : check σ, cfg.disabled c.kind = false →
      c.expand cfg = c.expand build_config.all_enabled) ∧
    (∀ (blk : block σ) (ctx : contract_context) (m : machine σ ε),
      invoke cfg blk ctx m =
        invoke build_config.all_enabled (blk.filter fun c => !cfg.disabled c.kind) ctx m) := by
  refine ⟨?_, ?_, fun c hc => check_expand_of_enabled cfg c hc, ?_⟩
  · intro c ctx m hc
    rw [check_expand_of_disabled cfg c (by rw [hc]; exact hK)]
    rfl
  · intro c ctx uncaught st hc
    unfold check.fails
    rw [check_expand_of_disabled cfg c (by rw [hc]; exact hK)]
    exact ⟨rfl, rfl⟩
  · intro blk ctx m
    unfold invoke
    exact run_statements_expand_filter cfg ctx blk _

/-- Witness of C8 on the build of `disablepreconditions.cpp`: the switch is
on, so `PRECONDITION(false)` leaves the machine as it is in the entry context,
and the three test functions behave as the test expects: the first returns
normally without a handler call, `POSTCONDITION(false)` and `INVARIANT(false)`
are reported. -/
theorem C8_witness_disable_preconditions :
    test.disable_preconditions.disabled type.precondition = true ∧
    (check.expand test.disable_preconditions
        ({ kind := type.precondition, cond := fun _ => false, cond_text := "false",
           msg := none, file := "disablepreconditions.cpp", line := 13 } : check Unit)).run
        (contract_context.mk true false true) (test.start ()) =
      (outcome.normal, test.start ()) ∧
    (run_guarded test.disable_preconditions
        (contract_fun__ (test.check_false type.precondition "disablepreconditions.cpp" 13))
        test.empty_body (test.start ())).1 = outcome.normal ∧
    handler_calls (run_guarded test.disable_preconditions
        (contract_fun__ (test.check_false type.precondition "disablepreconditions.cpp" 13))
        test.empty_body (test.start ())).2.trace = [] ∧
    (run_guarded test.disable_preconditions
        (contract_fun__ (test.check_false type.postcondition "disablepreconditions.cpp" 18))
        test.empty_body (test.start ())).1 =
      outcome.raised (test.error.contract_error type.postcondition "false") ∧
    (run_guarded test.disable_preconditions
        (contract_fun__ (test.check_false type.invariant "disablepreconditions.cpp" 23))
        test.empty_body (test.start ())).1 =
      outcome.raised (test.error.contract_error type.invariant "false") :=
  ⟨rfl,
    (C8_disabled_kind_is_inert test.disable_preconditions type.precondition rfl).1
      _ _ _ rfl,
    rfl, rfl, rfl, rfl⟩

/-! ## The exit phase while an exception is in flight -/

theorem block_split (cfg : build_config) (ctx : contract_context) (uncaught : Bool) (st : σ)
    (blk : block σ) :
    (∀ d ∈ blk, d.fails cfg ctx uncaught st = false) ∨
    ∃ pre c rest, blk = pre ++ c :: rest ∧
      (∀ d ∈ pre, d.fails cfg ctx uncaught st = false) ∧
      c.fails cfg ctx uncaught st = true := by
  induction blk with
  | nil => exact Or.inl fun d hd => absurd hd (List.not_mem_nil _)
  | cons a t ih =>
      cases ha : a.fails cfg ctx uncaught st with
      | true =>
          exact Or.inr ⟨[], a, t, rfl, fun d hd => absurd hd (List.not_mem_nil _), ha⟩
      | false =>
          rcases ih with hall | ⟨pre, c, rest, heq, hpre, hc⟩
          · refine Or.inl fun d hd => ?_
            rcases List.mem_cons.mp hd with rfl | hd
            · exact ha
            · exact hall d hd
          · refine Or.inr ⟨a :: pre, c, rest, by rw [heq]; rfl, fun d hd => ?_, hc⟩
            rcases List.mem_cons.mp hd with rfl | hd
            · exact ha
            · exact hpre d hd

/-- Every call of the lambda of a block either passes all its checks, or
ends in `handle_violation` on the record of its first failing check. -/
theorem invoke_cases (cfg : build_config) (blk : block σ) (ctx : contract_context)
    (m : machine σ ε) :
    ((∀ d ∈ blk, d.fails cfg ctx m.uncaught_exception m.state = false) ∧
      invoke cfg blk ctx m =
        (outcome.normal,
          { m with trace := m.trace ++ event.block_run ctx ::
                      evaluations cfg ctx m.uncaught_exception blk })) ∨
    ∃ pre c rest, blk = pre ++ c :: rest ∧
      (∀ d ∈ pre, d.fails cfg ctx m.uncaught_exception m.state = false) ∧
      c.fails cfg ctx m.uncaught_exception m.state = true ∧
      invoke cfg blk ctx m =
        handle_violation c.record
          { m with trace := m.trace ++ event.block_run ctx ::
                      (evaluations cfg ctx m.uncaught_exception pre ++
                        [event.evaluated c.record]) } := by
  rcases block_split cfg ctx m.uncaught_exception m.state blk with hall |
    ⟨pre, c, rest, heq, hpre, hc⟩
  · exact Or.inl ⟨hall, invoke_of_pass cfg blk ctx m hall⟩
  · refine Or.inr ⟨pre, c, rest, heq, hpre, hc, ?_⟩
    rw [heq]
    exact invoke_first_failure cfg pre c rest ctx m hpre hc

theorem class_runs_cons_class_run (cls : String) (ctx : contract_context) (t : List event) :
    class_runs (event.class_run cls ctx :: t) = cls :: class_runs t := rfl

theorem class_runs_cons_block_run (ctx : contract_context) (t : List event) :
    class_runs (event.block_run ctx :: t) = class_runs t := rfl

theorem class_runs_cons_called (c : violation_context) (t : List event) :
    class_runs (event.handler_called c :: t) = class_runs t := rfl

theorem class_runs_cons_evaluated (c : violation_context) (t : List event) :
    class_runs (event.evaluated c :: t) = class_runs t := rfl

theorem class_runs_cons_body_run (t : List event) :
    class_runs (event.body_run :: t) = class_runs t := rfl

theorem class_runs_nil : class_runs [] = [] := rfl

/-- While an exception is in flight only an `INVARIANT` can fail in an exit
context. -/
theorem exit_failure_is_invariant (cfg : build_config) (x : Bool) (st : σ) (c : check σ)
    (h : c.fails cfg (contract_context.mk false true x) true st = true) :
    c.kind = type.invariant := by
  rw [check_fails_eq] at h
  cases hk : c.kind <;>
    simp [hk, check_, contract_context.check_precondition,
      contract_context.check_postcondition] at h
  rfl

/-- Destruction of a guard by stack unwinding when no check of its block
fails: the block is run once and nothing else happens. -/
theorem destroy_unwinding_of_pass (cfg : build_config) (g : guard σ) (m : machine σ ε)
    (hflag : m.uncaught_exception = true)
    (h : ∀ d ∈ g.block,
      d.fails cfg (contract_context.mk false true g.exit_) true m.state = false) :
    g.destroy cfg true m =
      (outcome.normal,
        { m with trace := m.trace ++ event.block_run (contract_context.mk false true g.exit_) ::
                    evaluations cfg (contract_context.mk false true g.exit_) true g.block }) := by
  cases g with
  | fun_contract f enter exit =>
      simp only [guard.block, guard.exit_] at h ⊢
      simp only [guard.destroy, fun_contract.destructor]
      rw [invoke_of_pass cfg f _ m (by rw [hflag]; exact h)]
      simp [hflag]
  | class_contract obj f enter exit =>
      simp only [guard.block, guard.exit_] at h ⊢
      simp only [guard.destroy, fun_contract.destructor]
      rw [invoke_of_pass cfg f _ m (by rw [hflag]; exact h)]
      simp [hflag, class_contract_base.destructor]

/-- Destruction of a guard by stack unwinding when a check of its block fails:
the handler is called on the first failing check and the process ends. -/
theorem destroy_unwinding_of_failure (cfg : build_config) (g : guard σ) (m : machine σ ε)
    (pre : block σ) (c : check σ) (rest : block σ)
    (hflag : m.uncaught_exception = true)
    (hblk : g.block = pre ++ c :: rest)
    (hpre : ∀ d ∈ pre,
      d.fails cfg (contract_context.mk false true g.exit_) true m.state = false)
    (hc : c.fails cfg (contract_context.mk false true g.exit_) true m.state = true) :
    (g.destroy cfg true m).1 = outcome.terminated ∧
    (g.destroy cfg true m).2.trace =
      m.trace ++ event.block_run (contract_context.mk false true g.exit_) ::
        (evaluations cfg (contract_context.mk false true g.exit_) true pre ++
          [event.evaluated c.record, event.handler_called c.record]) := by
  have hinv : ∀ (f : block σ) (x : Bool), f = pre ++ c :: rest →
      (∀ d ∈ pre, d.fails cfg (contract_context.mk false true x) true m.state = false) →
      c.fails cfg (contract_context.mk false true x) true m.state = true →
      invoke cfg f (contract_context.mk false true x) m =
        handle_violation c.record
          { m with trace := m.trace ++ event.block_run (contract_context.mk false true x) ::
                      (evaluations cfg (contract_context.mk false true x) true pre ++
                        [event.evaluated c.record]) } := by
    intro f x hf hp hcf
    rw [hf, invoke_first_failure cfg pre c rest _ m (by rw [hflag]; exact hp)
      (by rw [hflag]; exact hcf), hflag]
  cases g with
  | fun_contract f enter exit =>
      simp only [guard.block, guard.exit_] at hblk hpre hc ⊢
      simp only [guard.destroy, fun_contract.destructor]
      rw [hinv f exit hblk hpre hc]
      unfold handle_violation
      cases hx : (m.current_handler c.record).exit <;>
        simp [hx, machine.log, List.append_assoc]
  | class_contract obj f enter exit =>
      simp only [guard.block, guard.exit_] at hblk hpre hc ⊢
      simp only [guard.destroy, fun_contract.destructor]
      rw [hinv f exit hblk hpre hc]
      unfold handle_violation
      cases hx : (m.current_handler c.record).exit <;>
        simp [hx, machine.log, List.append_assoc]

theorem run_guarded_of_body_raised (cfg : build_config) (g : guard σ) (b : body σ ε)
    (m m1 : machine σ ε) (e : ε)
    (hentry : g.construct cfg m = (outcome.normal, m1))
    (hbody : (b m1.state).2 = outcome.raised e) :
    run_guarded cfg g b m =
      match g.destroy cfg true
          { m1 with trace := m1.trace ++ [event.body_run], state := (b m1.state).1,
                    uncaught_exception := true } with
      | (outcome.normal, m3) => (outcome.raised e, m3)
      | (_, m3) => (outcome.terminated, m3) := by
  simp only [run_guarded, hentry]
  rw [run_body_of_raised b m1 e hbody]

/-- The two ways a guard is destroyed by stack unwinding after the body
raised `e`: no check of the block fails in the exit context, the block is run
once and `e` goes on; or a first check fails, the handler is called on it and
the process ends. -/
theorem unwinding_exit_cases (cfg : build_config) (g : guard σ) (b : body σ ε)
    (m m1 : machine σ ε) (e : ε)
    (hentry : g.construct cfg m = (outcome.normal, m1))
    (hbody : (b m1.state).2 = outcome.raised e) :
    ((∀ d ∈ g.block,
        d.fails cfg (contract_context.mk false true g.exit_) true (b m1.state).1 = false) ∧
      (run_guarded cfg g b m).1 = outcome.raised e ∧
      emitted m1 (run_guarded cfg g b m) =
        event.body_run :: event.block_run (contract_context.mk false true g.exit_) ::
          evaluations cfg (contract_context.mk false true g.exit_) true g.block) ∨
    ∃ pre c rest, g.block = pre ++ c :: rest ∧
      (∀ d ∈ pre,
        d.fails cfg (contract_context.mk false true g.exit_) true (b m1.state).1 = false) ∧
      c.fails cfg (contract_context.mk false true g.exit_) true (b m1.state).1 = true ∧
      (run_guarded cfg g b m).1 = outcome.terminated ∧
      emitted m1 (run_guarded cfg g b m) =
        event.body_run :: event.block_run (contract_context.mk false true g.exit_) ::
          (evaluations cfg (contract_context.mk false true g.exit_) true pre ++
            [event.evaluated c.record, event.handler_called c.record]) := by
  have hrun := run_guarded_of_body_raised cfg g b m m1 e hentry hbody
  rcases block_split cfg (contract_context.mk false true g.exit_) true (b m1.state).1 g.block
    with hall | ⟨pre, c, rest, heq, hpre, hc⟩
  · have hd := destroy_unwinding_of_pass cfg g
      { m1 with trace := m1.trace ++ [event.body_run], state := (b m1.state).1,
                uncaught_exception := true } rfl hall
    rw [hd] at hrun
    simp only at hrun
    refine Or.inl ⟨hall, by rw [hrun], ?_⟩
    apply emitted_of_trace_eq
    rw [hrun]
    simp [List.append_assoc]
  · obtain ⟨ho, ht⟩ := destroy_unwinding_of_failure cfg g
      { m1 with trace := m1.trace ++ [event.body_run], state := (b m1.state).1,
                uncaught_exception := true } pre c rest rfl heq hpre hc
    refine Or.inr ⟨pre, c, rest, heq, hpre, hc, ?_, ?_⟩
    · rw [hrun]
      split
      · rename_i heq2
        rw [heq2] at ho
        cases ho
      · rfl
    · apply emitted_of_trace_eq
      rw [hrun]
      split
      · rename_i heq2
        rw [heq2] at ho
        cases ho
      · rename_i heq2
        rw [heq2] at ht
        simp only at ht ⊢
        rw [ht]
        simp [List.append_assoc]

/-- The exit phase of a guard destroyed by stack unwinding: when the body of
a guarded scope raised `e` after an entry phase that passed, then in what
follows the entry phase (1) every record passed to the handler has kind
invariant, so no `POSTCONDITION` is reported whatever its condition; (2) no
class contract body is run; (3) if no `INVARIANT` of the block fails in the
exit context, the handler is not called and the caller observes `e`; (4) if a
check of the block fails in the exit context, the handler is called exactly
once, on a record of kind invariant, and the process terminates. -/
theorem exit_phase_while_unwinding (cfg : build_config) (g : guard σ) (b : body σ ε)
    (m m1 : machine σ ε) (e : ε)
    (hentry : g.construct cfg m = (outcome.normal, m1))
    (hbody : (b m1.state).2 = outcome.raised e) :
    (∀ rec ∈ handler_calls (emitted m1 (run_guarded cfg g b m)),
      rec.contract_type = type.invariant) ∧
    class_runs (emitted m1 (run_guarded cfg g b m)) = [] ∧
    ((∀ d ∈ g.block, d.kind = type.invariant →
        d.fails cfg (contract_context.mk false true g.exit_) true (b m1.state).1 = false) →
      handler_calls (emitted m1 (run_guarded cfg g b m)) = [] ∧
      (run_guarded cfg g b m).1 = outcome.raised e) ∧
    ((∃ d ∈ g.block,
        d.fails cfg (contract_context.mk false true g.exit_) true (b m1.state).1 = true) →
      (∃ rec, handler_calls (emitted m1 (run_guarded cfg g b m)) = [rec] ∧
        rec.contract_type = type.invariant) ∧
      (run_guarded cfg g b m).1 = outcome.terminated) := by
  rcases unwinding_exit_cases cfg g b m m1 e hentry hbody with ⟨hall, hout, hem⟩ |
    ⟨pre, c, rest, heq, hpre, hc, hout, hem⟩
  · have hcalls : handler_calls (emitted m1 (run_guarded cfg g b m)) = [] := by
      rw [hem, handler_calls_cons_body_run, handler_calls_cons_block_run,
        handler_calls_evaluations]
    refine ⟨?_, ?_, fun _ => ⟨hcalls, hout⟩, ?_⟩
    · intro rec hrec
      rw [hcalls] at hrec
      exact absurd hrec (List.not_mem_nil _)
    · rw [hem, class_runs_cons_body_run, class_runs_cons_block_run, class_runs_evaluations]
    · rintro ⟨d, hd1, hd2⟩
      rw [hall d hd1] at hd2
      cases hd2
  · have hkind := exit_failure_is_invariant cfg g.exit_ (b m1.state).1 c hc
    have hcalls : handler_calls (emitted m1 (run_guarded cfg g b m)) = [c.record] := by
      rw [hem, handler_calls_cons_body_run, handler_calls_cons_block_run,
        handler_calls_append, handler_calls_evaluations, handler_calls_cons_evaluated,
        handler_calls_cons_called]
      rfl
    refine ⟨?_, ?_, ?_, fun _ => ⟨⟨c.record, hcalls, hkind⟩, hout⟩⟩
    · intro rec hrec
      rw [hcalls, List.mem_singleton] at hrec
      rw [hrec]
      exact hkind
    · rw [hem, class_runs_cons_body_run, class_runs_cons_block_run, class_runs_append,
        class_runs_evaluations, class_runs_cons_evaluated, class_runs_cons_called]
      rfl
    · intro hinv
      have hcm : c ∈ g.block := by
        rw [heq]
        exact List.mem_append_right _ (List.mem_cons_self _ _)
      rw [hinv c hcm hkind] at hc
      cases hc

/-- C4: the code does not skip the `INVARIANT` checks of the block while the
body's error propagates.  `{ CONTRACT(fun) { INVARIANT(x == 0); }; x = 1;
throw non_contract_error{}; }` entered with `x == 0` and the raising test
handler: the body raises, and yet in the exit phase the invariant of the block
is evaluated, the handler is called with its record, and the process
terminates instead of the error of the body reaching the caller.  On the
sibling paths the flag is read: `{ CONTRACT(fun) { POSTCONDITION(false); };
throw non_contract_error{}; }` reports nothing and the caller observes the
error of the body; and a method `{ CONTRACT(mfun) { }; x = 1; throw
non_contract_error{}; }` of the class `G` with `INVARIANT(x == 0)`, entered
with `x == 0`, leaves the class invariant false, runs the class contract body
at entry only, reports nothing, and the caller observes the error of the
body. -/
theorem C4_block_invariant_reported_while_unwinding :
    (test.increment_and_throw (test.start 0).state).2 =
      outcome.raised test.error.non_contract_error ∧
    emitted (test.start 0)
        (run_guarded build_config.all_enabled (contract_fun__ test.counter_invariant)
          test.increment_and_throw (test.start 0)) =
      [event.block_run (contract_context.mk true false true),
        event.evaluated (violation_context.mk type.invariant "x == 0" "x == 0" "example.cpp" 3),
        event.body_run,
        event.block_run (contract_context.mk false true true),
        event.evaluated (violation_context.mk type.invariant "x == 0" "x == 0" "example.cpp" 3),
        event.handler_called
          (violation_context.mk type.invariant "x == 0" "x == 0" "example.cpp" 3)] ∧
    (run_guarded build_config.all_enabled (contract_fun__ test.counter_invariant)
        test.increment_and_throw (test.start 0)).1 = outcome.terminated ∧
    ¬ (handler_calls (emitted (test.start 0)
          (run_guarded build_config.all_enabled (contract_fun__ test.counter_invariant)
            test.increment_and_throw (test.start 0))) = [] ∧
        (run_guarded build_config.all_enabled (contract_fun__ test.counter_invariant)
          test.increment_and_throw (test.start 0)).1 =
          outcome.raised test.error.non_contract_error) ∧
    (handler_calls (emitted (test.start ())
        (run_guarded build_config.all_enabled
          (contract_fun__ test.fun_contract_test_postcondition_exception)
          test.throwing_body (test.start ()))) = [] ∧
      (run_guarded build_config.all_enabled
          (contract_fun__ test.fun_contract_test_postcondition_exception)
          test.throwing_body (test.start ())).1 =
        outcome.raised test.error.non_contract_error) ∧
    (class_invariant_passes build_config.all_enabled (contract_context.mk false false true)
        true (test.increment_and_throw (test.start 0).state).1 test.grand_g = false ∧
      class_runs (emitted (test.start 0)
        (run_guarded build_config.all_enabled (contract_mfun__ test.grand_g [])
          test.increment_and_throw (test.start 0))) = ["G"] ∧
      handler_calls (emitted (test.start 0)
        (run_guarded build_config.all_enabled (contract_mfun__ test.grand_g [])
          test.increment_and_throw (test.start 0))) = [] ∧
      (run_guarded build_config.all_enabled (contract_mfun__ test.grand_g [])
          test.increment_and_throw (test.start 0)).1 =
        outcome.raised test.error.non_contract_error) := by
  refine ⟨rfl, rfl, rfl, ?_, ⟨rfl, rfl⟩, ⟨rfl, rfl, rfl, rfl⟩⟩
  rintro ⟨h, _⟩
  exact absurd h (by decide)

/-! ## Class invariants -/

/-- The statements of a block either all pass, or the run ends in
`handle_violation` on the record of the first failing check. -/
theorem run_block_cases (cfg : build_config) (blk : block σ) (ctx : contract_context)
    (m : machine σ ε) :
    ((∀ d ∈ blk, d.fails cfg ctx m.uncaught_exception m.state = false) ∧
      run_statements ctx (expand cfg blk) m =
        (outcome.normal,
          { m with trace := m.trace ++ evaluations cfg ctx m.uncaught_exception blk })) ∨
    ∃ pre c rest, blk = pre ++ c :: rest ∧
      (∀ d ∈ pre, d.fails cfg ctx m.uncaught_exception m.state = false) ∧
      c.fails cfg ctx m.uncaught_exception m.state = true ∧
      run_statements ctx (expand cfg blk) m =
        handle_violation c.record
          { m with trace := m.trace ++ (evaluations cfg ctx m.uncaught_exception pre ++
                      [event.evaluated c.record]) } := by
  rcases block_split cfg ctx m.uncaught_exception m.state blk with hall |
    ⟨pre, c, rest, heq, hpre, hc⟩
  · refine Or.inl ⟨hall, ?_⟩
    rw [run_statements_of_pass]
    · rfl
    · intro s hs
      simp only [expand, List.mem_map] at hs
      obtain ⟨d, hd, rfl⟩ := hs
      exact hall d hd
  · refine Or.inr ⟨pre, c, rest, heq, hpre, hc, ?_⟩
    have hen : cfg.disabled c.kind = false := by
      rw [check_fails_eq] at hc
      simp only [Bool.and_eq_true, Bool.not_eq_true'] at hc
      exact hc.1
    obtain ⟨rec, hrec, hrun⟩ :=
      run_statements_first_failure ctx (pre.map (check.expand cfg)) (c.expand cfg)
        (rest.map (check.expand cfg)) m
        (by
          intro s hs
          simp only [List.mem_map] at hs
          obtain ⟨d, hd, rfl⟩ := hs
          exact hpre d hd)
        hc
    rw [check_expand_record cfg c hen] at hrec
    cases hrec
    rw [heq]
    simp only [expand, List.map_append, List.map_cons]
    rw [hrun]
    simp [evaluations, expand, List.append_assoc]

/-- A run of a block that returns normally changed nothing but the log, to
which it added the evaluations of its active checks; and none of them
failed. -/
theorem run_block_normal_inv (cfg : build_config) (blk : block σ) (ctx : contract_context)
    (m : machine σ ε)
    (h : (run_statements ctx (expand cfg blk) m).1 = outcome.normal) :
    (∀ d ∈ blk, d.fails cfg ctx m.uncaught_exception m.state = false) ∧
    run_statements ctx (expand cfg blk) m =
      (outcome.normal,
        { m with trace := m.trace ++ evaluations cfg ctx m.uncaught_exception blk }) := by
  rcases run_block_cases cfg blk ctx m with hpass | ⟨pre, c, rest, _, _, _, hrun⟩
  · exact hpass
  · rw [hrun] at h
    exact absurd h (handle_violation_not_normal _ _)

theorem invoke_normal_inv (cfg : build_config) (blk : block σ) (ctx : contract_context)
    (m : machine σ ε) (h : (invoke cfg blk ctx m).1 = outcome.normal) :
    (∀ d ∈ blk, d.fails cfg ctx m.uncaught_exception m.state = false) ∧
    invoke cfg blk ctx m =
      (outcome.normal,
        { m with trace := m.trace ++ event.block_run ctx ::
                    evaluations cfg ctx m.uncaught_exception blk }) := by
  rcases invoke_cases cfg blk ctx m with hpass | ⟨pre, c, rest, _, _, _, hrun⟩
  · exact hpass
  · rw [hrun] at h
    exact absurd h (handle_violation_not_normal _ _)

theorem class_contract_eq (cfg : build_config) (T : class_decl σ) (ctx : contract_context)
    (m : machine σ ε) (hT : has_class_contract T = true) :
    class_contract__ cfg T ctx m =
      run_statements ctx (expand cfg T.body) (m.log (event.class_run T.name ctx)) := by
  cases T with
  | no_contract => simp [has_class_contract] at hT
  | contract_class__ name body => rfl
  | contract_derived__ name bases body => rfl

theorem class_contract_normal_inv (cfg : build_config) (T : class_decl σ)
    (ctx : contract_context) (m : machine σ ε) (hT : has_class_contract T = true)
    (h : (class_contract__ cfg T ctx m).1 = outcome.normal) :
    class_contract__ cfg T ctx m =
      (outcome.normal,
        { m with trace := m.trace ++ event.class_run T.name ctx ::
                    evaluations cfg ctx m.uncaught_exception T.body }) := by
  rw [class_contract_eq cfg T ctx m hT] at h ⊢
  rw [(run_block_normal_inv cfg T.body ctx _ h).2]
  simp [machine.log, List.append_assoc]

theorem enforce_normal_inv (cfg : build_config) (ctx : contract_context)
    (bases : List (class_decl σ)) (m : machine σ ε)
    (h : (enforce cfg ctx bases m).1 = outcome.normal) :
    enforce cfg ctx bases m =
      (outcome.normal,
        { m with trace := m.trace ++ enforce_trace cfg ctx m.uncaught_exception bases }) := by
  induction bases generalizing m with
  | nil => simp [enforce, enforce_trace]
  | cons B rest ih =>
      cases hB : has_class_contract B with
      | false =>
          simp only [enforce, do_enforce, hB, Bool.false_eq_true, if_false] at h ⊢
          rw [ih m h]
          simp [enforce_trace, List.filter_cons, hB]
      | true =>
          simp only [enforce, do_enforce, hB, if_true] at h ⊢
          cases hr : class_contract__ cfg B ctx m with
          | mk o m1 =>
              cases o with
              | normal =>
                  have hn := class_contract_normal_inv cfg B ctx m hB (by rw [hr])
                  rw [hr] at hn
                  have hm1 := (Prod.mk.inj hn).2
                  rw [hr] at h
                  simp only at h ⊢
                  rw [ih m1 h, hm1]
                  simp [enforce_trace, List.filter_cons, hB, List.append_assoc]
              | raised e =>
                  rw [hr] at h
                  cases h
              | terminated =>
                  rw [hr] at h
                  cases h

theorem class_invariant_normal_inv (cfg : build_config) (T : class_decl σ)
    (ctx : contract_context) (m : machine σ ε) (hT : has_class_contract T = true)
    (h : (class_invariant cfg T ctx m).1 = outcome.normal) :
    class_invariant cfg T ctx m =
      (outcome.normal,
        { m with trace := m.trace ++ class_invariant_trace cfg ctx m.uncaught_exception T }) := by
  have hprep : prepare_contract__ cfg T ctx m = enforce cfg ctx T.bases m := by
    cases T with
    | no_contract => simp [has_class_contract] at hT
    | contract_class__ name body => rfl
    | contract_derived__ name bases body => rfl
  unfold class_invariant at h ⊢
  rw [hprep] at h ⊢
  cases hr : enforce cfg ctx T.bases m with
  | mk o m1 =>
      cases o with
      | normal =>
          have hn := enforce_normal_inv cfg ctx T.bases m (by rw [hr])
          rw [hr] at hn
          have hm1 := (Prod.mk.inj hn).2
          rw [hr] at h
          simp only at h ⊢
          rw [class_contract_normal_inv cfg T ctx m1 hT h, hm1]
          simp [class_invariant_trace, List.append_assoc]
      | raised e =>
          rw [hr] at h
          cases h
      | terminated =>
          rw [hr] at h
          cases h

theorem class_runs_enforce_trace (cfg : build_config) (ctx : contract_context)
    (uncaught : Bool) (bases : List (class_decl σ)) :
    class_runs (enforce_trace cfg ctx uncaught bases) =
      (bases.filter has_class_contract).map class_decl.name := by
  unfold enforce_trace
  induction bases.filter has_class_contract with
  | nil => rfl
  | cons B rest ih =>
      rw [List.flatMap_cons, class_runs_append, ih, class_runs_cons_class_run,
        class_runs_evaluations]
      rfl

theorem class_runs_class_invariant_trace (cfg : build_config) (ctx : contract_context)
    (uncaught : Bool) (T : class_decl σ) :
    class_runs (class_invariant_trace cfg ctx uncaught T) = composed_order T := by
  unfold class_invariant_trace composed_order
  rw [class_runs_append, class_runs_enforce_trace, class_runs_cons_class_run,
    class_runs_evaluations]

theorem body_run_not_mem_enforce_trace (cfg : build_config) (ctx : contract_context)
    (uncaught : Bool) (bases : List (class_decl σ)) :
    event.body_run ∉ enforce_trace cfg ctx uncaught bases := by
  unfold enforce_trace
  intro h
  rw [List.mem_flatMap] at h
  obtain ⟨B, _, hB⟩ := h
  rcases List.mem_cons.mp hB with h1 | h1
  · cases h1
  · exact body_run_not_mem_evaluations _ _ _ _ h1

theorem body_run_not_mem_class_invariant_trace (cfg : build_config) (ctx : contract_context)
    (uncaught : Bool) (T : class_decl σ) :
    event.body_run ∉ class_invariant_trace cfg ctx uncaught T := by
  unfold class_invariant_trace
  intro h
  rcases List.mem_append.mp h with h1 | h1
  · exact body_run_not_mem_enforce_trace _ _ _ _ h1
  · rcases List.mem_cons.mp h1 with h2 | h2
    · cases h2
    · exact body_run_not_mem_evaluations _ _ _ _ h2

/-- An activation that ends normally went through a normal construction, a
normal body and a normal destruction on the normal path. -/
theorem run_guarded_normal_inv (cfg : build_config) (g : guard σ) (b : body σ ε)
    (m : machine σ ε) (h : (run_guarded cfg g b m).1 = outcome.normal) :
    ∃ m1, g.construct cfg m = (outcome.normal, m1) ∧
      (b m1.state).2 = outcome.normal ∧
      run_guarded cfg g b m =
        g.destroy cfg false
          { m1 with trace := m1.trace ++ [event.body_run], state := (b m1.state).1 } := by
  unfold run_guarded at h ⊢
  cases hc : g.construct cfg m with
  | mk o m1 =>
      rw [hc] at h
      cases o with
      | normal =>
          refine ⟨m1, rfl, ?_⟩
          simp only at h ⊢
          cases hb : (b m1.state).2 with
          | normal =>
              rw [run_body_of_normal b m1 hb]
              exact ⟨rfl, rfl⟩
          | raised e =>
              rw [run_body_of_raised b m1 e hb] at h
              simp only at h
              split at h <;> cases h
          | terminated =>
              simp only [run_body, hb] at h
              cases h
      | raised e => cases h
      | terminated => cases h

theorem class_construct_normal_inv (cfg : build_config) (T : class_decl σ) (f : block σ)
    (enter exit : Bool) (m m2 : machine σ ε)
    (h : (guard.class_contract T f enter exit).construct cfg m = (outcome.normal, m2)) :
    ∃ m1, class_contract_base.constructor cfg T enter m = (outcome.normal, m1) ∧
      fun_contract.constructor cfg f enter m1 = (outcome.normal, m2) := by
  simp only [guard.construct] at h
  cases hb : class_contract_base.constructor cfg T enter m with
  | mk o m1 =>
      rw [hb] at h
      cases o with
      | normal =>
          refine ⟨m1, rfl, ?_⟩
          simp only at h
          cases hf : fun_contract.constructor cfg f enter m1 with
          | mk o2 m3 =>
              rw [hf] at h
              cases o2 with
              | normal => exact h
              | raised e =>
                  simp only at h
                  split at h <;> cases h
              | terminated => cases h
      | raised e => cases h
      | terminated => cases h

theorem class_destroy_normal_inv (cfg : build_config) (T : class_decl σ) (f : block σ)
    (enter exit : Bool) (m : machine σ ε)
    (h : ((guard.class_contract T f enter exit).destroy cfg false m).1 = outcome.normal) :
    ∃ m1, fun_contract.destructor cfg f exit m = (outcome.normal, m1) ∧
      (class_contract_base.destructor cfg T exit m1).1 = outcome.normal ∧
      (guard.class_contract T f enter exit).destroy cfg false m =
        class_contract_base.destructor cfg T exit m1 := by
  simp only [guard.destroy] at h ⊢
  cases hf : fun_contract.destructor cfg f exit m with
  | mk o m1 =>
      rw [hf] at h
      cases o with
      | normal =>
          refine ⟨m1, rfl, ?_⟩
          simp only at h ⊢
          cases hb : class_contract_base.destructor cfg T exit m1 with
          | mk o2 m3 =>
              rw [hb] at h
              cases o2 with
              | normal => exact ⟨rfl, rfl⟩
              | raised e => simp at h
              | terminated => cases h
      | raised e =>
          simp only [Bool.false_eq_true, if_false] at h
          split at h <;> cases h
      | terminated => cases h

theorem base_constructor_normal_inv (cfg : build_config) (T : class_decl σ) (enter : Bool)
    (m m1 : machine σ ε) (hT : has_class_contract T = true)
    (h : class_contract_base.constructor cfg T enter m = (outcome.normal, m1)) :
    m1 = { m with trace := m.trace ++
            (if enter then
              class_invariant_trace cfg (contract_context.mk false false true)
                m.uncaught_exception T
            else []) } := by
  cases enter with
  | false =>
      simp only [class_contract_base.constructor, Bool.false_eq_true, if_false] at h
      rw [← (Prod.mk.inj h).2]
      simp
  | true =>
      simp only [class_contract_base.constructor, if_true] at h
      have hn := class_invariant_normal_inv cfg T _ m hT (by rw [h])
      rw [h] at hn
      rw [(Prod.mk.inj hn).2]
      simp

theorem base_destructor_normal_inv (cfg : build_config) (T : class_decl σ) (exit : Bool)
    (m : machine σ ε) (hT : has_class_contract T = true)
    (hflag : m.uncaught_exception = false)
    (h : (class_contract_base.destructor cfg T exit m).1 = outcome.normal) :
    class_contract_base.destructor cfg T exit m =
      (outcome.normal,
        { m with trace := m.trace ++
            (if exit then
              class_invariant_trace cfg (contract_context.mk false false true) false T
            else []) }) := by
  cases exit with
  | false =>
      simp [class_contract_base.destructor]
  | true =>
      simp only [class_contract_base.destructor, hflag, Bool.not_false, Bool.and_self,
        if_true] at h ⊢
      rw [class_invariant_normal_inv cfg T _ m hT h, hflag]

/-- The log of an activation of a scope guarded by a `class_contract` that
ends normally, entered with no exception in flight. -/
theorem class_activation_normal (cfg : build_config) (T : class_decl σ) (f : block σ)
    (enter exit : Bool) (b : body σ ε) (m : machine σ ε)
    (hT : has_class_contract T = true) (hflag : m.uncaught_exception = false)
    (hn : (run_guarded cfg (guard.class_contract T f enter exit) b m).1 = outcome.normal) :
    emitted m (run_guarded cfg (guard.class_contract T f enter exit) b m) =
      ((if enter then class_invariant_trace cfg (contract_context.mk false false true) false T
        else []) ++
        event.block_run (contract_context.mk true false enter) ::
          evaluations cfg (contract_context.mk true false enter) false f) ++
      event.body_run ::
        ((event.block_run (contract_context.mk false true exit) ::
          evaluations cfg (contract_context.mk false true exit) false f) ++
        (if exit then class_invariant_trace cfg (contract_context.mk false false true) false T
         else [])) := by
  obtain ⟨m2, hc, hb, hrun⟩ := run_guarded_normal_inv cfg _ b m hn
  obtain ⟨m1, hbase, hfun⟩ := class_construct_normal_inv cfg T f enter exit m m2 hc
  have hm1 := base_constructor_normal_inv cfg T enter m m1 hT hbase
  rw [hflag] at hm1
  have hf1 : m1.uncaught_exception = false := by rw [hm1]
  have hinv := (invoke_normal_inv cfg f _ m1 (by
    have := hfun
    unfold fun_contract.constructor at this
    rw [this])).2
  unfold fun_contract.constructor at hfun
  rw [hfun, hf1] at hinv
  have hm2 := (Prod.mk.inj hinv).2
  rw [hrun] at hn
  obtain ⟨m3, hfd, hbd1, hdes⟩ := class_destroy_normal_inv cfg T f enter exit _ hn
  have hf2 : m2.uncaught_exception = false := by rw [hm2]
  have hinv2 := (invoke_normal_inv cfg f (contract_context.mk false true exit)
    { m2 with trace := m2.trace ++ [event.body_run], state := (b m2.state).1 } (by
      have := hfd
      unfold fun_contract.destructor at this
      rw [this])).2
  unfold fun_contract.destructor at hfd
  rw [hfd] at hinv2
  simp only [hf2] at hinv2
  have hm3 := (Prod.mk.inj hinv2).2
  have hf3 : m3.uncaught_exception = false := by rw [hm3]
  have hbd := base_destructor_normal_inv cfg T exit m3 hT hf3 hbd1
  apply emitted_of_trace_eq
  rw [hrun, hdes, hbd]
  simp only
  rw [hm3]
  simp only
  rw [hm2]
  simp only
  rw [hm1]
  simp [List.append_assoc]

theorem contractor_of_class_contract (T : class_decl σ) (enter exit : Bool) (f : block σ)
    (hT : has_class_contract T = true) :
    contractor T enter exit f = guard.class_contract T f enter exit := by
  simp [contractor, hT]

/-! ## Composition over the listed bases -/

theorem class_run_contexts_append (a b : List event) :
    class_run_contexts (a ++ b) = class_run_contexts a ++ class_run_contexts b := by
  simp [class_run_contexts, List.filterMap_append]

theorem class_run_contexts_cons_class_run (cls : String) (ctx : contract_context)
    (t : List event) :
    class_run_contexts (event.class_run cls ctx :: t) = ctx :: class_run_contexts t := rfl

theorem class_run_contexts_evaluations (cfg : build_config) (ctx : contract_context)
    (uncaught : Bool) (b : block σ) :
    class_run_contexts (evaluations cfg ctx uncaught b) = [] := by
  apply filterMap_eq_nil_of_forall
  intro e he
  obtain ⟨c, rfl⟩ := evaluations_cases cfg ctx uncaught b e he
  rfl

/-- The log of one run of the body of a class contract: the entry for the
body, then only evaluations and at most a handler call. -/
theorem class_contract_log (cfg : build_config) (T : class_decl σ) (ctx : contract_context)
    (m : machine σ ε) (hT : has_class_contract T = true) :
    ∃ new, (class_contract__ cfg T ctx m).2.trace =
        m.trace ++ event.class_run T.name ctx :: new ∧
      class_runs new = [] ∧ class_run_contexts new = [] := by
  rw [class_contract_eq cfg T ctx m hT]
  rcases run_block_cases cfg T.body ctx (m.log (event.class_run T.name ctx)) with
    ⟨_, hrun⟩ | ⟨pre, c, rest, _, _, _, hrun⟩
  · refine ⟨evaluations cfg ctx m.uncaught_exception T.body, ?_,
      class_runs_evaluations _ _ _ _, class_run_contexts_evaluations _ _ _ _⟩
    rw [hrun]
    simp [machine.log, List.append_assoc]
  · refine ⟨evaluations cfg ctx m.uncaught_exception pre ++
      [event.evaluated c.record, event.handler_called c.record], ?_, ?_, ?_⟩
    · rw [hrun, handle_violation_trace]
      simp [machine.log, List.append_assoc]
    · rw [class_runs_append, class_runs_evaluations]
      rfl
    · rw [class_run_contexts_append, class_run_contexts_evaluations]
      rfl

theorem class_run_contexts_enforce_trace (cfg : build_config) (ctx : contract_context)
    (uncaught : Bool) (bases : List (class_decl σ)) :
    class_run_contexts (enforce_trace cfg ctx uncaught bases) =
      List.replicate ((bases.filter has_class_contract).map class_decl.name).length ctx := by
  unfold enforce_trace
  induction bases.filter has_class_contract with
  | nil => rfl
  | cons B rest ih =>
      rw [List.flatMap_cons, class_run_contexts_append, ih,
        class_run_contexts_cons_class_run, class_run_contexts_evaluations]
      simp [List.replicate_succ]

/-- The log of `enforce` over a list of bases, whatever the outcome: the
bodies run are an initial part of the bases that have a class contract, in
order, each run with the context given. -/
theorem enforce_log (cfg : build_config) (ctx : contract_context)
    (bases : List (class_decl σ)) (m : machine σ ε) :
    ∃ new, (enforce cfg ctx bases m).2.trace = m.trace ++ new ∧
      class_runs new <+: (bases.filter has_class_contract).map class_decl.name ∧
      class_run_contexts new = List.replicate (class_runs new).length ctx := by
  induction bases generalizing m with
  | nil => exact ⟨[], by simp [enforce], by simp [class_runs], rfl⟩
  | cons B rest ih =>
      cases hB : has_class_contract B with
      | false =>
          obtain ⟨new, h1, h2, h3⟩ := ih m
          refine ⟨new, ?_, ?_, h3⟩
          · simp only [enforce, do_enforce, hB, Bool.false_eq_true, if_false]
            exact h1
          · simpa [List.filter_cons, hB] using h2
      | true =>
          obtain ⟨new1, hn1, hc1, hx1⟩ := class_contract_log cfg B ctx m hB
          cases hr : class_contract__ cfg B ctx m with
          | mk o m1 =>
              rw [hr] at hn1
              simp only at hn1
              cases o with
              | normal =>
                  obtain ⟨new, h1, h2, h3⟩ := ih m1
                  refine ⟨event.class_run B.name ctx :: new1 ++ new, ?_, ?_, ?_⟩
                  · simp only [enforce, do_enforce, hB, if_true, hr]
                    rw [h1, hn1]
                    simp [List.append_assoc]
                  · rw [class_runs_append, class_runs_cons_class_run, hc1]
                    simp only [List.filter_cons, hB, if_true, List.map_cons,
                      List.singleton_append]
                    exact (List.prefix_cons_inj B.name).mpr h2
                  · rw [class_run_contexts_append, class_run_contexts_cons_class_run, hx1,
                      class_runs_append, class_runs_cons_class_run, hc1, h3]
                    simp [List.replicate_succ]
              | raised e =>
                  refine ⟨event.class_run B.name ctx :: new1, ?_, ?_, ?_⟩
                  · simp only [enforce, do_enforce, hB, if_true, hr]
                    exact hn1
                  · rw [class_runs_cons_class_run, hc1]
                    simp only [List.filter_cons, hB, if_true, List.map_cons]
                    exact (List.prefix_cons_inj B.name).mpr (List.nil_prefix)
                  · rw [class_run_contexts_cons_class_run, hx1, class_runs_cons_class_run, hc1]
                    rfl
              | terminated =>
                  refine ⟨event.class_run B.name ctx :: new1, ?_, ?_, ?_⟩
                  · simp only [enforce, do_enforce, hB, if_true, hr]
                    exact hn1
                  · rw [class_runs_cons_class_run, hc1]
                    simp only [List.filter_cons, hB, if_true, List.map_cons]
                    exact (List.prefix_cons_inj B.name).mpr (List.nil_prefix)
                  · rw [class_run_contexts_cons_class_run, hx1, class_runs_cons_class_run, hc1]
                    rfl

theorem prepare_contract_eq (cfg : build_config) (T : class_decl σ) (ctx : contract_context)
    (m : machine σ ε) :
    prepare_contract__ cfg T ctx m = enforce cfg ctx T.bases m := by
  cases T with
  | no_contract => rfl
  | contract_class__ name body => rfl
  | contract_derived__ name bases body => rfl

/-- The log of the class invariant operation of `T`, whatever the outcome:
the bodies run are an initial part of the composed order, each run with the
context given. -/
theorem class_invariant_log (cfg : build_config) (T : class_decl σ) (ctx : contract_context)
    (m : machine σ ε) (hT : has_class_contract T = true) :
    ∃ new, (class_invariant cfg T ctx m).2.trace = m.trace ++ new ∧
      class_runs new <+: composed_order T ∧
      class_run_contexts new = List.replicate (class_runs new).length ctx := by
  unfold class_invariant
  rw [prepare_contract_eq]
  obtain ⟨new1, hn1, hp1, hx1⟩ := enforce_log cfg ctx T.bases m
  cases hr : enforce cfg ctx T.bases m with
  | mk o m1 =>
      rw [hr] at hn1
      simp only at hn1
      cases o with
      | normal =>
          have hn := enforce_normal_inv cfg ctx T.bases m (by rw [hr])
          rw [hr] at hn
          have hm1 := (Prod.mk.inj hn).2
          obtain ⟨new2, hn2, hc2, hx2⟩ := class_contract_log cfg T ctx m1 hT
          refine ⟨enforce_trace cfg ctx m.uncaught_exception T.bases ++
            event.class_run T.name ctx :: new2, ?_, ?_, ?_⟩
          · simp only
            rw [hn2, hm1]
            simp [List.append_assoc]
          · rw [class_runs_append, class_runs_enforce_trace, class_runs_cons_class_run, hc2]
            exact List.prefix_refl _
          · rw [class_run_contexts_append, class_run_contexts_enforce_trace,
              class_run_contexts_cons_class_run, hx2, class_runs_append,
              class_runs_enforce_trace, class_runs_cons_class_run, hc2]
            simp only [List.length_append, List.length_map, List.length_singleton,
              List.append_nil, List.length_cons, List.length_nil, Nat.zero_add]
            rw [← List.replicate_succ', List.replicate_succ]
      | raised e =>
          exact ⟨new1, hn1, hp1.trans (List.prefix_append _ _), hx1⟩
      | terminated =>
          exact ⟨new1, hn1, hp1.trans (List.prefix_append _ _), hx1⟩

theorem enforce_of_pass (cfg : build_config) (ctx : contract_context)
    (bases : List (class_decl σ)) (m : machine σ ε)
    (h : ∀ B ∈ bases, ∀ d ∈ B.body, d.fails cfg ctx m.uncaught_exception m.state = false) :
    (enforce cfg ctx bases m).1 = outcome.normal := by
  induction bases generalizing m with
  | nil => rfl
  | cons B rest ih =>
      have hrest : ∀ m1 : machine σ ε, m1.uncaught_exception = m.uncaught_exception →
          m1.state = m.state → (enforce cfg ctx rest m1).1 = outcome.normal := by
        intro m1 h1 h2
        apply ih
        intro C hC d hd
        rw [h1, h2]
        exact h C (List.mem_cons_of_mem _ hC) d hd
      cases hB : has_class_contract B with
      | false =>
          simp only [enforce, do_enforce, hB, Bool.false_eq_true, if_false]
          exact hrest m rfl rfl
      | true =>
          simp only [enforce, do_enforce, hB, if_true]
          rw [class_contract_eq cfg B ctx m hB, run_statements_of_pass]
          · exact hrest _ rfl rfl
          · intro s hs
            simp only [expand, List.mem_map] at hs
            obtain ⟨d, hd, rfl⟩ := hs
            exact h B (List.mem_cons_self _ _) d hd

theorem class_invariant_of_pass (cfg : build_config) (T : class_decl σ)
    (ctx : contract_context) (m : machine σ ε) (hT : has_class_contract T = true)
    (hbases : ∀ B ∈ T.bases, ∀ d ∈ B.body,
      d.fails cfg ctx m.uncaught_exception m.state = false)
    (hown : ∀ d ∈ T.body, d.fails cfg ctx m.uncaught_exception m.state = false) :
    (class_invariant cfg T ctx m).1 = outcome.normal := by
  have he := enforce_normal_inv cfg ctx T.bases m (enforce_of_pass cfg ctx T.bases m hbases)
  unfold class_invariant
  rw [prepare_contract_eq, he]
  simp only
  rw [class_contract_eq cfg T ctx _ hT, run_statements_of_pass]
  intro s hs
  simp only [expand, List.mem_map] at hs
  obtain ⟨d, hd, rfl⟩ := hs
  exact hown d hd

/-- C6: for `D` declared with `CONTRACT(derived)(bases...)`, every evaluation
of the class invariant of `D` runs class contract bodies along the composed
order: the listed bases that have a class contract, in declaration order (a
base without one is left out), then `D` itself.  Whatever the outcome, the
bodies run are an initial part of that order and each is run with the context
of the evaluation; when the evaluation returns normally they are exactly that
order, each once; and it returns normally when no check of these bodies
fails.  For two bases `A`, `B` the order is `A`, `B`, `D`, without those that
have no class contract. -/
theorem C6_bases_then_derived_in_order (cfg : build_config) (name : String)
    (bases : List (class_decl σ)) (own : block σ) (ctx : contract_context)
    (m : machine σ ε) :
    class_runs (emitted m
        (class_invariant cfg (class_decl.contract_derived__ name bases own) ctx m)) <+:
      composed_order (class_decl.contract_derived__ name bases own) ∧
    class_run_contexts (emitted m
        (class_invariant cfg (class_decl.contract_derived__ name bases own) ctx m)) =
      List.replicate (class_runs (emitted m
        (class_invariant cfg (class_decl.contract_derived__ name bases own) ctx m))).length ctx ∧
    ((class_invariant cfg (class_decl.contract_derived__ name bases own) ctx m).1 =
        outcome.normal →
      class_runs (emitted m
          (class_invariant cfg (class_decl.contract_derived__ name bases own) ctx m)) =
        composed_order (class_decl.contract_derived__ name bases own)) ∧
    ((∀ B ∈ bases, ∀ d ∈ B.body, d.fails cfg ctx m.uncaught_exception m.state = false) →
      (∀ d ∈ own, d.fails cfg ctx m.uncaught_exception m.state = false) →
      (class_invariant cfg (class_decl.contract_derived__ name bases own) ctx m).1 =
        outcome.normal) ∧
    composed_order (class_decl.contract_derived__ name bases own) =
      (bases.filter has_class_contract).map class_decl.name ++ [name] ∧
    (∀ A B : class_decl σ,
      composed_order (class_decl.contract_derived__ name [A, B] own) =
        (if has_class_contract A then [A.name] else []) ++
          ((if has_class_contract B then [B.name] else []) ++ [name])) := by
  obtain ⟨new, hn, hp, hx⟩ :=
    class_invariant_log cfg (class_decl.contract_derived__ name bases own) ctx m rfl
  have hem := emitted_of_trace_eq m _ new hn
  refine ⟨by rw [hem]; exact hp, by rw [hem]; exact hx, ?_, ?_, rfl, ?_⟩
  · intro hnorm
    have h := class_invariant_normal_inv cfg (class_decl.contract_derived__ name bases own)
      ctx m rfl hnorm
    rw [emitted_of_trace_eq m _ _ (congrArg (fun r => r.2.trace) h)]
    exact class_runs_class_invariant_trace _ _ _ _
  · intro hb ho
    exact class_invariant_of_pass cfg _ ctx m rfl hb ho
  · intro A B
    cases hA : has_class_contract A <;> cases hB : has_class_contract B <;>
      simp [composed_order, class_decl.bases, class_decl.name, List.filter_cons, hA, hB]

/-- Witness of C6 on `D : A, B` with `CONTRACT(derived)(A, B)` and on
`E : P, B` where `P` has no class contract, with `x == 0`: the invariant of
`D` runs the bodies of `A`, `B`, `D` in that order, the invariant of `E` those
of `B` and `E`. -/
theorem C6_witness_two_bases :
    class_runs (emitted (test.start 0)
        (class_invariant build_config.all_enabled test.derived_d
          (contract_context.mk false false true) (test.start 0))) = ["A", "B", "D"] ∧
    class_runs (emitted (test.start 0)
        (class_invariant build_config.all_enabled test.derived_e
          (contract_context.mk false false true) (test.start 0))) = ["B", "E"] :=
  ⟨(C6_bases_then_derived_in_order build_config.all_enabled "D" [test.base_a, test.base_b]
      test.derived_body (contract_context.mk false false true) (test.start 0)).2.2.1
      ((C6_bases_then_derived_in_order build_config.all_enabled "D"
        [test.base_a, test.base_b] test.derived_body (contract_context.mk false false true)
        (test.start 0)).2.2.2.1 (by decide) (by decide)),
    (C6_bases_then_derived_in_order build_config.all_enabled "E"
      [class_decl.no_contract, test.base_b] test.derived_body
      (contract_context.mk false false true) (test.start 0)).2.2.1
      ((C6_bases_then_derived_in_order build_config.all_enabled "E"
        [class_decl.no_contract, test.base_b] test.derived_body
        (contract_context.mk false false true) (test.start 0)).2.2.2.1
        (by decide) (by decide))⟩

/-- C7, the code at a failing input: `G` has `CONTRACT(class) { INVARIANT(x
== 0); }`, `B : G` has `CONTRACT(derived)(G)`, `D : B` has
`CONTRACT(derived)(B)`, and `x == 1`, so the invariant of `G` is false.  The
class invariant of `D` runs the bodies of `B` and `D` only, evaluates no
condition of `G`, calls no handler and returns normally, and so does a whole
`CONTRACT(mfun)` method of `D`; whereas the class invariant of `B`, evaluated
on the same object, runs the body of `G` and reports its invariant. -/
theorem C7_grand_base_body_is_not_run :
    class_runs (emitted (test.start 1)
        (class_invariant build_config.all_enabled test.leaf_d
          (contract_context.mk false false true) (test.start 1))) = ["B", "D"] ∧
    (class_invariant build_config.all_enabled test.leaf_d
        (contract_context.mk false false true) (test.start 1)).1 = outcome.normal ∧
    evaluated_checks (emitted (test.start 1)
        (class_invariant build_config.all_enabled test.leaf_d
          (contract_context.mk false false true) (test.start 1))) =
      [violation_context.mk type.invariant "x <= 10" "x <= 10" "chain.cpp" 12,
        violation_context.mk type.invariant "x != 7" "x != 7" "chain.cpp" 19] ∧
    (run_guarded build_config.all_enabled (contract_mfun__ test.leaf_d [])
        test.keep (test.start 1)).1 = outcome.normal ∧
    class_runs (emitted (test.start 1)
        (run_guarded build_config.all_enabled (contract_mfun__ test.leaf_d [])
          test.keep (test.start 1))) = ["B", "D", "B", "D"] ∧
    class_runs (emitted (test.start 1)
        (class_invariant build_config.all_enabled test.middle_b
          (contract_context.mk false false true) (test.start 1))) = ["G"] ∧
    (class_invariant build_config.all_enabled test.middle_b
        (contract_context.mk false false true) (test.start 1)).1 =
      outcome.raised (test.error.contract_error type.invariant "x == 0") ∧
    handler_calls (emitted (test.start 1)
        (class_invariant build_config.all_enabled test.middle_b
          (contract_context.mk false false true) (test.start 1))) =
      [violation_context.mk type.invariant "x == 0" "x == 0" "chain.cpp" 5] :=
  ⟨rfl, rfl, rfl, rfl, rfl, rfl, rfl, rfl⟩

/-! ## The record of a report -/

theorem check_enabled_of_fails (cfg : build_config) (ctx : contract_context) (uncaught : Bool)
    (st : σ) (c : check σ) (h : c.fails cfg ctx uncaught st = true) :
    cfg.disabled c.kind = false ∧ check_ ctx c.kind uncaught = true ∧ c.cond st = false := by
  rw [check_fails_eq] at h
  simp only [Bool.and_eq_true, Bool.not_eq_true'] at h
  exact ⟨h.1, h.2.1, h.2.2⟩

theorem check_run_of_fails (cfg : build_config) (ctx : contract_context) (c : check σ)
    (m : machine σ ε) (h : c.fails cfg ctx m.uncaught_exception m.state = true) :
    (c.expand cfg).run ctx m =
      handle_violation c.record (m.log (event.evaluated c.record)) := by
  obtain ⟨rec, hrec, hrun⟩ := statement_run_of_fails ctx (c.expand cfg) m h
  rw [check_expand_record cfg c (check_enabled_of_fails cfg ctx _ _ c h).1] at hrec
  cases hrec
  exact hrun

/-- Every record passed to the handler during a call of the lambda of a block
is the record of a check of the block that fails there. -/
theorem invoke_handler_calls_mem (cfg : build_config) (blk : block σ) (ctx : contract_context)
    (m : machine σ ε) :
    ∀ rec ∈ handler_calls (emitted m (invoke cfg blk ctx m)),
      ∃ d ∈ blk, rec = d.record ∧ d.fails cfg ctx m.uncaught_exception m.state = true := by
  intro rec hrec
  rcases invoke_cases cfg blk ctx m with ⟨_, hrun⟩ | ⟨pre, c, rest, heq, _, hc, hrun⟩
  · rw [emitted_of_trace_eq m _ _ (congrArg (fun r => r.2.trace) hrun),
      handler_calls_cons_block_run, handler_calls_evaluations] at hrec
    exact absurd hrec (List.not_mem_nil _)
  · have htr : (invoke cfg blk ctx m).2.trace =
        m.trace ++ (event.block_run ctx :: (evaluations cfg ctx m.uncaught_exception pre ++
          [event.evaluated c.record, event.handler_called c.record])) := by
      rw [hrun, handle_violation_trace]
      simp [List.append_assoc]
    rw [emitted_of_trace_eq m _ _ htr, handler_calls_cons_block_run, handler_calls_append,
      handler_calls_evaluations, handler_calls_cons_evaluated, handler_calls_cons_called,
      handler_calls_nil, List.nil_append, List.mem_singleton] at hrec
    refine ⟨c, ?_, hrec, hc⟩
    rw [heq]
    exact List.mem_append_right _ (List.mem_cons_self _ _)

/-- C11: when a check reports, the handler is called with the record of the
check: its kind is the kind of the check, its condition the text of the
condition, its message the second argument or, for the one-argument form, the
text of the condition; every record the handler receives during a call of a
block is the record of one of its checks; and each of the six forms builds a
record of its own kind. -/
theorem C11_record_matches_the_check (cfg : build_config) (c : check σ)
    (ctx : contract_context) (m : machine σ ε)
    (h : c.fails cfg ctx m.uncaught_exception m.state = true) :
    (c.expand cfg).run ctx m =
      handle_violation c.record (m.log (event.evaluated c.record)) ∧
    handler_calls (emitted m ((c.expand cfg).run ctx m)) = [c.record] ∧
    c.record.contract_type = c.kind ∧
    c.record.condition = c.cond_text ∧
    c.record.message = (match c.msg with
      | some msg => msg
      | none => c.cond_text) ∧
    (∀ (blk : block σ) (ctx1 : contract_context) (m1 : machine σ ε),
      ∀ rec ∈ handler_calls (emitted m1 (invoke cfg blk ctx1 m1)), ∃ d ∈ blk, rec = d.record) ∧
    (∀ (cond : σ → Bool) (cond_text msg file : String) (line : Nat),
      (PRECONDITION2 build_config.all_enabled cond cond_text msg file line).record =
        some (violation_context.mk type.precondition msg cond_text file line) ∧
      (POSTCONDITION2 build_config.all_enabled cond cond_text msg file line).record =
        some (violation_context.mk type.postcondition msg cond_text file line) ∧
      (INVARIANT2 build_config.all_enabled cond cond_text msg file line).record =
        some (violation_context.mk type.invariant msg cond_text file line) ∧
      (PRECONDITION1 build_config.all_enabled cond cond_text file line).record =
        some (violation_context.mk type.precondition cond_text cond_text file line) ∧
      (POSTCONDITION1 build_config.all_enabled cond cond_text file line).record =
        some (violation_context.mk type.postcondition cond_text cond_text file line) ∧
      (INVARIANT1 build_config.all_enabled cond cond_text file line).record =
        some (violation_context.mk type.invariant cond_text cond_text file line)) := by
  have hrun := check_run_of_fails cfg ctx c m h
  refine ⟨hrun, ?_, rfl, rfl, ?_, ?_, ?_⟩
  · have htr : ((c.expand cfg).run ctx m).2.trace =
        m.trace ++ [event.evaluated c.record, event.handler_called c.record] := by
      rw [hrun, handle_violation_trace]
      simp [machine.log, List.append_assoc]
    rw [emitted_of_trace_eq m _ _ htr]
    rfl
  · cases hm : c.msg <;> simp [check.record, hm]
  · intro blk ctx1 m1 rec hrec
    obtain ⟨d, hd, hrec2, _⟩ := invoke_handler_calls_mem cfg blk ctx1 m1 rec hrec
    exact ⟨d, hd, hrec2⟩
  · intro cond cond_text msg file line
    exact ⟨rfl, rfl, rfl, rfl, rfl, rfl⟩

/-- Witness of C11 on `fun_contract_test_precondition(false, "precondition")`
of `funcontract.cpp`: `PRECONDITION(par, msg)` delivers the record with kind
precondition, message `"precondition"` and condition `"par"`. -/
theorem C11_witness_precondition_with_message :
    handler_calls (emitted (test.start false)
        ((check.expand build_config.all_enabled test.check_par_msg).run
          (contract_context.mk true false true) (test.start false))) =
      [violation_context.mk type.precondition "precondition" "par" "funcontract.cpp" 14] ∧
    (run_guarded build_config.all_enabled (contract_fun__ [test.check_par_msg])
        test.empty_body (test.start false)).1 =
      outcome.raised (test.error.contract_error type.precondition "precondition") ∧
    (run_guarded build_config.all_enabled (contract_fun__ [test.check_par])
        test.empty_body (test.start false)).1 =
      outcome.raised (test.error.contract_error type.precondition "par") :=
  ⟨(C11_record_matches_the_check build_config.all_enabled test.check_par_msg
      (contract_context.mk true false true) (test.start false) rfl).2.1, rfl, rfl⟩

/-! ## The default handler -/

/-- C17: for every record the default handler writes the three lines
`<file>:<line>: error: contract violation of type '<kind>'`, `message:
<message>` (three blanks after the colon) and `condition: <condition>`, each
followed by a newline, with `<line>` in decimal and `<kind>` the name of the
kind of the record, and then terminates: it neither returns nor raises.  With
it installed, `handle_violation` appends that text to `std::cerr` and ends in
termination.  It is the handler installed at the start of the process. -/
theorem C17_default_handler_output (context : violation_context) (m : machine σ ε) :
    (default_handler context : handler_effect ε).output =
      String.join
        [ context.file, ":", Nat.repr context.line,
          ": error: contract violation of type '", type_str context.contract_type, "'", "\n",
          "message:   ", context.message, "\n",
          "condition: ", context.condition, "\n" ] ∧
    type_str type.precondition = "precondition" ∧
    type_str type.postcondition = "postcondition" ∧
    type_str type.invariant = "invariant" ∧
    (default_handler context : handler_effect ε).exit = handler_exit.terminates ∧
    (default_handler context : handler_effect ε).exit ≠ handler_exit.returns ∧
    (∀ e : ε, (default_handler context : handler_effect ε).exit ≠ handler_exit.raises e) ∧
    (handle_violation context
        ({ m with current_handler := default_handler } : machine σ ε)).1 =
      outcome.terminated ∧
    (handle_violation context
        ({ m with current_handler := default_handler } : machine σ ε)).2.cerr =
      m.cerr ++ (default_handler context : handler_effect ε).output ∧
    (∀ st : σ, get_handler (initial_machine st : machine σ ε) = default_handler) ∧
    (default_handler
        (violation_context.mk type.precondition "precondition" "par" "funcontract.cpp" 14) :
        handler_effect ε).output =
      "funcontract.cpp:14: error: contract violation of type 'precondition'\nmessage:   precondition\ncondition: par\n" := by
  refine ⟨?_, rfl, rfl, rfl, rfl, ?_, ?_, rfl, rfl, fun _ => rfl, ?_⟩
  · simp [default_handler, String.join, String.append_assoc]
  · simp [default_handler]
  · intro e
    simp [default_handler]
  · rfl

/-! ## Loop contracts -/

theorem block_runs_cons_block_run (ctx : contract_context) (t : List event) :
    block_runs (event.block_run ctx :: t) = ctx :: block_runs t := rfl

theorem block_runs_cons_evaluated (c : violation_context) (t : List event) :
    block_runs (event.evaluated c :: t) = block_runs t := rfl

theorem block_runs_cons_called (c : violation_context) (t : List event) :
    block_runs (event.handler_called c :: t) = block_runs t := rfl

theorem block_runs_cons_body_run (t : List event) :
    block_runs (event.body_run :: t) = block_runs t := rfl

theorem block_runs_cons_class_run (cls : String) (ctx : contract_context) (t : List event) :
    block_runs (event.class_run cls ctx :: t) = block_runs t := rfl

theorem block_runs_nil : block_runs [] = [] := rfl

/-- The log of a call of the lambda of a block whose first failing check is
`c`. -/
theorem invoke_failure_log (cfg : build_config) (pre : block σ) (c : check σ)
    (rest : block σ) (ctx : contract_context) (m : machine σ ε)
    (hpre : ∀ d ∈ pre, d.fails cfg ctx m.uncaught_exception m.state = false)
    (hc : c.fails cfg ctx m.uncaught_exception m.state = true) :
    (invoke cfg (pre ++ c :: rest) ctx m).1 = (m.current_handler c.record).exit.outcome ∧
    emitted m (invoke cfg (pre ++ c :: rest) ctx m) =
      event.block_run ctx :: (evaluations cfg ctx m.uncaught_exception pre ++
        [event.evaluated c.record, event.handler_called c.record]) := by
  have hrun := invoke_first_failure cfg pre c rest ctx m hpre hc
  refine ⟨by rw [hrun, handle_violation_outcome], ?_⟩
  apply emitted_of_trace_eq
  rw [hrun, handle_violation_trace]
  simp [List.append_assoc]

/-- Every call of the lambda of a block logs exactly one run of the block. -/
theorem invoke_block_runs (cfg : build_config) (blk : block σ) (ctx : contract_context)
    (m : machine σ ε) : block_runs (emitted m (invoke cfg blk ctx m)) = [ctx] := by
  rcases invoke_cases cfg blk ctx m with ⟨_, hrun⟩ | ⟨pre, c, rest, heq, hpre, hc, _⟩
  · rw [emitted_of_trace_eq m _ _ (congrArg (fun r => r.2.trace) hrun),
      block_runs_cons_block_run, block_runs_evaluations]
  · rw [heq, (invoke_failure_log cfg pre c rest ctx m hpre hc).2, block_runs_cons_block_run,
      block_runs_append, block_runs_evaluations, block_runs_cons_evaluated,
      block_runs_cons_called]
    rfl

/-- C15: a `CONTRACT(loop)` block is one call of its block with the context
`{false, false, true}`, logged exactly once, in every machine; in that context
a check that is not an `INVARIANT` never fails and is never evaluated,
whatever its condition and the flag; an `INVARIANT` fails exactly when
invariants are not disabled and its condition is false, whatever the flag;
every record reported has kind invariant; and when the first failing check of
the block is an `INVARIANT`, the handler is called once, with its record. -/
theorem C15_loop_block_checks_invariants_only (cfg : build_config) (blk : block σ)
    (m : machine σ ε) :
    contract_loop__ cfg blk m = invoke cfg blk (contract_context.mk false false true) m ∧
    block_runs (emitted m (contract_loop__ cfg blk m)) =
      [contract_context.mk false false true] ∧
    (∀ (c : check σ) (u : Bool) (st : σ), c.kind ≠ type.invariant →
      c.fails cfg (contract_context.mk false false true) u st = false ∧
      (c.expand cfg).evaluation (contract_context.mk false false true) u = []) ∧
    (∀ (c : check σ) (u : Bool) (st : σ), c.kind = type.invariant →
      c.fails cfg (contract_context.mk false false true) u st =
        (!cfg.CONTRACT_DISABLE_INVARIANTS && !c.cond st)) ∧
    (∀ rec ∈ handler_calls (emitted m (contract_loop__ cfg blk m)),
      rec.contract_type = type.invariant) ∧
    (∀ (pre : block σ) (c : check σ) (rest : block σ), blk = pre ++ c :: rest →
      c.kind = type.invariant → cfg.CONTRACT_DISABLE_INVARIANTS = false →
      (∀ d ∈ pre, d.fails cfg (contract_context.mk false false true) m.uncaught_exception
        m.state = false) →
      c.cond m.state = false →
      handler_calls (emitted m (contract_loop__ cfg blk m)) = [c.record] ∧
      c.record.contract_type = type.invariant ∧
      (contract_loop__ cfg blk m).1 = (m.current_handler c.record).exit.outcome) := by
  have hother : ∀ (c : check σ) (u : Bool), c.kind ≠ type.invariant →
      (!cfg.disabled c.kind && check_ (contract_context.mk false false true) c.kind u) =
        false := by
    intro c u hk
    cases hkind : c.kind with
    | precondition => simp [check_, contract_context.check_precondition]
    | postcondition => simp [check_, contract_context.check_postcondition]
    | invariant => exact absurd hkind hk
  refine ⟨rfl, invoke_block_runs cfg blk _ m, ?_, ?_, ?_, ?_⟩
  · intro c u st hk
    refine ⟨check_fails_of_inactive cfg _ u st c (hother c u hk), ?_⟩
    rw [evaluation_expand, hother c u hk]
    rfl
  · intro c u st hk
    rw [check_fails_eq, hk]
    simp [build_config.disabled, check_, contract_context.check_invariant]
  · intro rec hrec
    obtain ⟨d, _, hd, hfail⟩ := invoke_handler_calls_mem cfg blk _ m rec hrec
    rw [hd]
    by_contra hk
    have hk2 : d.kind ≠ type.invariant := hk
    rw [check_fails_of_inactive cfg _ _ _ d (hother d _ hk2)] at hfail
    cases hfail
  · intro pre c rest heq hk hen hpre hcond
    have hc : c.fails cfg (contract_context.mk false false true) m.uncaught_exception m.state
        = true := by
      rw [check_fails_eq, hk]
      simp [build_config.disabled, hen, check_, contract_context.check_invariant, hcond]
    obtain ⟨ho, hem⟩ := invoke_failure_log cfg pre c rest _ m hpre hc
    unfold contract_loop__
    rw [heq, hem]
    refine ⟨?_, by simp [check.record, hk], ho⟩
    rw [handler_calls_cons_block_run, handler_calls_append, handler_calls_evaluations,
      handler_calls_cons_evaluated, handler_calls_cons_called]
    rfl

/-- Witness of C15 on `CONTRACT(loop) { INVARIANT(i <= 10); }` reached with
`i == 11` while an exception is in flight: the invariant is reported. -/
theorem C15_witness_loop_invariant_while_unwinding :
    handler_calls (emitted (test.start_unwinding 11)
        (contract_loop__ build_config.all_enabled [test.loop_invariant]
          (test.start_unwinding 11))) =
      [violation_context.mk type.invariant "i <= 10" "i <= 10" "loop.cpp" 7] ∧
    (violation_context.mk type.invariant "i <= 10" "i <= 10" "loop.cpp" 7).contract_type =
      type.invariant ∧
    (contract_loop__ build_config.all_enabled [test.loop_invariant]
        (test.start_unwinding 11)).1 =
      outcome.raised (test.error.contract_error type.invariant "i <= 10") :=
  (C15_loop_block_checks_invariants_only build_config.all_enabled [test.loop_invariant]
    (test.start_unwinding 11)).2.2.2.2.2 [] test.loop_invariant [] rfl rfl rfl
    (fun _ hd => absurd hd (List.not_mem_nil _)) rfl

/-! ## Which conditions are evaluated -/

theorem evaluated_checks_append (a b : List event) :
    evaluated_checks (a ++ b) = evaluated_checks a ++ evaluated_checks b := by
  simp [evaluated_checks, List.filterMap_append]

theorem evaluated_checks_cons_block_run (ctx : contract_context) (t : List event) :
    evaluated_checks (event.block_run ctx :: t) = evaluated_checks t := rfl

theorem evaluated_checks_cons_evaluated (c : violation_context) (t : List event) :
    evaluated_checks (event.evaluated c :: t) = c :: evaluated_checks t := rfl

theorem evaluated_checks_cons_called (c : violation_context) (t : List event) :
    evaluated_checks (event.handler_called c :: t) = evaluated_checks t := rfl

theorem evaluated_checks_nil : evaluated_checks [] = [] := rfl

/-- The conditions evaluated by a passing run of a block are those of its
checks that are not disabled and are active in the context. -/
theorem evaluated_checks_evaluations_mem (cfg : build_config) (ctx : contract_context)
    (uncaught : Bool) (blk : block σ) (rec : violation_context)
    (h : rec ∈ evaluated_checks (evaluations cfg ctx uncaught blk)) :
    ∃ d ∈ blk, rec = d.record ∧ cfg.disabled d.kind = false ∧
      check_ ctx d.kind uncaught = true := by
  simp only [evaluated_checks, List.mem_filterMap] at h
  obtain ⟨e, he, hrec⟩ := h
  simp only [evaluations, expand, List.mem_flatMap, List.mem_map] at he
  obtain ⟨s, ⟨d, hd, rfl⟩, hes⟩ := he
  rw [evaluation_expand] at hes
  split at hes
  · rename_i hact
    simp only [Bool.and_eq_true, Bool.not_eq_true'] at hact
    rw [List.mem_singleton] at hes
    subst hes
    simp only [Option.some.injEq] at hrec
    exact ⟨d, hd, hrec.symm, hact.1, hact.2⟩
  · exact absurd hes (List.not_mem_nil _)

/-- C18: in any call of the lambda of a block, every condition that is
evaluated belongs to a check whose kind is not disabled and is active in the
context of the call, given the flag; a check whose kind is not active leaves
the machine as it is.  In an entry context no `POSTCONDITION` is active, nor
an `INVARIANT` when `enter` is false; in an exit context no `PRECONDITION` is
active, nor an `INVARIANT` when `exit_` is false; with an exception in flight
no `POSTCONDITION` is active in any context.  The constructor and the
destructor of `fun_contract` each run the whole block exactly once. -/
theorem C18_only_active_conditions_are_evaluated (cfg : build_config) (blk : block σ)
    (ctx : contract_context) (m : machine σ ε) :
    (∀ rec ∈ evaluated_checks (emitted m (invoke cfg blk ctx m)),
      ∃ d ∈ blk, rec = d.record ∧ cfg.disabled d.kind = false ∧
        check_ ctx d.kind m.uncaught_exception = true) ∧
    (∀ c : check σ, check_ ctx c.kind m.uncaught_exception = false →
      (c.expand cfg).run ctx m = (outcome.normal, m)) ∧
    (∀ enter u : Bool,
      check_ (contract_context.mk true false enter) type.postcondition u = false ∧
      check_ (contract_context.mk true false false) type.invariant u = false ∧
      check_ (contract_context.mk false true enter) type.precondition u = false ∧
      check_ (contract_context.mk false true false) type.invariant u = false ∧
      check_ ctx type.postcondition true = false) ∧
    (∀ enter : Bool,
      block_runs (emitted m (fun_contract.constructor cfg blk enter m)) =
        [contract_context.mk true false enter]) ∧
    (∀ exit : Bool,
      block_runs (emitted m (fun_contract.destructor cfg blk exit m)) =
        [contract_context.mk false true exit]) := by
  refine ⟨?_, ?_, ?_, fun enter => invoke_block_runs cfg blk _ m,
    fun exit => invoke_block_runs cfg blk _ m⟩
  · intro rec hrec
    rcases invoke_cases cfg blk ctx m with ⟨_, hrun⟩ | ⟨pre, c, rest, heq, hpre, hc, _⟩
    · rw [emitted_of_trace_eq m _ _ (congrArg (fun r => r.2.trace) hrun),
        evaluated_checks_cons_block_run] at hrec
      exact evaluated_checks_evaluations_mem cfg ctx _ blk rec hrec
    · rw [heq, (invoke_failure_log cfg pre c rest ctx m hpre hc).2,
        evaluated_checks_cons_block_run, evaluated_checks_append,
        evaluated_checks_cons_evaluated, evaluated_checks_cons_called, evaluated_checks_nil,
        List.mem_append, List.mem_singleton] at hrec
      rcases hrec with hrec | hrec
      · obtain ⟨d, hd, h1, h2, h3⟩ :=
          evaluated_checks_evaluations_mem cfg ctx _ pre rec hrec
        exact ⟨d, by rw [heq]; exact List.mem_append_left _ hd, h1, h2, h3⟩
      · obtain ⟨h1, h2, _⟩ := check_enabled_of_fails cfg ctx _ _ c hc
        exact ⟨c, by rw [heq]; exact List.mem_append_right _ (List.mem_cons_self _ _),
          hrec, h1, h2⟩
  · intro c hc
    rw [check_expand_eq]
    split
    · rfl
    · simp [statement.run, hc]
  · intro enter u
    simp [check_, contract_context.check_precondition, contract_context.check_postcondition,
      contract_context.check_invariant]

/-- Witness of C18 on `fun_contract_test_all(true, true, false)`: in the entry
call of the block the conditions `pre` and `inv` are evaluated and `post` is
not, and `POSTCONDITION(post)` leaves the machine as it is there. -/
theorem C18_witness_entry_of_fun_contract_test_all :
    evaluated_checks (emitted (test.start (true, true, false))
        (invoke build_config.all_enabled test.fun_contract_test_all
          (contract_context.mk true false true) (test.start (true, true, false)))) =
      [violation_context.mk type.precondition "pre" "pre" "funcontract.cpp" 47,
        violation_context.mk type.invariant "inv" "inv" "funcontract.cpp" 48] ∧
    (check.expand build_config.all_enabled test.check_post).run
        (contract_context.mk true false true) (test.start (true, true, false)) =
      (outcome.normal, test.start (true, true, false)) :=
  ⟨rfl,
    (C18_only_active_conditions_are_evaluated build_config.all_enabled
      test.fun_contract_test_all (contract_context.mk true false true)
      (test.start (true, true, false))).2.1 test.check_post rfl⟩

/-! ## Constructors and destructors of a class without a class contract -/

/-- C13, the code at failing inputs.  For a class without a class contract,
`{ CONTRACT(ctor) { INVARIANT(x == 1); }; x = 1; }` entered with `x == 0` runs
the block with the entry context `{true, false, true}`, evaluates the invariant
before the body and reports it, and the body never runs; and `{ CONTRACT(dtor)
{ INVARIANT(x == 1); }; x = 0; }` entered with `x == 1` evaluates the invariant
again after the body, in the exit context `{false, true, true}`, and reports
it.  For a class with a class contract the same two scopes run the block with
`{true, false, false}` at constructor entry and `{false, true, false}` at
destructor exit, and end normally. -/
theorem C13_flags_dropped_without_class_contract :
    emitted (test.start 0)
        (run_guarded build_config.all_enabled
          (contract_ctor__ class_decl.no_contract test.is_one) test.set_one (test.start 0)) =
      [event.block_run (contract_context.mk true false true),
        event.evaluated (violation_context.mk type.invariant "x == 1" "x == 1" "plain.cpp" 8),
        event.handler_called
          (violation_context.mk type.invariant "x == 1" "x == 1" "plain.cpp" 8)] ∧
    (run_guarded build_config.all_enabled
        (contract_ctor__ class_decl.no_contract test.is_one) test.set_one (test.start 0)).1 =
      outcome.raised (test.error.contract_error type.invariant "x == 1") ∧
    emitted (test.start 1)
        (run_guarded build_config.all_enabled
          (contract_dtor__ class_decl.no_contract test.is_one) test.set_zero (test.start 1)) =
      [event.block_run (contract_context.mk true false true),
        event.evaluated (violation_context.mk type.invariant "x == 1" "x == 1" "plain.cpp" 8),
        event.body_run,
        event.block_run (contract_context.mk false true true),
        event.evaluated (violation_context.mk type.invariant "x == 1" "x == 1" "plain.cpp" 8),
        event.handler_called
          (violation_context.mk type.invariant "x == 1" "x == 1" "plain.cpp" 8)] ∧
    (run_guarded build_config.all_enabled
        (contract_dtor__ class_decl.no_contract test.is_one) test.set_zero (test.start 1)).1 =
      outcome.raised (test.error.contract_error type.invariant "x == 1") ∧
    block_runs (emitted (test.start 0)
        (run_guarded build_config.all_enabled
          (contract_ctor__ test.at_most_one test.is_one) test.set_one (test.start 0))) =
      [contract_context.mk true false false, contract_context.mk false true true] ∧
    (run_guarded build_config.all_enabled
        (contract_ctor__ test.at_most_one test.is_one) test.set_one (test.start 0)).1 =
      outcome.normal ∧
    block_runs (emitted (test.start 1)
        (run_guarded build_config.all_enabled
          (contract_dtor__ test.at_most_one test.is_one) test.set_zero (test.start 1))) =
      [contract_context.mk true false true, contract_context.mk false true false] ∧
    (run_guarded build_config.all_enabled
        (contract_dtor__ test.at_most_one test.is_one) test.set_zero (test.start 1)).1 =
      outcome.normal :=
  ⟨rfl, rfl, rfl, rfl, rfl, rfl, rfl, rfl⟩

theorem contractor_of_no_class_contract (T : class_decl σ) (enter exit : Bool) (f : block σ)
    (hT : has_class_contract T = false) :
    contractor T enter exit f = guard.fun_contract f true true := by
  simp [contractor, hT]

/-- The log of a call of the lambda of a block extends the log it started
from, and runs no class contract body. -/
theorem invoke_extends (cfg : build_config) (blk : block σ) (ctx : contract_context)
    (m : machine σ ε) :
    ∃ new, (invoke cfg blk ctx m).2.trace = m.trace ++ new ∧ class_runs new = [] := by
  rcases invoke_cases cfg blk ctx m with ⟨_, hrun⟩ | ⟨pre, c, rest, _, _, _, hrun⟩
  · refine ⟨event.block_run ctx :: evaluations cfg ctx m.uncaught_exception blk, ?_, ?_⟩
    · rw [hrun]
    · rw [class_runs_cons_block_run, class_runs_evaluations]
  · refine ⟨event.block_run ctx :: (evaluations cfg ctx m.uncaught_exception pre ++
      [event.evaluated c.record, event.handler_called c.record]), ?_, ?_⟩
    · rw [hrun, handle_violation_trace]
      simp [List.append_assoc]
    · rw [class_runs_cons_block_run, class_runs_append, class_runs_evaluations,
        class_runs_cons_evaluated, class_runs_cons_called]
      rfl

theorem run_body_trace (b : body σ ε) (m : machine σ ε) :
    (run_body b m).2.trace = m.trace ++ [event.body_run] := by
  unfold run_body
  cases h : (b m.state).2 <;> simp [h, machine.log]

theorem fun_contract_destroy_machine (cfg : build_config) (f : block σ)
    (enter exit unwinding : Bool) (m : machine σ ε) :
    ((guard.fun_contract f enter exit).destroy cfg unwinding m).2 =
      (invoke cfg f (contract_context.mk false true exit) m).2 := by
  simp only [guard.destroy, fun_contract.destructor]
  cases hr : invoke cfg f (contract_context.mk false true exit) m with
  | mk o m1 =>
      cases o with
      | normal => rfl
      | raised e => cases unwinding <;> rfl
      | terminated => rfl

/-- An activation of a scope guarded by a `fun_contract` runs no class
contract body, however it ends. -/
theorem fun_activation_class_runs (cfg : build_config) (f : block σ) (enter exit : Bool)
    (b : body σ ε) (m : machine σ ε) :
    class_runs (emitted m (run_guarded cfg (guard.fun_contract f enter exit) b m)) = [] := by
  obtain ⟨new1, h1, hc1⟩ := invoke_extends cfg f (contract_context.mk true false enter) m
  simp only [run_guarded, guard.construct, fun_contract.constructor]
  cases hr : invoke cfg f (contract_context.mk true false enter) m with
  | mk o m1 =>
      rw [hr] at h1
      simp only at h1
      cases o with
      | normal =>
          simp only
          have hb := run_body_trace b m1
          cases hrb : run_body b m1 with
          | mk ob m2 =>
              rw [hrb] at hb
              simp only at hb
              obtain ⟨new2, h2, hc2⟩ :=
                invoke_extends cfg f (contract_context.mk false true exit) m2
              have hfin : ∀ u : Bool,
                  class_runs (emitted m
                    (ob, ((guard.fun_contract f enter exit).destroy cfg u m2).2)) = [] := by
                intro u
                rw [emitted_of_trace_eq m _ (new1 ++ event.body_run :: new2)
                  (by
                    simp only
                    rw [fun_contract_destroy_machine, h2, hb, h1]
                    simp [List.append_assoc])]
                rw [class_runs_append, hc1, class_runs_cons_body_run, hc2]
                rfl
              cases ob with
              | normal => exact hfin false
              | raised e =>
                  simp only
                  have := hfin true
                  cases hd : guard.destroy cfg true (guard.fun_contract f enter exit) m2 with
                  | mk od m3 =>
                      rw [hd] at this
                      cases od <;> simpa [emitted] using this
              | terminated =>
                  simp only
                  rw [emitted_of_trace_eq m _ (new1 ++ [event.body_run])
                    (by simp only; rw [hb, h1]; simp [List.append_assoc])]
                  rw [class_runs_append, hc1]
                  rfl
      | raised e =>
          simp only
          rw [emitted_of_trace_eq m _ new1 h1]
          exact hc1
      | terminated =>
          simp only
          rw [emitted_of_trace_eq m _ new1 h1]
          exact hc1

/-- C14: for a type without a class contract, `CONTRACT(mfun)`,
`CONTRACT(ctor)` and `CONTRACT(dtor)` build the same guard as `CONTRACT(fun)`
with the same block, so that with the same body and machine the activation
gives the same outcome and the same final machine, log included (block runs,
contexts, evaluations, handler calls); and no class contract body is run. -/
theorem C14_without_class_contract_as_fun (cfg : build_config) (T : class_decl σ)
    (hT : has_class_contract T = false) (blk : block σ) (b : body σ ε) (m : machine σ ε) :
    contract_mfun__ T blk = contract_fun__ blk ∧
    contract_ctor__ T blk = contract_fun__ blk ∧
    contract_dtor__ T blk = contract_fun__ blk ∧
    run_guarded cfg (contract_mfun__ T blk) b m = run_guarded cfg (contract_fun__ blk) b m ∧
    run_guarded cfg (contract_ctor__ T blk) b m = run_guarded cfg (contract_fun__ blk) b m ∧
    run_guarded cfg (contract_dtor__ T blk) b m = run_guarded cfg (contract_fun__ blk) b m ∧
    class_runs (emitted m (run_guarded cfg (contract_mfun__ T blk) b m)) = [] ∧
    class_runs (emitted m (run_guarded cfg (contract_ctor__ T blk) b m)) = [] ∧
    class_runs (emitted m (run_guarded cfg (contract_dtor__ T blk) b m)) = [] ∧
    class_runs (emitted m (run_guarded cfg (contract_fun__ blk) b m)) = [] := by
  have h1 : contract_mfun__ T blk = contract_fun__ blk := by
    unfold contract_mfun__
    rw [contractor_of_no_class_contract T _ _ blk hT]
    rfl
  have h2 : contract_ctor__ T blk = contract_fun__ blk := by
    unfold contract_ctor__
    rw [contractor_of_no_class_contract T _ _ blk hT]
    rfl
  have h3 : contract_dtor__ T blk = contract_fun__ blk := by
    unfold contract_dtor__
    rw [contractor_of_no_class_contract T _ _ blk hT]
    rfl
  have hf : class_runs (emitted m (run_guarded cfg (contract_fun__ blk) b m)) = [] := by
    rw [contract_fun_eq]
    exact fun_activation_class_runs cfg blk true true b m
  refine ⟨h1, h2, h3, by rw [h1], by rw [h2], by rw [h3], ?_, ?_, ?_, hf⟩
  · rw [h1]
    exact hf
  · rw [h2]
    exact hf
  · rw [h3]
    exact hf

/-- Witness of C14 on the block of `fun_contract_test_all` used in a
constructor of a class without a class contract: the activation is that of
`CONTRACT(fun)`. -/
theorem C14_witness_ctor_without_class_contract :
    run_guarded build_config.all_enabled
        (contract_ctor__ class_decl.no_contract test.fun_contract_test_all)
        test.empty_body (test.start (true, false, true)) =
      run_guarded build_config.all_enabled (contract_fun__ test.fun_contract_test_all)
        test.empty_body (test.start (true, false, true)) :=
  (C14_without_class_contract_as_fun build_config.all_enabled class_decl.no_contract rfl
    test.fun_contract_test_all test.empty_body (test.start (true, false, true))).2.2.2.2.1

/-! ## The course of the class invariant operation -/

theorem silent_nil : silent [] :=
  ⟨rfl, rfl, List.not_mem_nil _⟩

theorem silent_append (a b : List event) (ha : silent a) (hb : silent b) :
    silent (a ++ b) := by
  refine ⟨?_, ?_, ?_⟩
  · rw [handler_calls_append, ha.1, hb.1]
    rfl
  · rw [block_runs_append, ha.2.1, hb.2.1]
    rfl
  · intro h
    rcases List.mem_append.mp h with h1 | h1
    · exact ha.2.2 h1
    · exact hb.2.2 h1

theorem silent_evaluations (cfg : build_config) (ctx : contract_context) (uncaught : Bool)
    (b : block σ) : silent (evaluations cfg ctx uncaught b) :=
  ⟨handler_calls_evaluations _ _ _ _, block_runs_evaluations _ _ _ _,
    body_run_not_mem_evaluations _ _ _ _⟩

theorem silent_cons_class_run (cls : String) (ctx : contract_context) (t : List event)
    (h : silent t) : silent (event.class_run cls ctx :: t) := by
  refine ⟨?_, ?_, ?_⟩
  · rw [handler_calls_cons_class_run]
    exact h.1
  · rw [block_runs_cons_class_run]
    exact h.2.1
  · intro hm
    rcases List.mem_cons.mp hm with h1 | h1
    · cases h1
    · exact h.2.2 h1

theorem silent_enforce_trace (cfg : build_config) (ctx : contract_context) (uncaught : Bool)
    (bases : List (class_decl σ)) : silent (enforce_trace cfg ctx uncaught bases) := by
  unfold enforce_trace
  induction bases.filter has_class_contract with
  | nil => exact silent_nil
  | cons B rest ih =>
      rw [List.flatMap_cons]
      exact silent_append _ _
        (silent_cons_class_run _ _ _ (silent_evaluations _ _ _ _)) ih

theorem silent_class_invariant_trace (cfg : build_config) (ctx : contract_context)
    (uncaught : Bool) (T : class_decl σ) :
    silent (class_invariant_trace cfg ctx uncaught T) :=
  silent_append _ _ (silent_enforce_trace _ _ _ _)
    (silent_cons_class_run _ _ _ (silent_evaluations _ _ _ _))

theorem silent_entry_class_trace (cfg : build_config) (T : class_decl σ) (enter : Bool)
    (uncaught : Bool) : silent (entry_class_trace cfg T enter uncaught) := by
  unfold entry_class_trace
  split
  · exact silent_class_invariant_trace _ _ _ _
  · exact silent_nil

/-- A result that is not a normal return passes through the sequencing of two
operations. -/
theorem seq_of_not_normal (r : outcome ε × machine σ ε)
    (f : machine σ ε → outcome ε × machine σ ε) :
    r.1 ≠ outcome.normal →
    (match r with
      | (outcome.normal, m1) => f m1
      | r => r) = r := by
  obtain ⟨o, m1⟩ := r
  intro h
  cases o with
  | normal => exact absurd rfl h
  | raised e => rfl
  | terminated => rfl

theorem body_of_no_class_contract (T : class_decl σ) (hT : has_class_contract T = false) :
    T.body = [] := by
  cases T with
  | no_contract => rfl
  | contract_class__ name body => simp [has_class_contract] at hT
  | contract_derived__ name bases body => simp [has_class_contract] at hT

/-- The body of a class contract either passes, or ends in
`handle_violation` on the record of its first failing check. -/
theorem class_body_cases (cfg : build_config) (T : class_decl σ) (ctx : contract_context)
    (m : machine σ ε) (hT : has_class_contract T = true) :
    ((∀ d ∈ T.body, d.fails cfg ctx m.uncaught_exception m.state = false) ∧
      class_contract__ cfg T ctx m =
        (outcome.normal,
          { m with trace := m.trace ++ event.class_run T.name ctx ::
                      evaluations cfg ctx m.uncaught_exception T.body })) ∨
    ∃ c tr, c ∈ T.body ∧ c.fails cfg ctx m.uncaught_exception m.state = true ∧ silent tr ∧
      class_contract__ cfg T ctx m =
        handle_violation c.record
          { m with trace := m.trace ++ (tr ++ [event.evaluated c.record]) } := by
  rw [class_contract_eq cfg T ctx m hT]
  rcases run_block_cases cfg T.body ctx (m.log (event.class_run T.name ctx)) with
    ⟨hall, hrun⟩ | ⟨pre, c, rest, heq, _, hc, hrun⟩
  · refine Or.inl ⟨hall, ?_⟩
    rw [hrun]
    simp [machine.log, List.append_assoc]
  · refine Or.inr ⟨c, event.class_run T.name ctx :: evaluations cfg ctx m.uncaught_exception pre,
      ?_, hc, silent_cons_class_run _ _ _ (silent_evaluations _ _ _ _), ?_⟩
    · rw [heq]
      exact List.mem_append_right _ (List.mem_cons_self _ _)
    · rw [hrun]
      simp [machine.log, List.append_assoc]

/-- The walk of `enforce` over the listed bases either passes all their
bodies, or ends in `handle_violation` on the record of the first failing check
of a base that has a class contract. -/
theorem enforce_cases (cfg : build_config) (ctx : contract_context)
    (bases : List (class_decl σ)) (m : machine σ ε) :
    ((∀ B ∈ bases, ∀ d ∈ B.body, d.fails cfg ctx m.uncaught_exception m.state = false) ∧
      enforce cfg ctx bases m =
        (outcome.normal,
          { m with trace := m.trace ++ enforce_trace cfg ctx m.uncaught_exception bases })) ∨
    ∃ c tr, (∃ B ∈ bases, has_class_contract B = true ∧ c ∈ B.body) ∧
      c.fails cfg ctx m.uncaught_exception m.state = true ∧ silent tr ∧
      enforce cfg ctx bases m =
        handle_violation c.record
          { m with trace := m.trace ++ (tr ++ [event.evaluated c.record]) } := by
  induction bases generalizing m with
  | nil =>
      exact Or.inl ⟨fun B hB => absurd hB (List.not_mem_nil _), by simp [enforce, enforce_trace]⟩
  | cons B rest ih =>
      cases hB : has_class_contract B with
      | false =>
          have hbody := body_of_no_class_contract B hB
          rcases ih m with ⟨hall, hrun⟩ | ⟨c, tr, ⟨C, hC, hCc, hcC⟩, hc, hs, hrun⟩
          · refine Or.inl ⟨?_, ?_⟩
            · intro C hC d hd
              rcases List.mem_cons.mp hC with rfl | hC
              · rw [hbody] at hd
                exact absurd hd (List.not_mem_nil _)
              · exact hall C hC d hd
            · simp only [enforce, do_enforce, hB, Bool.false_eq_true, if_false]
              rw [hrun]
              simp [enforce_trace, List.filter_cons, hB]
          · refine Or.inr ⟨c, tr, ⟨C, List.mem_cons_of_mem _ hC, hCc, hcC⟩, hc, hs, ?_⟩
            simp only [enforce, do_enforce, hB, Bool.false_eq_true, if_false]
            exact hrun
      | true =>
          rcases class_body_cases cfg B ctx m hB with ⟨hBall, hBrun⟩ |
            ⟨c, tr, hcB, hc, hs, hBrun⟩
          · have ih2 := ih
              { m with
                trace := m.trace ++
                  (event.class_run B.name ctx :: evaluations cfg ctx m.uncaught_exception B.body) }
            rcases ih2 with ⟨hall, hrun⟩ | ⟨c, tr, ⟨C, hC, hCc, hcC⟩, hc, hs, hrun⟩
            · refine Or.inl ⟨?_, ?_⟩
              · intro C hC d hd
                rcases List.mem_cons.mp hC with rfl | hC
                · exact hBall d hd
                · exact hall C hC d hd
              · simp only [enforce, do_enforce, hB, if_true]
                rw [hBrun]
                simp only
                rw [hrun]
                simp [enforce_trace, List.filter_cons, hB, List.append_assoc]
            · refine Or.inr ⟨c, (event.class_run B.name ctx ::
                evaluations cfg ctx m.uncaught_exception B.body) ++ tr,
                ⟨C, List.mem_cons_of_mem _ hC, hCc, hcC⟩, hc,
                silent_append _ _ (silent_cons_class_run _ _ _ (silent_evaluations _ _ _ _)) hs,
                ?_⟩
              simp only [enforce, do_enforce, hB, if_true]
              rw [hBrun]
              simp only
              rw [hrun]
              simp [List.append_assoc]
          · refine Or.inr ⟨c, tr, ⟨B, List.mem_cons_self _ _, hB, hcB⟩, hc, hs, ?_⟩
            simp only [enforce, do_enforce, hB, if_true]
            rw [hBrun]
            exact seq_of_not_normal _ _ (handle_violation_not_normal _ _)

theorem class_invariant_passes_iff (cfg : build_config) (ctx : contract_context)
    (uncaught : Bool) (st : σ) (T : class_decl σ) :
    class_invariant_passes cfg ctx uncaught st T = true ↔
      (∀ B ∈ T.bases, ∀ d ∈ B.body, d.fails cfg ctx uncaught st = false) ∧
      (∀ d ∈ T.body, d.fails cfg ctx uncaught st = false) := by
  simp [class_invariant_passes, List.all_eq_true]

theorem class_invariant_passes_of_failure (cfg : build_config) (ctx : contract_context)
    (uncaught : Bool) (st : σ) (T : class_decl σ) (c : check σ)
    (hmem : c ∈ T.body ∨ ∃ B ∈ T.bases, has_class_contract B = true ∧ c ∈ B.body)
    (hc : c.fails cfg ctx uncaught st = true) :
    class_invariant_passes cfg ctx uncaught st T = false := by
  cases hp : class_invariant_passes cfg ctx uncaught st T with
  | false => rfl
  | true =>
      obtain ⟨hb, ho⟩ := (class_invariant_passes_iff cfg ctx uncaught st T).mp hp
      rcases hmem with h | ⟨B, hB, _, hcB⟩
      · rw [ho c h] at hc
        cases hc
      · rw [hb B hB c hcB] at hc
        cases hc

/-- The class invariant operation either passes, or ends in
`handle_violation` on the record of the first failing check, which is a check
of the body of a listed base that has a class contract or of the body of the
class itself; up to that point no handler was called and no block was run. -/
theorem class_invariant_cases (cfg : build_config) (T : class_decl σ) (ctx : contract_context)
    (m : machine σ ε) (hT : has_class_contract T = true) :
    (class_invariant_passes cfg ctx m.uncaught_exception m.state T = true ∧
      class_invariant cfg T ctx m =
        (outcome.normal,
          { m with trace := m.trace ++
              class_invariant_trace cfg ctx m.uncaught_exception T })) ∨
    (class_invariant_passes cfg ctx m.uncaught_exception m.state T = false ∧
      ∃ c tr, (c ∈ T.body ∨ ∃ B ∈ T.bases, has_class_contract B = true ∧ c ∈ B.body) ∧
        c.fails cfg ctx m.uncaught_exception m.state = true ∧ silent tr ∧
        class_invariant cfg T ctx m =
          handle_violation c.record
            { m with trace := m.trace ++ (tr ++ [event.evaluated c.record]) }) := by
  unfold class_invariant
  rw [prepare_contract_eq]
  rcases enforce_cases cfg ctx T.bases m with ⟨hall, hrun⟩ | ⟨c, tr, hmem, hc, hs, hrun⟩
  · rw [hrun]
    simp only
    have hcb := class_body_cases cfg T ctx
      { m with trace := m.trace ++ enforce_trace cfg ctx m.uncaught_exception T.bases } hT
    rcases hcb with ⟨hown, hrun2⟩ | ⟨c, tr, hcT, hc, hs, hrun2⟩
    · refine Or.inl ⟨(class_invariant_passes_iff _ _ _ _ _).mpr ⟨hall, hown⟩, ?_⟩
      rw [hrun2]
      simp [class_invariant_trace, List.append_assoc]
    · refine Or.inr ⟨class_invariant_passes_of_failure _ _ _ _ _ c (Or.inl hcT) hc,
        c, enforce_trace cfg ctx m.uncaught_exception T.bases ++ tr, Or.inl hcT, hc,
        silent_append _ _ (silent_enforce_trace _ _ _ _) hs, ?_⟩
      rw [hrun2]
      simp [List.append_assoc]
  · refine Or.inr ⟨class_invariant_passes_of_failure _ _ _ _ _ c (Or.inr hmem) hc,
      c, tr, Or.inr hmem, hc, hs, ?_⟩
    rw [hrun]
    exact seq_of_not_normal _ _ (handle_violation_not_normal _ _)

/-- In the context `{false, false, true}` of the class invariant only an
`INVARIANT` can fail, and whether a check fails does not depend on the flag. -/
theorem class_failure_is_invariant (cfg : build_config) (u : Bool) (st : σ) (c : check σ)
    (h : c.fails cfg (contract_context.mk false false true) u st = true) :
    c.kind = type.invariant := by
  rw [check_fails_eq] at h
  cases hk : c.kind <;>
    simp [hk, check_, contract_context.check_precondition,
      contract_context.check_postcondition] at h
  rfl

/-- Whether a check fails in a context whose postcondition flag is off does
not depend on the in-flight flag. -/
theorem check_fails_flag_independent (cfg : build_config) (ctx : contract_context)
    (hctx : ctx.check_post = false) (u1 u2 : Bool) (st : σ) (c : check σ) :
    c.fails cfg ctx u1 st = c.fails cfg ctx u2 st := by
  rw [check_fails_eq, check_fails_eq]
  cases hk : c.kind <;>
    simp [check_, contract_context.check_precondition, contract_context.check_postcondition,
      contract_context.check_invariant, hctx]

theorem class_invariant_passes_flag_independent (cfg : build_config) (ctx : contract_context)
    (hctx : ctx.check_post = false) (u1 u2 : Bool) (st : σ) (T : class_decl σ) :
    class_invariant_passes cfg ctx u1 st T = class_invariant_passes cfg ctx u2 st T := by
  unfold class_invariant_passes
  simp only [check_fails_flag_independent cfg ctx hctx u1 u2]

/-! ## The entry phase and the exit phase of a guard -/

theorem invoke_raised_flag (cfg : build_config) (blk : block σ) (ctx : contract_context)
    (m m2 : machine σ ε) (e : ε) (h : invoke cfg blk ctx m = (outcome.raised e, m2)) :
    m2.uncaught_exception = true := by
  rcases invoke_cases cfg blk ctx m with ⟨_, hrun⟩ | ⟨pre, c, rest, _, _, _, hrun⟩
  · rw [hrun] at h
    cases h
  · rw [hrun] at h
    unfold handle_violation at h
    cases hx : (m.current_handler c.record).exit with
    | returns => simp [hx] at h
    | raises e2 =>
        simp only [hx, Prod.mk.injEq] at h
        rw [← h.2]
    | terminates => simp [hx] at h

/-- Construction of a `class_contract` whose class invariant part returned
normally: what follows is the entry call of the block. -/
theorem class_construct_eq (cfg : build_config) (T : class_decl σ) (f : block σ)
    (enter exit : Bool) (m m0 : machine σ ε)
    (h : class_contract_base.constructor cfg T enter m = (outcome.normal, m0)) :
    (guard.class_contract T f enter exit).construct cfg m =
      invoke cfg f (contract_context.mk true false enter) m0 := by
  simp only [guard.construct, h, fun_contract.constructor]
  cases hr : invoke cfg f (contract_context.mk true false enter) m0 with
  | mk o m2 =>
      cases o with
      | normal => rfl
      | raised e =>
          have hflag := invoke_raised_flag cfg f _ m0 m2 e hr
          simp [class_contract_base.destructor, hflag]
      | terminated => rfl

/-- Destruction of a `class_contract` on the normal path: the exit call of the
block, then, if it returns normally, the destructor of `class_contract_base`. -/
theorem class_destroy_normal_path (cfg : build_config) (T : class_decl σ) (f : block σ)
    (enter exit : Bool) (m : machine σ ε) :
    (guard.class_contract T f enter exit).destroy cfg false m =
      match invoke cfg f (contract_context.mk false true exit) m with
      | (outcome.normal, m1) => class_contract_base.destructor cfg T exit m1
      | r => r := by
  simp only [guard.destroy, fun_contract.destructor]
  cases hr : invoke cfg f (contract_context.mk false true exit) m with
  | mk o m1 =>
      cases o with
      | normal =>
          simp only
          cases hd : class_contract_base.destructor cfg T exit m1 with
          | mk o2 m2 => cases o2 <;> simp
      | raised e =>
          have hflag := invoke_raised_flag cfg f _ m m1 e hr
          simp [class_contract_base.destructor, hflag]
      | terminated => rfl

theorem contractor_enter (T : class_decl σ) (enter exit : Bool) (f : block σ) :
    (contractor T enter exit f).enter_ = entry_invariant_flag T enter := by
  unfold contractor entry_invariant_flag
  cases has_class_contract T <;> rfl

theorem contractor_exit (T : class_decl σ) (enter exit : Bool) (f : block σ) :
    (contractor T enter exit f).exit_ = exit_invariant_flag T exit := by
  unfold contractor exit_invariant_flag
  cases has_class_contract T <;> rfl

theorem contractor_block (T : class_decl σ) (enter exit : Bool) (f : block σ) :
    (contractor T enter exit f).block = f := by
  unfold contractor
  cases has_class_contract T <;> rfl

theorem machine_trace_append_nil (m : machine σ ε) :
    ({ m with trace := m.trace ++ [] } : machine σ ε) = m := by
  cases m
  simp

/-- Construction of the guard built by `contractor` when the class invariant
passes at entry (or is not evaluated there): the log gets the class part, and
what follows is the entry call of the block. -/
theorem construct_of_class_pass (cfg : build_config) (T : class_decl σ) (enter exit : Bool)
    (blk : block σ) (m : machine σ ε)
    (hclass : has_class_contract T = true → enter = true →
      class_invariant_passes cfg (contract_context.mk false false true)
        m.uncaught_exception m.state T = true) :
    (contractor T enter exit blk).construct cfg m =
      invoke cfg blk (contract_context.mk true false (entry_invariant_flag T enter))
        { m with trace := m.trace ++ entry_class_trace cfg T enter m.uncaught_exception } := by
  cases hT : has_class_contract T with
  | false =>
      rw [contractor_of_no_class_contract T enter exit blk hT]
      simp only [guard.construct, fun_contract.constructor, entry_invariant_flag,
        entry_class_trace, hT, Bool.false_and, Bool.false_eq_true, if_false]
      rw [machine_trace_append_nil]
  | true =>
      rw [contractor_of_class_contract T enter exit blk hT]
      cases enter with
      | false =>
          rw [class_construct_eq cfg T blk false exit m m (by simp [class_contract_base.constructor])]
          simp only [entry_invariant_flag, entry_class_trace, hT, Bool.and_false,
            Bool.false_eq_true, if_false, if_true]
          rw [machine_trace_append_nil]
      | true =>
          rcases class_invariant_cases cfg T (contract_context.mk false false true) m hT with
            ⟨_, hrun⟩ | ⟨hfail, _⟩
          · rw [class_construct_eq cfg T blk true exit m _
              (by simp only [class_contract_base.constructor, if_true]; exact hrun)]
            simp [entry_invariant_flag, entry_class_trace, hT]
          · rw [hclass hT rfl] at hfail
            cases hfail

theorem run_guarded_of_entry_not_normal (cfg : build_config) (g : guard σ) (b : body σ ε)
    (m : machine σ ε) (h : (g.construct cfg m).1 ≠ outcome.normal) :
    run_guarded cfg g b m = g.construct cfg m := by
  unfold run_guarded
  exact seq_of_not_normal _ _ h

/-- The entry phase when a check of the block is the first to fail: the
handler is called on its record, the activation ends as that call ends, and
the body never runs. -/
theorem entry_block_failure (cfg : build_config) (T : class_decl σ) (enter exit : Bool)
    (pre : block σ) (c : check σ) (rest : block σ) (b : body σ ε) (m : machine σ ε)
    (hclass : has_class_contract T = true → enter = true →
      class_invariant_passes cfg (contract_context.mk false false true)
        m.uncaught_exception m.state T = true)
    (hpre : ∀ d ∈ pre,
      d.fails cfg (contract_context.mk true false (entry_invariant_flag T enter))
        m.uncaught_exception m.state = false)
    (hc : c.fails cfg (contract_context.mk true false (entry_invariant_flag T enter))
      m.uncaught_exception m.state = true) :
    (run_guarded cfg (contractor T enter exit (pre ++ c :: rest)) b m).1 =
      (m.current_handler c.record).exit.outcome ∧
    (run_guarded cfg (contractor T enter exit (pre ++ c :: rest)) b m).2.trace =
      m.trace ++ (entry_class_trace cfg T enter m.uncaught_exception ++
        event.block_run (contract_context.mk true false (entry_invariant_flag T enter)) ::
          (evaluations cfg (contract_context.mk true false (entry_invariant_flag T enter))
            m.uncaught_exception pre ++
            [event.evaluated c.record, event.handler_called c.record])) := by
  have hcon := construct_of_class_pass cfg T enter exit (pre ++ c :: rest) m hclass
  have hinv := invoke_first_failure cfg pre c rest
    (contract_context.mk true false (entry_invariant_flag T enter))
    { m with trace := m.trace ++ entry_class_trace cfg T enter m.uncaught_exception }
    hpre hc
  rw [hinv] at hcon
  have hrun := run_guarded_of_entry_not_normal cfg
    (contractor T enter exit (pre ++ c :: rest)) b m
    (by rw [hcon]; exact handle_violation_not_normal _ _)
  rw [hrun, hcon]
  refine ⟨by rw [handle_violation_outcome], ?_⟩
  rw [handle_violation_trace]
  simp [List.append_assoc]

/-- A construction of the guard built by `contractor` that returned normally:
the class invariant passed at entry (if it was evaluated), no check of the
block failed, and only the log changed. -/
theorem construct_normal_inv (cfg : build_config) (T : class_decl σ) (enter exit : Bool)
    (blk : block σ) (m m1 : machine σ ε)
    (h : (contractor T enter exit blk).construct cfg m = (outcome.normal, m1)) :
    (has_class_contract T = true → enter = true →
      class_invariant_passes cfg (contract_context.mk false false true)
        m.uncaught_exception m.state T = true) ∧
    (∀ d ∈ blk, d.fails cfg (contract_context.mk true false (entry_invariant_flag T enter))
      m.uncaught_exception m.state = false) ∧
    m1 = { m with trace := m.trace ++
            (entry_class_trace cfg T enter m.uncaught_exception ++
              event.block_run (contract_context.mk true false (entry_invariant_flag T enter)) ::
                evaluations cfg (contract_context.mk true false (entry_invariant_flag T enter))
                  m.uncaught_exception blk) } := by
  have hclass : has_class_contract T = true → enter = true →
      class_invariant_passes cfg (contract_context.mk false false true)
        m.uncaught_exception m.state T = true := by
    intro hT hen
    subst hen
    rcases class_invariant_cases cfg T (contract_context.mk false false true) m hT with
      ⟨hp, _⟩ | ⟨_, c, tr, _, _, _, hrun⟩
    · exact hp
    · exfalso
      rw [contractor_of_class_contract T true exit blk hT] at h
      simp only [guard.construct, class_contract_base.constructor, if_true] at h
      rw [hrun, seq_of_not_normal _ _ (handle_violation_not_normal _ _)] at h
      exact handle_violation_not_normal _ _ (congrArg Prod.fst h)
  have hcon := construct_of_class_pass cfg T enter exit blk m hclass
  rw [h] at hcon
  have hinv := invoke_normal_inv cfg blk _ _ (by rw [← hcon])
  refine ⟨hclass, hinv.1, ?_⟩
  have h2 := hinv.2
  rw [← hcon] at h2
  rw [(Prod.mk.inj h2).2]
  simp [List.append_assoc]

/-- The exit phase on the normal path when a check of the block is the first
to fail: the handler is called on its record and the activation ends as that
call ends. -/
theorem exit_block_failure (cfg : build_config) (T : class_decl σ) (enter exit : Bool)
    (pre : block σ) (c : check σ) (rest : block σ) (b : body σ ε) (m m1 : machine σ ε)
    (hentry : (contractor T enter exit (pre ++ c :: rest)).construct cfg m =
      (outcome.normal, m1))
    (hbody : (b m1.state).2 = outcome.normal)
    (hpre : ∀ d ∈ pre,
      d.fails cfg (contract_context.mk false true (exit_invariant_flag T exit))
        m1.uncaught_exception (b m1.state).1 = false)
    (hc : c.fails cfg (contract_context.mk false true (exit_invariant_flag T exit))
      m1.uncaught_exception (b m1.state).1 = true) :
    (run_guarded cfg (contractor T enter exit (pre ++ c :: rest)) b m).1 =
      (m1.current_handler c.record).exit.outcome ∧
    (run_guarded cfg (contractor T enter exit (pre ++ c :: rest)) b m).2.trace =
      m1.trace ++ (event.body_run ::
        event.block_run (contract_context.mk false true (exit_invariant_flag T exit)) ::
          (evaluations cfg (contract_context.mk false true (exit_invariant_flag T exit))
            m1.uncaught_exception pre ++
            [event.evaluated c.record, event.handler_called c.record])) := by
  have hinv := invoke_first_failure cfg pre c rest
    (contract_context.mk false true (exit_invariant_flag T exit))
    { m1 with trace := m1.trace ++ [event.body_run], state := (b m1.state).1 }
    hpre hc
  have hrun : run_guarded cfg (contractor T enter exit (pre ++ c :: rest)) b m =
      invoke cfg (pre ++ c :: rest)
        (contract_context.mk false true (exit_invariant_flag T exit))
        { m1 with trace := m1.trace ++ [event.body_run], state := (b m1.state).1 } := by
    simp only [run_guarded, hentry]
    rw [run_body_of_normal b m1 hbody]
    simp only
    cases hT : has_class_contract T with
    | false =>
        rw [contractor_of_no_class_contract T enter exit _ hT,
          fun_contract_destroy_normal_path]
        simp [fun_contract.destructor, exit_invariant_flag, hT]
    | true =>
        rw [contractor_of_class_contract T enter exit _ hT, class_destroy_normal_path]
        have hx : exit_invariant_flag T exit = exit := by simp [exit_invariant_flag, hT]
        rw [hx] at hinv ⊢
        rw [hinv]
        exact seq_of_not_normal _ _ (handle_violation_not_normal _ _)
  rw [hrun, hinv]
  refine ⟨by rw [handle_violation_outcome], ?_⟩
  rw [handle_violation_trace]
  simp [List.append_assoc]

/-- What is observed when a check of the block is the first to fail at
entry. -/
theorem entry_report (cfg : build_config) (T : class_decl σ) (enter exit : Bool)
    (pre : block σ) (c : check σ) (rest : block σ) (b : body σ ε) (m : machine σ ε)
    (hclass : has_class_contract T = true → enter = true →
      class_invariant_passes cfg (contract_context.mk false false true)
        m.uncaught_exception m.state T = true)
    (hpre : ∀ d ∈ pre,
      d.fails cfg (contract_context.mk true false (entry_invariant_flag T enter))
        m.uncaught_exception m.state = false)
    (hc : c.fails cfg (contract_context.mk true false (entry_invariant_flag T enter))
      m.uncaught_exception m.state = true) :
    handler_calls (emitted m
        (run_guarded cfg (contractor T enter exit (pre ++ c :: rest)) b m)) = [c.record] ∧
    event.body_run ∉ emitted m
        (run_guarded cfg (contractor T enter exit (pre ++ c :: rest)) b m) ∧
    block_runs (emitted m
        (run_guarded cfg (contractor T enter exit (pre ++ c :: rest)) b m)) =
      [contract_context.mk true false (entry_invariant_flag T enter)] ∧
    (run_guarded cfg (contractor T enter exit (pre ++ c :: rest)) b m).1 =
      (m.current_handler c.record).exit.outcome := by
  obtain ⟨ho, ht⟩ := entry_block_failure cfg T enter exit pre c rest b m hclass hpre hc
  have hs := silent_entry_class_trace cfg T enter m.uncaught_exception
  rw [emitted_of_trace_eq m _ _ ht]
  refine ⟨?_, ?_, ?_, ho⟩
  · rw [handler_calls_append, hs.1, handler_calls_cons_block_run, handler_calls_append,
      handler_calls_evaluations, handler_calls_cons_evaluated, handler_calls_cons_called]
    rfl
  · intro h
    rcases List.mem_append.mp h with h1 | h1
    · exact hs.2.2 h1
    · rcases List.mem_cons.mp h1 with h2 | h2
      · cases h2
      · rcases List.mem_append.mp h2 with h3 | h3
        · exact body_run_not_mem_evaluations _ _ _ _ h3
        · simp at h3
  · rw [block_runs_append, hs.2.1, block_runs_cons_block_run, block_runs_append,
      block_runs_evaluations, block_runs_cons_evaluated, block_runs_cons_called]
    rfl

/-- What is observed when, after an entry phase that passed and a body that
completed normally, a check of the block is the first to fail at exit: no
handler call before the body, one after it, and no class contract body run
after the body. -/
theorem exit_report (cfg : build_config) (T : class_decl σ) (enter exit : Bool)
    (pre : block σ) (c : check σ) (rest : block σ) (b : body σ ε) (m : machine σ ε)
    (hentry : ((contractor T enter exit (pre ++ c :: rest)).construct cfg m).1 =
      outcome.normal)
    (hbody : (b m.state).2 = outcome.normal)
    (hpre : ∀ d ∈ pre,
      d.fails cfg (contract_context.mk false true (exit_invariant_flag T exit))
        m.uncaught_exception (b m.state).1 = false)
    (hc : c.fails cfg (contract_context.mk false true (exit_invariant_flag T exit))
      m.uncaught_exception (b m.state).1 = true) :
    ∃ before after,
      emitted m (run_guarded cfg (contractor T enter exit (pre ++ c :: rest)) b m) =
        before ++ event.body_run :: after ∧
      handler_calls before = [] ∧ event.body_run ∉ before ∧
      handler_calls after = [c.record] ∧ class_runs after = [] ∧
      block_runs after = [contract_context.mk false true (exit_invariant_flag T exit)] ∧
      (run_guarded cfg (contractor T enter exit (pre ++ c :: rest)) b m).1 =
        (m.current_handler c.record).exit.outcome := by
  cases hcon : (contractor T enter exit (pre ++ c :: rest)).construct cfg m with
  | mk o m1 =>
      rw [hcon] at hentry
      simp only at hentry
      subst hentry
      obtain ⟨_, _, hm1⟩ := construct_normal_inv cfg T enter exit _ m m1 hcon
      have hst : m1.state = m.state := by rw [hm1]
      have hfl : m1.uncaught_exception = m.uncaught_exception := by rw [hm1]
      have hh : m1.current_handler = m.current_handler := by rw [hm1]
      obtain ⟨ho, ht⟩ := exit_block_failure cfg T enter exit pre c rest b m m1 hcon
        (by rw [hst]; exact hbody) (by rw [hst, hfl]; exact hpre)
        (by rw [hst, hfl]; exact hc)
      have hs := silent_entry_class_trace cfg T enter m.uncaught_exception
      refine ⟨entry_class_trace cfg T enter m.uncaught_exception ++
          event.block_run (contract_context.mk true false (entry_invariant_flag T enter)) ::
            evaluations cfg (contract_context.mk true false (entry_invariant_flag T enter))
              m.uncaught_exception (pre ++ c :: rest),
        event.block_run (contract_context.mk false true (exit_invariant_flag T exit)) ::
          (evaluations cfg (contract_context.mk false true (exit_invariant_flag T exit))
            m.uncaught_exception pre ++
            [event.evaluated c.record, event.handler_called c.record]),
        ?_, ?_, ?_, ?_, ?_, ?_, by rw [ho, hh]⟩
      · apply emitted_of_trace_eq
        rw [ht, hfl]
        conv_lhs => rw [hm1]
        simp [List.append_assoc]
      · rw [handler_calls_append, hs.1, handler_calls_cons_block_run,
          handler_calls_evaluations]
        rfl
      · intro h
        rcases List.mem_append.mp h with h1 | h1
        · exact hs.2.2 h1
        · rcases List.mem_cons.mp h1 with h2 | h2
          · cases h2
          · exact body_run_not_mem_evaluations _ _ _ _ h2
      · rw [handler_calls_cons_block_run, handler_calls_append, handler_calls_evaluations,
          handler_calls_cons_evaluated, handler_calls_cons_called]
        rfl
      · rw [class_runs_cons_block_run, class_runs_append, class_runs_evaluations,
          class_runs_cons_evaluated, class_runs_cons_called]
        rfl
      · rw [block_runs_cons_block_run, block_runs_append, block_runs_evaluations,
          block_runs_cons_evaluated, block_runs_cons_called]
        rfl

/-! ## Reports of the block in the two phases -/

theorem entry_invariant_flag_true (T : class_decl σ) : entry_invariant_flag T true = true := by
  unfold entry_invariant_flag
  cases has_class_contract T <;> rfl

theorem exit_invariant_flag_true (T : class_decl σ) : exit_invariant_flag T true = true := by
  unfold exit_invariant_flag
  cases has_class_contract T <;> rfl

/-- C12: in a `CONTRACT(mfun)` block of any type `T` (`CONTRACT(fun)` is the
case of a type without a class contract), with invariants not disabled, an
`INVARIANT` is checked in both phases.  Entry: if the class invariant of `T`
passes, no earlier check of the block fails and the condition is false, the
handler is called once, with the record of the check, of kind invariant, and
the body does not run.  Exit: if the entry phase passed, the body completed
normally, no earlier check of the block fails at exit and the condition is
then false, the handler is called once, after the body, with that record, and
is not called before the body. -/
theorem C12_block_invariant_in_both_phases (cfg : build_config)
    (hcfg : cfg.CONTRACT_DISABLE_INVARIANTS = false) (T : class_decl σ)
    (pre : block σ) (c : check σ) (rest : block σ) (b : body σ ε) (m : machine σ ε)
    (hkind : c.kind = type.invariant) :
    contract_fun__ (pre ++ c :: rest) =
      contract_mfun__ class_decl.no_contract (pre ++ c :: rest) ∧
    ((has_class_contract T = true →
        class_invariant_passes cfg (contract_context.mk false false true)
          m.uncaught_exception m.state T = true) →
      (∀ d ∈ pre, d.fails cfg (contract_context.mk true false true)
        m.uncaught_exception m.state = false) →
      c.cond m.state = false →
      handler_calls (emitted m
          (run_guarded cfg (contract_mfun__ T (pre ++ c :: rest)) b m)) = [c.record] ∧
      c.record.contract_type = type.invariant ∧
      event.body_run ∉ emitted m
          (run_guarded cfg (contract_mfun__ T (pre ++ c :: rest)) b m) ∧
      (run_guarded cfg (contract_mfun__ T (pre ++ c :: rest)) b m).1 =
        (m.current_handler c.record).exit.outcome) ∧
    (((contract_mfun__ T (pre ++ c :: rest)).construct cfg m).1 = outcome.normal →
      (b m.state).2 = outcome.normal →
      (∀ d ∈ pre, d.fails cfg (contract_context.mk false true true)
        m.uncaught_exception (b m.state).1 = false) →
      c.cond (b m.state).1 = false →
      ∃ before after,
        emitted m (run_guarded cfg (contract_mfun__ T (pre ++ c :: rest)) b m) =
          before ++ event.body_run :: after ∧
        handler_calls before = [] ∧ event.body_run ∉ before ∧
        handler_calls after = [c.record] ∧
        c.record.contract_type = type.invariant ∧
        (run_guarded cfg (contract_mfun__ T (pre ++ c :: rest)) b m).1 =
          (m.current_handler c.record).exit.outcome) := by
  have hfail : ∀ (ctx : contract_context) (u : Bool) (st : σ), ctx.check_inv = true →
      c.cond st = false → c.fails cfg ctx u st = true := by
    intro ctx u st hctx hcond
    rw [check_fails_eq, hkind]
    simp [build_config.disabled, hcfg, check_, contract_context.check_invariant, hctx, hcond]
  refine ⟨rfl, ?_, ?_⟩
  · intro hclass hpre hcond
    have h := entry_report cfg T true true pre c rest b m (fun hT _ => hclass hT)
      (by rw [entry_invariant_flag_true]; exact hpre)
      (by rw [entry_invariant_flag_true]; exact hfail _ _ _ rfl hcond)
    exact ⟨h.1, by simp [check.record, hkind], h.2.1, h.2.2.2⟩
  · intro hentry hbody hpre hcond
    obtain ⟨before, after, h1, h2, h3, h4, _, _, h7⟩ :=
      exit_report cfg T true true pre c rest b m hentry hbody
        (by rw [exit_invariant_flag_true]; exact hpre)
        (by rw [exit_invariant_flag_true]; exact hfail _ _ _ rfl hcond)
    exact ⟨before, after, h1, h2, h3, h4, by simp [check.record, hkind], h7⟩

/-- Witness of C12: `fun_contract_test_all(true, false, true)` of
`funcontract.cpp` reports the invariant at entry, before the body; a function
`{ CONTRACT(fun) { INVARIANT(x == 0); }; ++x; }` entered with `x == 0` reports
it after the body. -/
theorem C12_witness_invariant_at_entry_and_at_exit :
    (handler_calls (emitted (test.start (true, false, true))
        (run_guarded build_config.all_enabled
          (contract_mfun__ class_decl.no_contract test.fun_contract_test_all)
          test.empty_body (test.start (true, false, true)))) =
      [violation_context.mk type.invariant "inv" "inv" "funcontract.cpp" 48] ∧
      event.body_run ∉ emitted (test.start (true, false, true))
        (run_guarded build_config.all_enabled
          (contract_mfun__ class_decl.no_contract test.fun_contract_test_all)
          test.empty_body (test.start (true, false, true)))) ∧
    ∃ before after,
      emitted (test.start 0)
          (run_guarded build_config.all_enabled
            (contract_mfun__ class_decl.no_contract test.counter_invariant)
            test.increment (test.start 0)) =
        before ++ event.body_run :: after ∧
      handler_calls before = [] ∧
      handler_calls after =
        [violation_context.mk type.invariant "x == 0" "x == 0" "example.cpp" 3] :=
  have h1 := (C12_block_invariant_in_both_phases build_config.all_enabled rfl
    class_decl.no_contract [test.check_pre] test.check_inv [test.check_post]
    test.empty_body (test.start (true, false, true)) rfl).2.1
    (fun h => absurd h (by decide)) (by decide) rfl
  have h2 := (C12_block_invariant_in_both_phases build_config.all_enabled rfl
    class_decl.no_contract []
    { kind := type.invariant, cond := fun x => x == 0, cond_text := "x == 0", msg := none,
      file := "example.cpp", line := 3 } []
    test.increment (test.start 0) rfl).2.2 rfl rfl
    (fun _ hd => absurd hd (List.not_mem_nil _)) rfl
  ⟨⟨h1.1, h1.2.2.1⟩,
    h2.elim fun before h => h.elim fun after h =>
      ⟨before, after, h.1, h.2.1, h.2.2.2.1⟩⟩

/-- C19: for the guard built by `contractor` for any type `T` and any flags
`enter`, `exit` (`CONTRACT(fun)`, `CONTRACT(mfun)`, `CONTRACT(ctor)` and
`CONTRACT(dtor)` are instances), a `PRECONDITION` is active in every entry
context and in no exit context, a `POSTCONDITION` in no entry context and in
an exit context exactly when no exception is in flight, whatever the invariant
flag of the context.  Hence a `PRECONDITION` that is not disabled, whose
condition is false at entry, preceded by no failing check (class invariant
included), is reported before the body, which does not run; and a
`POSTCONDITION` that is not disabled, whose condition is false when the body
has completed normally with no exception in flight, preceded by no failing
check at exit, is reported after the body and not before it. -/
theorem C19_pre_and_post_do_not_depend_on_flags (cfg : build_config) (T : class_decl σ)
    (enter exit : Bool) (pre : block σ) (c : check σ) (rest : block σ) (b : body σ ε)
    (m : machine σ ε) :
    (∀ e u : Bool,
      check_ (contract_context.mk true false e) type.precondition u = true ∧
      check_ (contract_context.mk false true e) type.precondition u = false ∧
      check_ (contract_context.mk true false e) type.postcondition u = false ∧
      check_ (contract_context.mk false true e) type.postcondition false = true ∧
      check_ (contract_context.mk false true e) type.postcondition true = false) ∧
    (contract_fun__ (pre ++ c :: rest) =
        contractor class_decl.no_contract true true (pre ++ c :: rest) ∧
      contract_mfun__ T (pre ++ c :: rest) = contractor T true true (pre ++ c :: rest) ∧
      contract_ctor__ T (pre ++ c :: rest) = contractor T false true (pre ++ c :: rest) ∧
      contract_dtor__ T (pre ++ c :: rest) = contractor T true false (pre ++ c :: rest)) ∧
    (c.kind = type.precondition → cfg.CONTRACT_DISABLE_PRECONDITIONS = false →
      (has_class_contract T = true → enter = true →
        class_invariant_passes cfg (contract_context.mk false false true)
          m.uncaught_exception m.state T = true) →
      (∀ d ∈ pre, d.fails cfg (contract_context.mk true false (entry_invariant_flag T enter))
        m.uncaught_exception m.state = false) →
      c.cond m.state = false →
      handler_calls (emitted m
          (run_guarded cfg (contractor T enter exit (pre ++ c :: rest)) b m)) = [c.record] ∧
      c.record.contract_type = type.precondition ∧
      event.body_run ∉ emitted m
          (run_guarded cfg (contractor T enter exit (pre ++ c :: rest)) b m) ∧
      (run_guarded cfg (contractor T enter exit (pre ++ c :: rest)) b m).1 =
        (m.current_handler c.record).exit.outcome) ∧
    (c.kind = type.postcondition → cfg.CONTRACT_DISABLE_POSTCONDITIONS = false →
      m.uncaught_exception = false →
      ((contractor T enter exit (pre ++ c :: rest)).construct cfg m).1 = outcome.normal →
      (b m.state).2 = outcome.normal →
      (∀ d ∈ pre, d.fails cfg (contract_context.mk false true (exit_invariant_flag T exit))
        false (b m.state).1 = false) →
      c.cond (b m.state).1 = false →
      ∃ before after,
        emitted m (run_guarded cfg (contractor T enter exit (pre ++ c :: rest)) b m) =
          before ++ event.body_run :: after ∧
        handler_calls before = [] ∧ event.body_run ∉ before ∧
        handler_calls after = [c.record] ∧
        c.record.contract_type = type.postcondition ∧
        (run_guarded cfg (contractor T enter exit (pre ++ c :: rest)) b m).1 =
          (m.current_handler c.record).exit.outcome) := by
  refine ⟨?_, ⟨rfl, rfl, rfl, rfl⟩, ?_, ?_⟩
  · intro e u
    simp [check_, contract_context.check_precondition, contract_context.check_postcondition]
  · intro hkind hcfg hclass hpre hcond
    have hc : c.fails cfg (contract_context.mk true false (entry_invariant_flag T enter))
        m.uncaught_exception m.state = true := by
      rw [check_fails_eq, hkind]
      simp [build_config.disabled, hcfg, check_, contract_context.check_precondition, hcond]
    have h := entry_report cfg T enter exit pre c rest b m hclass hpre hc
    exact ⟨h.1, by simp [check.record, hkind], h.2.1, h.2.2.2⟩
  · intro hkind hcfg hflag hentry hbody hpre hcond
    have hc : c.fails cfg (contract_context.mk false true (exit_invariant_flag T exit))
        m.uncaught_exception (b m.state).1 = true := by
      rw [check_fails_eq, hkind, hflag]
      simp [build_config.disabled, hcfg, check_, contract_context.check_postcondition, hcond]
    obtain ⟨before, after, h1, h2, h3, h4, _, _, h7⟩ :=
      exit_report cfg T enter exit pre c rest b m hentry hbody
        (by rw [hflag]; exact hpre) hc
    exact ⟨before, after, h1, h2, h3, h4, by simp [check.record, hkind], h7⟩

/-- Witness of C19 on a constructor `{ CONTRACT(ctor) { PRECONDITION(x < 10);
}; }` of the class `at_most_one` entered with `x == 10`, which reports the
precondition at entry, and on a destructor `{ CONTRACT(dtor) {
POSTCONDITION(x == 0); }; }` of the same class that leaves `x == 1`, which
reports the postcondition after the body. -/
theorem C19_witness_ctor_precondition_dtor_postcondition :
    handler_calls (emitted (test.start 10)
        (run_guarded build_config.all_enabled
          (contractor test.at_most_one false true [test.pre_below_ten])
          test.keep (test.start 10))) =
      [violation_context.mk type.precondition "x < 10" "x < 10" "example.cpp" 20] ∧
    ∃ before after,
      emitted (test.start 1)
          (run_guarded build_config.all_enabled
            (contractor test.at_most_one true false [test.post_zero])
            test.keep (test.start 1)) =
        before ++ event.body_run :: after ∧
      handler_calls before = [] ∧
      handler_calls after =
        [violation_context.mk type.postcondition "x == 0" "x == 0" "example.cpp" 30] :=
  have h1 := (C19_pre_and_post_do_not_depend_on_flags build_config.all_enabled
    test.at_most_one false true [] test.pre_below_ten [] test.keep (test.start 10)).2.2.1
    rfl rfl (fun _ h => absurd h (by decide))
    (fun _ hd => absurd hd (List.not_mem_nil _)) rfl
  have h2 := (C19_pre_and_post_do_not_depend_on_flags build_config.all_enabled
    test.at_most_one true false [] test.post_zero [] test.keep (test.start 1)).2.2.2
    rfl rfl rfl rfl rfl (fun _ hd => absurd hd (List.not_mem_nil _)) rfl
  ⟨h1.1,
    h2.elim fun before h => h.elim fun after h =>
      ⟨before, after, h.1, h.2.1, h.2.2.2.1⟩⟩

/-! ## The class invariant at entry -/

/-- What is observed when the class invariant fails at entry: the handler is
called on the record of a failing `INVARIANT` of the class contract, the block
is not run, and neither is the body. -/
theorem entry_class_failure (cfg : build_config) (T : class_decl σ) (exit : Bool)
    (blk : block σ) (b : body σ ε) (m : machine σ ε) (hT : has_class_contract T = true)
    (hfail : class_invariant_passes cfg (contract_context.mk false false true)
      m.uncaught_exception m.state T = false) :
    ∃ c, (c ∈ T.body ∨ ∃ B ∈ T.bases, has_class_contract B = true ∧ c ∈ B.body) ∧
      c.kind = type.invariant ∧ c.record.contract_type = type.invariant ∧
      c.cond m.state = false ∧
      handler_calls (emitted m (run_guarded cfg (contractor T true exit blk) b m)) =
        [c.record] ∧
      block_runs (emitted m (run_guarded cfg (contractor T true exit blk) b m)) = [] ∧
      event.body_run ∉ emitted m (run_guarded cfg (contractor T true exit blk) b m) ∧
      (run_guarded cfg (contractor T true exit blk) b m).1 =
        (m.current_handler c.record).exit.outcome := by
  rcases class_invariant_cases cfg T (contract_context.mk false false true) m hT with
    ⟨hp, _⟩ | ⟨_, c, tr, hmem, hc, hs, hrun⟩
  · rw [hp] at hfail
    cases hfail
  · have hkind := class_failure_is_invariant cfg _ _ c hc
    have hcon : (contractor T true exit blk).construct cfg m =
        handle_violation c.record
          { m with trace := m.trace ++ (tr ++ [event.evaluated c.record]) } := by
      rw [contractor_of_class_contract T true exit blk hT]
      simp only [guard.construct, class_contract_base.constructor, if_true]
      rw [hrun]
      exact seq_of_not_normal _ _ (handle_violation_not_normal _ _)
    have hrg := run_guarded_of_entry_not_normal cfg (contractor T true exit blk) b m
      (by rw [hcon]; exact handle_violation_not_normal _ _)
    have hem : emitted m (run_guarded cfg (contractor T true exit blk) b m) =
        tr ++ [event.evaluated c.record, event.handler_called c.record] := by
      apply emitted_of_trace_eq
      rw [hrg, hcon, handle_violation_trace]
      simp [List.append_assoc]
    refine ⟨c, hmem, hkind, by simp [check.record, hkind],
      (check_enabled_of_fails cfg _ _ _ c hc).2.2, ?_, ?_, ?_, ?_⟩
    · rw [hem, handler_calls_append, hs.1]
      rfl
    · rw [hem, block_runs_append, hs.2.1]
      rfl
    · rw [hem]
      intro h
      rcases List.mem_append.mp h with h1 | h1
      · exact hs.2.2 h1
      · simp at h1
    · rw [hrg, hcon, handle_violation_outcome]

/-- C16: the entry phase reports in the same way for both values of the
in-flight flag `u`.  Whether a check fails in an entry context or in the
context of the class invariant does not depend on the flag.  For every `u`:
a `PRECONDITION` that is not disabled, and an `INVARIANT` of the block that
is not disabled when the entry context has invariants on, whose condition is
false and which no failing check precedes (class invariant included), is
reported with its record before the body; and a class invariant that fails
at entry is reported with the record of one of its failing `INVARIANT`
checks, before the block is run. -/
theorem C16_entry_reports_whatever_the_flag (cfg : build_config) (T : class_decl σ)
    (enter exit : Bool) (pre : block σ) (c : check σ) (rest : block σ) (b : body σ ε)
    (m : machine σ ε) :
    (∀ (d : check σ) (e u1 u2 : Bool) (st : σ),
      d.fails cfg (contract_context.mk true false e) u1 st =
        d.fails cfg (contract_context.mk true false e) u2 st) ∧
    (∀ (u1 u2 : Bool) (st : σ),
      class_invariant_passes cfg (contract_context.mk false false true) u1 st T =
        class_invariant_passes cfg (contract_context.mk false false true) u2 st T) ∧
    ((c.kind = type.precondition ∧ cfg.CONTRACT_DISABLE_PRECONDITIONS = false ∨
        c.kind = type.invariant ∧ cfg.CONTRACT_DISABLE_INVARIANTS = false ∧
          entry_invariant_flag T enter = true) →
      (has_class_contract T = true → enter = true →
        class_invariant_passes cfg (contract_context.mk false false true) false m.state T =
          true) →
      (∀ d ∈ pre, d.fails cfg (contract_context.mk true false (entry_invariant_flag T enter))
        false m.state = false) →
      c.cond m.state = false →
      ∀ u : Bool,
        handler_calls (emitted { m with uncaught_exception := u }
            (run_guarded cfg (contractor T enter exit (pre ++ c :: rest)) b
              { m with uncaught_exception := u })) = [c.record] ∧
        c.record.contract_type = c.kind ∧
        event.body_run ∉ emitted { m with uncaught_exception := u }
            (run_guarded cfg (contractor T enter exit (pre ++ c :: rest)) b
              { m with uncaught_exception := u })) ∧
    (has_class_contract T = true →
      class_invariant_passes cfg (contract_context.mk false false true) false m.state T =
        false →
      ∀ u : Bool, ∃ d,
        (d ∈ T.body ∨ ∃ B ∈ T.bases, has_class_contract B = true ∧ d ∈ B.body) ∧
        d.kind = type.invariant ∧ d.cond m.state = false ∧
        handler_calls (emitted { m with uncaught_exception := u }
            (run_guarded cfg (contractor T true exit (pre ++ c :: rest)) b
              { m with uncaught_exception := u })) = [d.record] ∧
        d.record.contract_type = type.invariant ∧
        block_runs (emitted { m with uncaught_exception := u }
            (run_guarded cfg (contractor T true exit (pre ++ c :: rest)) b
              { m with uncaught_exception := u })) = []) := by
  refine ⟨fun d e u1 u2 st => check_fails_flag_independent cfg _ rfl u1 u2 st d,
    fun u1 u2 st => class_invariant_passes_flag_independent cfg _ rfl u1 u2 st T, ?_, ?_⟩
  · intro hk hclass hpre hcond u
    have hc : c.fails cfg (contract_context.mk true false (entry_invariant_flag T enter))
        u m.state = true := by
      rw [check_fails_eq]
      rcases hk with ⟨hk, hcfg⟩ | ⟨hk, hcfg, hfl⟩
      · rw [hk]
        simp [build_config.disabled, hcfg, check_, contract_context.check_precondition, hcond]
      · rw [hk, hfl]
        simp [build_config.disabled, hcfg, check_, contract_context.check_invariant, hcond]
    have h := entry_report cfg T enter exit pre c rest b { m with uncaught_exception := u }
      (fun hT hen => by
        rw [class_invariant_passes_flag_independent cfg _ rfl u false]
        exact hclass hT hen)
      (fun d hd => by
        rw [check_fails_flag_independent cfg _ rfl u false]
        exact hpre d hd)
      hc
    exact ⟨h.1, rfl, h.2.1⟩
  · intro hT hfail u
    obtain ⟨d, hmem, hkind, hrk, hcond, hcalls, hblocks, _, _⟩ :=
      entry_class_failure cfg T exit (pre ++ c :: rest) b { m with uncaught_exception := u } hT
        (by
          rw [class_invariant_passes_flag_independent cfg _ rfl u false]
          exact hfail)
    exact ⟨d, hmem, hkind, hcond, hcalls, hrk, hblocks⟩

/-- Witness of C16 on `fun_contract_test_all(false, true, true)` entered while
an exception is in flight: the precondition is reported as when none is; and
on a method of the class `bounded` entered with `x == 11` while an exception
is in flight: an invariant of the class contract is reported and the block is
not run. -/
theorem C16_witness_entry_while_unwinding :
    handler_calls (emitted { test.start (false, true, true) with uncaught_exception := true }
        (run_guarded build_config.all_enabled
          (contractor class_decl.no_contract true true
            ([] ++ test.check_pre :: [test.check_inv, test.check_post]))
          test.empty_body
          { test.start (false, true, true) with uncaught_exception := true })) =
      [test.check_pre.record] ∧
    ∃ d : check Nat, d.kind = type.invariant ∧
      handler_calls (emitted { test.start 11 with uncaught_exception := true }
        (run_guarded build_config.all_enabled
          (contractor test.bounded true true ([] ++ test.pre_below_ten :: []))
          test.increment { test.start 11 with uncaught_exception := true })) = [d.record] ∧
      block_runs (emitted { test.start 11 with uncaught_exception := true }
        (run_guarded build_config.all_enabled
          (contractor test.bounded true true ([] ++ test.pre_below_ten :: []))
          test.increment { test.start 11 with uncaught_exception := true })) = [] :=
  have h1 := (C16_entry_reports_whatever_the_flag build_config.all_enabled
    class_decl.no_contract true true [] test.check_pre [test.check_inv, test.check_post]
    test.empty_body (test.start (false, true, true))).2.2.1
    (Or.inl ⟨rfl, rfl⟩) (fun h => absurd h (by decide))
    (fun _ hd => absurd hd (List.not_mem_nil _)) rfl true
  have h2 := (C16_entry_reports_whatever_the_flag build_config.all_enabled
    test.bounded true true [] test.pre_below_ten [] test.increment (test.start 11)).2.2.2
    rfl rfl true
  ⟨h1.1, h2.elim fun d h => ⟨d, h.2.1, h.2.2.2.1, h.2.2.2.2.2⟩⟩

/-! ## The class invariant around the block -/

/-- C20: for a `CONTRACT(mfun)` method of a type `T` with a class contract.
(1) In an activation that ends normally, entered with no exception in
flight, the log is: the composed class invariant, the entry call of the block,
the body, the exit call of the block, the composed class invariant.  (2) If
the class invariant fails at entry, then whatever the block contains (a false
`PRECONDITION` included) the handler is called once, on the record of an
`INVARIANT` of the class contract, and the block is never run.  (3) If at
normal exit, with no exception in flight, a `POSTCONDITION` that is not
disabled has a false condition and no earlier check of the block fails, then
whatever the class invariant is worth the handler is called once, with the
record of the postcondition, and no class contract body is run after the
body. -/
theorem C20_class_invariant_around_the_block (cfg : build_config) (T : class_decl σ)
    (hT : has_class_contract T = true) (pre : block σ) (c : check σ) (rest : block σ)
    (b : body σ ε) (m : machine σ ε) :
    (m.uncaught_exception = false →
      (run_guarded cfg (contract_mfun__ T (pre ++ c :: rest)) b m).1 = outcome.normal →
      emitted m (run_guarded cfg (contract_mfun__ T (pre ++ c :: rest)) b m) =
        (class_invariant_trace cfg (contract_context.mk false false true) false T ++
          event.block_run (contract_context.mk true false true) ::
            evaluations cfg (contract_context.mk true false true) false (pre ++ c :: rest)) ++
        event.body_run ::
          ((event.block_run (contract_context.mk false true true) ::
            evaluations cfg (contract_context.mk false true true) false (pre ++ c :: rest)) ++
          class_invariant_trace cfg (contract_context.mk false false true) false T)) ∧
    (class_invariant_passes cfg (contract_context.mk false false true)
        m.uncaught_exception m.state T = false →
      ∃ d, (d ∈ T.body ∨ ∃ B ∈ T.bases, has_class_contract B = true ∧ d ∈ B.body) ∧
        d.kind = type.invariant ∧
        handler_calls (emitted m
            (run_guarded cfg (contract_mfun__ T (pre ++ c :: rest)) b m)) = [d.record] ∧
        d.record.contract_type = type.invariant ∧
        block_runs (emitted m
            (run_guarded cfg (contract_mfun__ T (pre ++ c :: rest)) b m)) = [] ∧
        event.body_run ∉ emitted m
            (run_guarded cfg (contract_mfun__ T (pre ++ c :: rest)) b m)) ∧
    (c.kind = type.postcondition → cfg.CONTRACT_DISABLE_POSTCONDITIONS = false →
      m.uncaught_exception = false →
      ((contract_mfun__ T (pre ++ c :: rest)).construct cfg m).1 = outcome.normal →
      (b m.state).2 = outcome.normal →
      (∀ d ∈ pre, d.fails cfg (contract_context.mk false true true) false (b m.state).1 =
        false) →
      c.cond (b m.state).1 = false →
      ∃ before after,
        emitted m (run_guarded cfg (contract_mfun__ T (pre ++ c :: rest)) b m) =
          before ++ event.body_run :: after ∧
        handler_calls before = [] ∧ event.body_run ∉ before ∧
        handler_calls after = [c.record] ∧
        c.record.contract_type = type.postcondition ∧
        class_runs after = [] ∧
        (run_guarded cfg (contract_mfun__ T (pre ++ c :: rest)) b m).1 =
          (m.current_handler c.record).exit.outcome) := by
  refine ⟨?_, ?_, ?_⟩
  · intro hflag hn
    unfold contract_mfun__ at hn ⊢
    rw [contractor_of_class_contract T true true _ hT] at hn ⊢
    simpa using class_activation_normal cfg T (pre ++ c :: rest) true true b m hT hflag hn
  · intro hfail
    obtain ⟨d, hmem, hkind, hrk, _, hcalls, hblocks, hbody, _⟩ :=
      entry_class_failure cfg T true (pre ++ c :: rest) b m hT hfail
    exact ⟨d, hmem, hkind, hcalls, hrk, hblocks, hbody⟩
  · intro hkind hcfg hflag hentry hbody hpre hcond
    have hc : c.fails cfg (contract_context.mk false true (exit_invariant_flag T true))
        m.uncaught_exception (b m.state).1 = true := by
      rw [check_fails_eq, hkind, hflag]
      simp [build_config.disabled, hcfg, check_, contract_context.check_postcondition, hcond]
    obtain ⟨before, after, h1, h2, h3, h4, h5, _, h7⟩ :=
      exit_report cfg T true true pre c rest b m hentry hbody
        (by rw [hflag, exit_invariant_flag_true]; exact hpre) hc
    exact ⟨before, after, h1, h2, h3, h4, by simp [check.record, hkind], h5, h7⟩

/-- Witness of C20 on the class `bounded`: a method `{ CONTRACT(mfun) {
PRECONDITION(x < 10); }; ++x; }` entered with `x == 11`, where the class
invariant and the precondition are both false, reports an invariant of the
class contract and does not run the block; a method `{ CONTRACT(mfun) {
POSTCONDITION(x == 0); }; ++x; }` entered with `x == 10`, after which the
postcondition and the class invariant are both false, reports the
postcondition and runs no class contract body after the body. -/
theorem C20_witness_methods_of_bounded :
    (∃ d : check Nat, d.kind = type.invariant ∧
      handler_calls (emitted (test.start 11)
        (run_guarded build_config.all_enabled
          (contract_mfun__ test.bounded ([] ++ test.pre_below_ten :: []))
          test.increment (test.start 11))) = [d.record] ∧
      block_runs (emitted (test.start 11)
        (run_guarded build_config.all_enabled
          (contract_mfun__ test.bounded ([] ++ test.pre_below_ten :: []))
          test.increment (test.start 11))) = []) ∧
    ∃ before after,
      emitted (test.start 10)
          (run_guarded build_config.all_enabled
            (contract_mfun__ test.bounded ([] ++ test.post_zero :: []))
            test.increment (test.start 10)) =
        before ++ event.body_run :: after ∧
      handler_calls after = [test.post_zero.record] ∧ class_runs after = [] :=
  have h1 := (C20_class_invariant_around_the_block build_config.all_enabled test.bounded rfl
    [] test.pre_below_ten [] test.increment (test.start 11)).2.1 rfl
  have h2 := (C20_class_invariant_around_the_block build_config.all_enabled test.bounded rfl
    [] test.post_zero [] test.increment (test.start 10)).2.2
    rfl rfl rfl rfl rfl (fun _ hd => absurd hd (List.not_mem_nil _)) rfl
  ⟨h1.elim fun d h => ⟨d, h.2.1, h.2.2.1, h.2.2.2.2.1⟩,
    h2.elim fun before h => h.elim fun after h =>
      ⟨before, after, h.1, h.2.2.2.1, h.2.2.2.2.2.1⟩⟩

/-! ## The phases of a guard, whatever their course -/

theorem phase_log_nil (P : contract_context → Prop) : phase_log P [] :=
  ⟨List.not_mem_nil _, by simp [block_runs], by simp [class_run_contexts]⟩

theorem phase_log_append (P : contract_context → Prop) (a b : List event)
    (ha : phase_log P a) (hb : phase_log P b) : phase_log P (a ++ b) := by
  refine ⟨?_, ?_, ?_⟩
  · intro h
    rcases List.mem_append.mp h with h1 | h1
    · exact ha.1 h1
    · exact hb.1 h1
  · intro ctx h
    rw [block_runs_append] at h
    rcases List.mem_append.mp h with h1 | h1
    · exact ha.2.1 ctx h1
    · exact hb.2.1 ctx h1
  · intro ctx h
    rw [class_run_contexts_append] at h
    rcases List.mem_append.mp h with h1 | h1
    · exact ha.2.2 ctx h1
    · exact hb.2.2 ctx h1

theorem phase_log_evaluated (P : contract_context → Prop) (c : violation_context) :
    phase_log P [event.evaluated c] :=
  ⟨by simp, by simp [block_runs], by simp [class_run_contexts]⟩

theorem phase_log_called (P : contract_context → Prop) (c : violation_context) :
    phase_log P [event.handler_called c] :=
  ⟨by simp, by simp [block_runs], by simp [class_run_contexts]⟩

theorem phase_log_evaluations (P : contract_context → Prop) (cfg : build_config)
    (ctx : contract_context) (uncaught : Bool) (b : block σ) :
    phase_log P (evaluations cfg ctx uncaught b) :=
  ⟨body_run_not_mem_evaluations _ _ _ _, by rw [block_runs_evaluations]; simp,
    by rw [class_run_contexts_evaluations]; simp⟩

theorem phase_log_cons_block_run (P : contract_context → Prop) (ctx : contract_context)
    (t : List event) (hP : P ctx) (h : phase_log P t) :
    phase_log P (event.block_run ctx :: t) := by
  refine ⟨?_, ?_, ?_⟩
  · intro hm
    rcases List.mem_cons.mp hm with h1 | h1
    · cases h1
    · exact h.1 h1
  · intro c hc
    rw [block_runs_cons_block_run] at hc
    rcases List.mem_cons.mp hc with h1 | h1
    · rw [h1]
      exact hP
    · exact h.2.1 c h1
  · intro c hc
    exact h.2.2 c hc

theorem handle_violation_raised_flag (context : violation_context) (m : machine σ ε) (e : ε)
    (h : (handle_violation context m).1 = outcome.raised e) :
    (handle_violation context m).2.uncaught_exception = true := by
  unfold handle_violation at h ⊢
  cases hx : (m.current_handler context).exit <;> simp [hx] at h ⊢

theorem phase_ok_handle_violation (P : contract_context → Prop) (m : machine σ ε)
    (c : violation_context) (tr : List event) (hlog : phase_log P tr)
    (hs : handler_calls tr = []) :
    phase_ok P m (handle_violation c { m with trace := m.trace ++ tr }) := by
  refine ⟨tr ++ [event.handler_called c], ?_,
    phase_log_append P _ _ hlog (phase_log_called P c), ?_, ?_, ?_⟩
  · rw [handle_violation_trace]
    simp [List.append_assoc]
  · intro h
    exact absurd h (handle_violation_not_normal _ _)
  · intro _
    rw [handler_calls_append, hs]
    rfl
  · intro e h
    exact handle_violation_raised_flag _ _ e h

theorem phase_ok_normal (P : contract_context → Prop) (m : machine σ ε) (tr : List event)
    (hlog : phase_log P tr) (hs : handler_calls tr = []) :
    phase_ok P m (outcome.normal, { m with trace := m.trace ++ tr }) :=
  ⟨tr, rfl, hlog, fun _ => ⟨hs, rfl⟩, fun h => absurd rfl h, fun e h => by simp at h⟩

theorem phase_ok_skip (P : contract_context → Prop) (m : machine σ ε) :
    phase_ok P m (outcome.normal, m) :=
  ⟨[], by simp, phase_log_nil P, fun _ => ⟨rfl, rfl⟩, fun h => absurd rfl h,
    fun e h => by simp at h⟩

theorem phase_ok_invoke (P : contract_context → Prop) (cfg : build_config) (blk : block σ)
    (ctx : contract_context) (m : machine σ ε) (hP : P ctx) :
    phase_ok P m (invoke cfg blk ctx m) := by
  rcases invoke_cases cfg blk ctx m with ⟨_, hrun⟩ | ⟨pre, c, rest, _, _, _, hrun⟩
  · rw [hrun]
    refine phase_ok_normal P m _
      (phase_log_cons_block_run P ctx _ hP (phase_log_evaluations P _ _ _ _)) ?_
    rw [handler_calls_cons_block_run, handler_calls_evaluations]
  · rw [hrun]
    refine phase_ok_handle_violation P m _ _
      (phase_log_cons_block_run P ctx _ hP
        (phase_log_append P _ _ (phase_log_evaluations P _ _ _ _)
          (phase_log_evaluated P _))) ?_
    rw [handler_calls_cons_block_run, handler_calls_append, handler_calls_evaluations]
    rfl

theorem class_invariant_contexts (cfg : build_config) (T : class_decl σ)
    (ctx : contract_context) (m : machine σ ε) (hT : has_class_contract T = true)
    (new : List event) (h : (class_invariant cfg T ctx m).2.trace = m.trace ++ new) :
    ∀ c ∈ class_run_contexts new, c = ctx := by
  obtain ⟨new2, h2, _, h3⟩ := class_invariant_log cfg T ctx m hT
  rw [h] at h2
  have heq := List.append_cancel_left h2
  subst heq
  intro c hc
  rw [h3] at hc
  exact List.eq_of_mem_replicate hc

theorem phase_ok_class_invariant (P : contract_context → Prop) (cfg : build_config)
    (T : class_decl σ) (m : machine σ ε) (hT : has_class_contract T = true) :
    phase_ok P m (class_invariant cfg T (contract_context.mk false false true) m) := by
  rcases class_invariant_cases cfg T (contract_context.mk false false true) m hT with
    ⟨_, hrun⟩ | ⟨_, c, tr, _, _, hs, hrun⟩
  · have hctx := class_invariant_contexts cfg T (contract_context.mk false false true) m hT
      (class_invariant_trace cfg (contract_context.mk false false true)
        m.uncaught_exception T) (by rw [hrun])
    have hsil := silent_class_invariant_trace cfg (contract_context.mk false false true)
      m.uncaught_exception T
    rw [hrun]
    refine phase_ok_normal P m _ ⟨hsil.2.2, ?_, hctx⟩ hsil.1
    rw [hsil.2.1]
    simp
  · have hctx := class_invariant_contexts cfg T (contract_context.mk false false true) m hT
      (tr ++ [event.evaluated c.record, event.handler_called c.record])
      (by rw [hrun, handle_violation_trace]; simp [List.append_assoc])
    rw [hrun]
    refine phase_ok_handle_violation P m _ _ ⟨?_, ?_, ?_⟩ ?_
    · intro hm
      rcases List.mem_append.mp hm with h1 | h1
      · exact hs.2.2 h1
      · simp at h1
    · rw [block_runs_append, hs.2.1]
      simp [block_runs]
    · intro x hx
      apply hctx x
      simpa [class_run_contexts, List.filterMap_append] using hx
    · rw [handler_calls_append, hs.1]
      rfl

theorem phase_ok_seq (P : contract_context → Prop) (m : machine σ ε)
    (r1 : outcome ε × machine σ ε) (f : machine σ ε → outcome ε × machine σ ε) :
    phase_ok P m r1 →
    (∀ m1, r1 = (outcome.normal, m1) → phase_ok P m1 (f m1)) →
    phase_ok P m
      (match r1 with
        | (outcome.normal, m1) => f m1
        | r => r) := by
  obtain ⟨o, m1⟩ := r1
  intro h1 h2
  cases o with
  | normal =>
      obtain ⟨new1, ht1, hl1, hn1, _, _⟩ := h1
      obtain ⟨new2, ht2, hl2, hn2, hx2, hr2⟩ := h2 m1 rfl
      obtain ⟨hc1, hf1⟩ := hn1 rfl
      simp only at ht1 hf1
      refine ⟨new1 ++ new2, ?_, phase_log_append P _ _ hl1 hl2, ?_, ?_, hr2⟩
      · show (f m1).2.trace = _
        rw [ht2, ht1, List.append_assoc]
      · intro h
        obtain ⟨a, b⟩ := hn2 h
        refine ⟨?_, b.trans hf1⟩
        rw [handler_calls_append, hc1, a]
        rfl
      · intro h
        rw [handler_calls_append, hc1]
        simpa using hx2 h
  | raised e => exact h1
  | terminated => exact h1

theorem class_construct_seq (cfg : build_config) (T : class_decl σ) (f : block σ)
    (enter exit : Bool) (m : machine σ ε) :
    (guard.class_contract T f enter exit).construct cfg m =
      match class_contract_base.constructor cfg T enter m with
      | (outcome.normal, m0) => invoke cfg f (contract_context.mk true false enter) m0
      | r => r := by
  obtain ⟨o, m0, h⟩ : ∃ o m0, class_contract_base.constructor cfg T enter m = (o, m0) :=
    ⟨_, _, rfl⟩
  cases o with
  | normal =>
      rw [class_construct_eq cfg T f enter exit m m0 h, h]
  | raised e => simp [guard.construct, h]
  | terminated => simp [guard.construct, h]

theorem phase_ok_base_constructor (P : contract_context → Prop) (cfg : build_config)
    (T : class_decl σ) (enter : Bool) (m : machine σ ε)
    (hT : has_class_contract T = true) :
    phase_ok P m (class_contract_base.constructor cfg T enter m) := by
  unfold class_contract_base.constructor
  split
  · exact phase_ok_class_invariant P cfg T m hT
  · exact phase_ok_skip P m

theorem phase_ok_base_destructor (P : contract_context → Prop) (cfg : build_config)
    (T : class_decl σ) (exit : Bool) (m : machine σ ε)
    (hT : has_class_contract T = true) :
    phase_ok P m (class_contract_base.destructor cfg T exit m) := by
  unfold class_contract_base.destructor
  split
  · exact phase_ok_class_invariant P cfg T m hT
  · exact phase_ok_skip P m

/-- Construction of a guard, whatever its course: the entry phase. -/
theorem phase_ok_construct (cfg : build_config) (T : class_decl σ) (enter exit : Bool)
    (blk : block σ) (m : machine σ ε) :
    phase_ok entry_context m ((contractor T enter exit blk).construct cfg m) := by
  cases hT : has_class_contract T with
  | false =>
      rw [contractor_of_no_class_contract T enter exit blk hT]
      exact phase_ok_invoke entry_context cfg blk _ m ⟨rfl, rfl⟩
  | true =>
      rw [contractor_of_class_contract T enter exit blk hT, class_construct_seq]
      exact phase_ok_seq entry_context m _ _
        (phase_ok_base_constructor entry_context cfg T enter m hT)
        (fun m1 _ => phase_ok_invoke entry_context cfg blk
          (contract_context.mk true false enter) m1 ⟨rfl, rfl⟩)

/-- Destruction of a guard on the normal path, whatever its course: the exit
phase. -/
theorem phase_ok_destroy (cfg : build_config) (T : class_decl σ) (enter exit : Bool)
    (blk : block σ) (m : machine σ ε) :
    phase_ok exit_context m ((contractor T enter exit blk).destroy cfg false m) := by
  cases hT : has_class_contract T with
  | false =>
      rw [contractor_of_no_class_contract T enter exit blk hT,
        fun_contract_destroy_normal_path]
      exact phase_ok_invoke exit_context cfg blk _ m ⟨rfl, rfl⟩
  | true =>
      rw [contractor_of_class_contract T enter exit blk hT, class_destroy_normal_path]
      exact phase_ok_seq exit_context m _ _
        (phase_ok_invoke exit_context cfg blk (contract_context.mk false true exit) m
          ⟨rfl, rfl⟩)
        (fun m1 _ => phase_ok_base_destructor exit_context cfg T exit m1 hT)

/-- Destruction of a guard by stack unwinding, whatever its course: it either
completes or ends the process. -/
theorem phase_ok_destroy_unwinding (cfg : build_config) (g : guard σ) (m : machine σ ε)
    (hflag : m.uncaught_exception = true) :
    phase_ok exit_context m (g.destroy cfg true m) ∧
    ((g.destroy cfg true m).1 = outcome.normal ∨
      (g.destroy cfg true m).1 = outcome.terminated) := by
  rcases block_split cfg (contract_context.mk false true g.exit_) true m.state g.block with
    hpass | ⟨pre, c, rest, hblk, hpre, hc⟩
  · rw [destroy_unwinding_of_pass cfg g m hflag hpass]
    refine ⟨phase_ok_normal exit_context m _
      (phase_log_cons_block_run _ _ _ ⟨rfl, rfl⟩ (phase_log_evaluations _ _ _ _ _)) ?_,
      Or.inl rfl⟩
    rw [handler_calls_cons_block_run, handler_calls_evaluations]
  · obtain ⟨ho, ht⟩ := destroy_unwinding_of_failure cfg g m pre c rest hflag hblk hpre hc
    refine ⟨⟨_, ht, ?_, ?_, ?_, ?_⟩, Or.inr ho⟩
    · exact phase_log_cons_block_run _ _ _ ⟨rfl, rfl⟩
        (phase_log_append _ _ _ (phase_log_evaluations _ _ _ _ _)
          (phase_log_append _ [_] [_] (phase_log_evaluated _ _) (phase_log_called _ _)))
    · intro h
      rw [ho] at h
      cases h
    · intro _
      rw [handler_calls_cons_block_run, handler_calls_append, handler_calls_evaluations]
      rfl
    · intro e h
      rw [ho] at h
      cases h

theorem run_guarded_of_body_normal (cfg : build_config) (g : guard σ) (b : body σ ε)
    (m m1 : machine σ ε)
    (hentry : g.construct cfg m = (outcome.normal, m1))
    (hbody : (b m1.state).2 = outcome.normal) :
    run_guarded cfg g b m =
      g.destroy cfg false
        { m1 with trace := m1.trace ++ [event.body_run], state := (b m1.state).1 } := by
  simp only [run_guarded, hentry]
  rw [run_body_of_normal b m1 hbody]

theorem run_guarded_of_body_terminated (cfg : build_config) (g : guard σ) (b : body σ ε)
    (m m1 : machine σ ε)
    (hentry : g.construct cfg m = (outcome.normal, m1))
    (hbody : (b m1.state).2 = outcome.terminated) :
    run_guarded cfg g b m =
      (outcome.terminated,
        { m1 with trace := m1.trace ++ [event.body_run], state := (b m1.state).1 }) := by
  simp only [run_guarded, hentry]
  simp [run_body, hbody, machine.log]

/-- One activation of a guarded scope, whatever its course: the entry phase
either does not complete, and the activation ends there, or it completes
without a handler call and the body runs; the body ends the process, or
completes and the guard is destroyed on the normal path, or exits via an
exception and the guard is destroyed by stack unwinding. -/
theorem activation_cases (cfg : build_config) (T : class_decl σ) (enter exit : Bool)
    (blk : block σ) (b : body σ ε) (m : machine σ ε) :
    ∃ new1, ((contractor T enter exit blk).construct cfg m).2.trace = m.trace ++ new1 ∧
      phase_log entry_context new1 ∧
      ((((contractor T enter exit blk).construct cfg m).1 ≠ outcome.normal ∧
          (handler_calls new1).length = 1 ∧
          run_guarded cfg (contractor T enter exit blk) b m =
            (contractor T enter exit blk).construct cfg m) ∨
        ∃ m1, (contractor T enter exit blk).construct cfg m = (outcome.normal, m1) ∧
          handler_calls new1 = [] ∧
          (((b m1.state).2 = outcome.terminated ∧
              (run_guarded cfg (contractor T enter exit blk) b m).1 = outcome.terminated ∧
              (run_guarded cfg (contractor T enter exit blk) b m).2.trace =
                m.trace ++ (new1 ++ [event.body_run])) ∨
            ∃ new3,
              (run_guarded cfg (contractor T enter exit blk) b m).2.trace =
                m.trace ++ (new1 ++ event.body_run :: new3) ∧
              phase_log exit_context new3 ∧
              (((b m1.state).2 = outcome.normal ∧
                  ((run_guarded cfg (contractor T enter exit blk) b m).1 = outcome.normal →
                    handler_calls new3 = []) ∧
                  ((run_guarded cfg (contractor T enter exit blk) b m).1 ≠ outcome.normal →
                    (handler_calls new3).length = 1)) ∨
                ∃ e, (b m1.state).2 = outcome.raised e ∧
                  (((run_guarded cfg (contractor T enter exit blk) b m).1 =
                        outcome.raised e ∧ handler_calls new3 = []) ∨
                    ((run_guarded cfg (contractor T enter exit blk) b m).1 =
                        outcome.terminated ∧ (handler_calls new3).length = 1))))) := by
  obtain ⟨new1, ht1, hl1, hn1, hx1, _⟩ := phase_ok_construct cfg T enter exit blk m
  refine ⟨new1, ht1, hl1, ?_⟩
  obtain ⟨o, m1, hc⟩ : ∃ o m1, (contractor T enter exit blk).construct cfg m = (o, m1) :=
    ⟨_, _, rfl⟩
  have hnot : o ≠ outcome.normal →
      ((contractor T enter exit blk).construct cfg m).1 ≠ outcome.normal ∧
        (handler_calls new1).length = 1 ∧
        run_guarded cfg (contractor T enter exit blk) b m =
          (contractor T enter exit blk).construct cfg m := by
    intro ho
    have h1 : ((contractor T enter exit blk).construct cfg m).1 ≠ outcome.normal := by
      rw [hc]
      exact ho
    exact ⟨h1, hx1 h1, run_guarded_of_entry_not_normal cfg _ b m h1⟩
  cases o with
  | raised e => exact Or.inl (hnot (by simp))
  | terminated => exact Or.inl (hnot (by simp))
  | normal =>
      right
      have hm1 : m1.trace = m.trace ++ new1 := by
        rw [hc] at ht1
        exact ht1
      refine ⟨m1, hc, (hn1 (by rw [hc])).1, ?_⟩
      obtain ⟨ob, hb⟩ : ∃ ob, (b m1.state).2 = ob := ⟨_, rfl⟩
      cases ob with
      | terminated =>
          left
          rw [run_guarded_of_body_terminated cfg _ b m m1 hc hb]
          refine ⟨hb, rfl, ?_⟩
          simp [hm1, List.append_assoc]
      | normal =>
          right
          obtain ⟨new3, ht3, hl3, hn3, hx3, _⟩ := phase_ok_destroy cfg T enter exit blk
            { m1 with trace := m1.trace ++ [event.body_run], state := (b m1.state).1 }
          rw [← run_guarded_of_body_normal cfg _ b m m1 hc hb] at ht3 hn3 hx3
          refine ⟨new3, ?_, hl3, Or.inl ⟨hb, fun h => (hn3 h).1, hx3⟩⟩
          rw [ht3]
          simp [hm1, List.append_assoc]
      | raised e =>
          right
          obtain ⟨⟨new3, ht3, hl3, hn3, hx3, _⟩, hor⟩ :=
            phase_ok_destroy_unwinding cfg (contractor T enter exit blk)
              { m1 with trace := m1.trace ++ [event.body_run], state := (b m1.state).1,
                        uncaught_exception := true } rfl
          have hrun := run_guarded_of_body_raised cfg _ b m m1 e hc hb
          obtain ⟨o3, m3, hd⟩ : ∃ o3 m3,
              (contractor T enter exit blk).destroy cfg true
                { m1 with trace := m1.trace ++ [event.body_run], state := (b m1.state).1,
                          uncaught_exception := true } = (o3, m3) := ⟨_, _, rfl⟩
          rw [hd] at hrun ht3 hn3 hx3 hor
          simp only at ht3
          refine ⟨new3, ?_, hl3, Or.inr ⟨e, hb, ?_⟩⟩
          · have h2 : (run_guarded cfg (contractor T enter exit blk) b m).2 = m3 := by
              rw [hrun]
              cases o3 <;> rfl
            rw [h2, ht3]
            simp [hm1, List.append_assoc]
          · rcases hor with h | h
            · simp only at h
              subst h
              left
              rw [hrun]
              exact ⟨rfl, (hn3 rfl).1⟩
            · simp only at h
              subst h
              right
              rw [hrun]
              exact ⟨rfl, hx3 (by simp)⟩

/-- The log of one activation of a guarded scope, whatever its course: the
handler is called at most once, and not at all when the activation completes;
every class contract body is run with the context `{false, false, true}`; and
the lambda of the block is called with entry and exit contexts only. -/
theorem activation_log (cfg : build_config) (T : class_decl σ) (enter exit : Bool)
    (blk : block σ) (b : body σ ε) (m : machine σ ε) :
    (run_guarded cfg (contractor T enter exit blk) b m).2.trace =
      m.trace ++ emitted m (run_guarded cfg (contractor T enter exit blk) b m) ∧
    (handler_calls
      (emitted m (run_guarded cfg (contractor T enter exit blk) b m))).length ≤ 1 ∧
    ((run_guarded cfg (contractor T enter exit blk) b m).1 = outcome.normal →
      handler_calls (emitted m (run_guarded cfg (contractor T enter exit blk) b m)) = []) ∧
    (∀ ctx ∈ class_run_contexts
        (emitted m (run_guarded cfg (contractor T enter exit blk) b m)),
      ctx = contract_context.mk false false true) ∧
    ∀ ctx ∈ block_runs (emitted m (run_guarded cfg (contractor T enter exit blk) b m)),
      entry_context ctx ∨ exit_context ctx := by
  obtain ⟨new1, ht1, hl1, hcases⟩ := activation_cases cfg T enter exit blk b m
  have key : ∀ new : List event,
      (run_guarded cfg (contractor T enter exit blk) b m).2.trace = m.trace ++ new →
      (handler_calls new).length ≤ 1 →
      ((run_guarded cfg (contractor T enter exit blk) b m).1 = outcome.normal →
        handler_calls new = []) →
      (∀ ctx ∈ class_run_contexts new, ctx = contract_context.mk false false true) →
      (∀ ctx ∈ block_runs new, entry_context ctx ∨ exit_context ctx) →
      (run_guarded cfg (contractor T enter exit blk) b m).2.trace =
        m.trace ++ emitted m (run_guarded cfg (contractor T enter exit blk) b m) ∧
      (handler_calls
        (emitted m (run_guarded cfg (contractor T enter exit blk) b m))).length ≤ 1 ∧
      ((run_guarded cfg (contractor T enter exit blk) b m).1 = outcome.normal →
        handler_calls
          (emitted m (run_guarded cfg (contractor T enter exit blk) b m)) = []) ∧
      (∀ ctx ∈ class_run_contexts
          (emitted m (run_guarded cfg (contractor T enter exit blk) b m)),
        ctx = contract_context.mk false false true) ∧
      ∀ ctx ∈ block_runs (emitted m (run_guarded cfg (contractor T enter exit blk) b m)),
        entry_context ctx ∨ exit_context ctx := by
    intro new htr h1 h2 h3 h4
    rw [emitted_of_trace_eq m _ new htr]
    exact ⟨htr, h1, h2, h3, h4⟩
  rcases hcases with ⟨hne, hlen, hrun⟩ | ⟨m1, hc, hn1, hb⟩
  · refine key new1 (by rw [hrun]; exact ht1) (le_of_eq hlen) ?_ hl1.2.2
      (fun ctx h => Or.inl (hl1.2.1 ctx h))
    intro h
    rw [hrun] at h
    exact absurd h hne
  · rcases hb with ⟨_, hterm, htr⟩ | ⟨new3, htr, hl3, hsub⟩
    · refine key (new1 ++ [event.body_run]) htr ?_ ?_ ?_ ?_
      · rw [handler_calls_append, hn1]
        simp [handler_calls]
      · intro _
        rw [handler_calls_append, hn1]
        simp [handler_calls]
      · intro ctx h
        apply hl1.2.2 ctx
        simpa [class_run_contexts, List.filterMap_append] using h
      · intro ctx h
        refine Or.inl (hl1.2.1 ctx ?_)
        simpa [block_runs, List.filterMap_append] using h
    · have hcalls : handler_calls (new1 ++ event.body_run :: new3) = handler_calls new3 := by
        rw [handler_calls_append, hn1, handler_calls_cons_body_run]
        rfl
      refine key (new1 ++ event.body_run :: new3) htr ?_ ?_ ?_ ?_
      · rw [hcalls]
        rcases hsub with ⟨_, hn3, hx3⟩ | ⟨e, _, ⟨_, h0⟩ | ⟨_, h1⟩⟩
        · by_cases h : (run_guarded cfg (contractor T enter exit blk) b m).1 = outcome.normal
          · rw [hn3 h]
            simp
          · exact le_of_eq (hx3 h)
        · rw [h0]
          simp
        · exact le_of_eq h1
      · intro h
        rw [hcalls]
        rcases hsub with ⟨_, hn3, _⟩ | ⟨e, _, ⟨ho, _⟩ | ⟨ho, _⟩⟩
        · exact hn3 h
        · rw [ho] at h
          cases h
        · rw [ho] at h
          cases h
      · intro ctx h
        rw [class_run_contexts_append] at h
        rcases List.mem_append.mp h with h1 | h1
        · exact hl1.2.2 ctx h1
        · exact hl3.2.2 ctx (by simpa [class_run_contexts] using h1)
      · intro ctx h
        rw [block_runs_append, block_runs_cons_body_run] at h
        rcases List.mem_append.mp h with h1 | h1
        · exact Or.inl (hl1.2.1 ctx h1)
        · exact Or.inr (hl3.2.1 ctx h1)

/-- An entry phase that does not complete ends the activation: the handler
has been called once, the body does not run and the lambda of the block is
not called for the exit phase. -/
theorem entry_violation_ends_activation (cfg : build_config) (T : class_decl σ)
    (enter exit : Bool) (blk : block σ) (b : body σ ε) (m : machine σ ε)
    (h : ((contractor T enter exit blk).construct cfg m).1 ≠ outcome.normal) :
    run_guarded cfg (contractor T enter exit blk) b m =
      (contractor T enter exit blk).construct cfg m ∧
    (handler_calls
      (emitted m (run_guarded cfg (contractor T enter exit blk) b m))).length = 1 ∧
    event.body_run ∉ emitted m (run_guarded cfg (contractor T enter exit blk) b m) ∧
    ∀ ctx ∈ block_runs (emitted m (run_guarded cfg (contractor T enter exit blk) b m)),
      entry_context ctx := by
  obtain ⟨new1, ht1, hl1, _, hx1, _⟩ := phase_ok_construct cfg T enter exit blk m
  have hrun := run_guarded_of_entry_not_normal cfg (contractor T enter exit blk) b m h
  rw [emitted_of_trace_eq m _ new1 (by rw [hrun]; exact ht1)]
  exact ⟨hrun, hx1 h, hl1.1, hl1.2.1⟩

/-- A violation reported while the guard is destroyed by stack unwinding ends
the process. -/
theorem unwinding_violation_terminates (cfg : build_config) (T : class_decl σ)
    (enter exit : Bool) (blk : block σ) (b : body σ ε) (m : machine σ ε) (e : ε)
    (hentry : ((contractor T enter exit blk).construct cfg m).1 = outcome.normal)
    (hbody : (b m.state).2 = outcome.raised e)
    (hcall : handler_calls
      (emitted m (run_guarded cfg (contractor T enter exit blk) b m)) ≠ []) :
    (run_guarded cfg (contractor T enter exit blk) b m).1 = outcome.terminated := by
  obtain ⟨new1, ht1, hl1, hcases⟩ := activation_cases cfg T enter exit blk b m
  rcases hcases with ⟨hne, _, _⟩ | ⟨m1, hc, hn1, hb⟩
  · exact absurd hentry hne
  · have hst : m1.state = m.state := by
      rw [(construct_normal_inv cfg T enter exit blk m m1 hc).2.2]
    rw [hst] at hb
    rcases hb with ⟨hbt, _, _⟩ | ⟨new3, htr, hl3, hsub⟩
    · rw [hbody] at hbt
      cases hbt
    · rw [emitted_of_trace_eq m _ _ htr, handler_calls_append, hn1,
        handler_calls_cons_body_run] at hcall
      rcases hsub with ⟨hbn, _, _⟩ | ⟨e2, _, ⟨_, h0⟩ | ⟨ho, _⟩⟩
      · rw [hbody] at hbn
        cases hbn
      · rw [h0] at hcall
        exact absurd rfl hcall
      · exact ho

/-! ## Destruction of a guard under the in-flight flag, on either path -/

theorem exit_in_flight_active (x : Bool) (k : type)
    (h : check_ (contract_context.mk false true x) k true = true) : k = type.invariant := by
  cases k <;>
    simp [check_, contract_context.check_precondition,
      contract_context.check_postcondition] at h
  rfl

/-- Destruction of a guard while an exception is in flight, on the normal path
or by stack unwinding: either no check of the block fails in the exit context
under the flag, the destructor completes and the class invariant is not
evaluated; or the first failing check is reported. -/
theorem destroy_in_flight (cfg : build_config) (g : guard σ) (unwinding : Bool)
    (m : machine σ ε) (hflag : m.uncaught_exception = true) :
    ((∀ d ∈ g.block,
        d.fails cfg (contract_context.mk false true g.exit_) true m.state = false) ∧
      g.destroy cfg unwinding m =
        (outcome.normal,
          { m with trace := m.trace ++
              event.block_run (contract_context.mk false true g.exit_) ::
                evaluations cfg (contract_context.mk false true g.exit_) true g.block })) ∨
    ∃ pre c rest, g.block = pre ++ c :: rest ∧
      (∀ d ∈ pre,
        d.fails cfg (contract_context.mk false true g.exit_) true m.state = false) ∧
      c.fails cfg (contract_context.mk false true g.exit_) true m.state = true ∧
      (g.destroy cfg unwinding m).1 ≠ outcome.normal ∧
      (g.destroy cfg unwinding m).2.trace =
        m.trace ++ event.block_run (contract_context.mk false true g.exit_) ::
          (evaluations cfg (contract_context.mk false true g.exit_) true pre ++
            [event.evaluated c.record, event.handler_called c.record]) := by
  rcases block_split cfg (contract_context.mk false true g.exit_) true m.state g.block with
    hpass | ⟨pre, c, rest, hblk, hpre, hc⟩
  · left
    refine ⟨hpass, ?_⟩
    cases unwinding with
    | true => exact destroy_unwinding_of_pass cfg g m hflag hpass
    | false =>
        cases g with
        | fun_contract f enter exit =>
            simp only [guard.block, guard.exit_] at hpass ⊢
            rw [fun_contract_destroy_normal_path]
            simp only [fun_contract.destructor]
            rw [invoke_of_pass cfg f _ m (by rw [hflag]; exact hpass), hflag]
        | class_contract obj f enter exit =>
            simp only [guard.block, guard.exit_] at hpass ⊢
            rw [class_destroy_normal_path]
            rw [invoke_of_pass cfg f _ m (by rw [hflag]; exact hpass)]
            simp [hflag, class_contract_base.destructor]
  · right
    refine ⟨pre, c, rest, hblk, hpre, hc, ?_⟩
    cases unwinding with
    | true =>
        obtain ⟨ho, ht⟩ := destroy_unwinding_of_failure cfg g m pre c rest hflag hblk hpre hc
        refine ⟨?_, ht⟩
        rw [ho]
        simp
    | false =>
        have hrun : g.destroy cfg false m =
            handle_violation c.record
              { m with trace := m.trace ++
                  event.block_run (contract_context.mk false true g.exit_) ::
                    (evaluations cfg (contract_context.mk false true g.exit_)
                        m.uncaught_exception pre ++
                      [event.evaluated c.record]) } := by
          have hinv := invoke_first_failure cfg pre c rest
            (contract_context.mk false true g.exit_) m
            (by rw [hflag]; exact hpre) (by rw [hflag]; exact hc)
          cases g with
          | fun_contract f enter exit =>
              simp only [guard.block, guard.exit_] at hblk hinv ⊢
              rw [fun_contract_destroy_normal_path]
              simp only [fun_contract.destructor]
              rw [hblk, hinv]
          | class_contract obj f enter exit =>
              simp only [guard.block, guard.exit_] at hblk hinv ⊢
              rw [class_destroy_normal_path, hblk, hinv]
              exact seq_of_not_normal _ _ (handle_violation_not_normal _ _)
        rw [hrun]
        refine ⟨handle_violation_not_normal _ _, ?_⟩
        rw [handle_violation_trace]
        simp [hflag, List.append_assoc]

/-- The log of the destruction of a guard while an exception is in flight,
on the normal path or by stack unwinding: no class contract body is run, the
lambda of the block is called once with the exit context, the conditions
evaluated and the records reported are those of INVARIANT checks only; and
when every INVARIANT of the block holds the destructor completes without
calling the handler, whatever the conditions of the other checks. -/
theorem exit_in_flight_log (cfg : build_config) (g : guard σ) (unwinding : Bool)
    (m : machine σ ε) (hflag : m.uncaught_exception = true) :
    ∃ X, (g.destroy cfg unwinding m).2.trace = m.trace ++ X ∧
      class_runs X = [] ∧ event.body_run ∉ X ∧
      block_runs X = [contract_context.mk false true g.exit_] ∧
      (∀ rec ∈ evaluated_checks X, rec.contract_type = type.invariant) ∧
      (∀ rec ∈ handler_calls X, rec.contract_type = type.invariant) ∧
      ((∀ d ∈ g.block, d.kind = type.invariant → d.cond m.state = true) →
        (g.destroy cfg unwinding m).1 = outcome.normal ∧ handler_calls X = []) := by
  have hev : ∀ (b : block σ) (rec : violation_context),
      rec ∈ evaluated_checks
        (evaluations cfg (contract_context.mk false true g.exit_) true b) →
      rec.contract_type = type.invariant := by
    intro b rec hrec
    obtain ⟨d, _, hd, _, hact⟩ := evaluated_checks_evaluations_mem cfg _ true b rec hrec
    rw [hd]
    exact exit_in_flight_active _ _ hact
  rcases destroy_in_flight cfg g unwinding m hflag with
    ⟨_, hrun⟩ | ⟨pre, c, rest, hblk, hpre, hc, hne, htr⟩
  · refine ⟨_, by rw [hrun], ?_, ?_, ?_, ?_, ?_, ?_⟩
    · rw [class_runs_cons_block_run, class_runs_evaluations]
    · intro h
      rcases List.mem_cons.mp h with h1 | h1
      · cases h1
      · exact body_run_not_mem_evaluations _ _ _ _ h1
    · rw [block_runs_cons_block_run, block_runs_evaluations]
    · intro rec hrec
      rw [evaluated_checks_cons_block_run] at hrec
      exact hev _ rec hrec
    · intro rec hrec
      rw [handler_calls_cons_block_run, handler_calls_evaluations] at hrec
      exact absurd hrec (List.not_mem_nil _)
    · intro _
      refine ⟨by rw [hrun], ?_⟩
      rw [handler_calls_cons_block_run, handler_calls_evaluations]
  · have hkind := exit_failure_is_invariant cfg g.exit_ m.state c hc
    refine ⟨_, htr, ?_, ?_, ?_, ?_, ?_, ?_⟩
    · rw [class_runs_cons_block_run, class_runs_append, class_runs_evaluations]
      rfl
    · intro h
      rcases List.mem_cons.mp h with h1 | h1
      · cases h1
      · rcases List.mem_append.mp h1 with h2 | h2
        · exact body_run_not_mem_evaluations _ _ _ _ h2
        · simp at h2
    · rw [block_runs_cons_block_run, block_runs_append, block_runs_evaluations]
      rfl
    · intro rec hrec
      rw [evaluated_checks_cons_block_run, evaluated_checks_append] at hrec
      rcases List.mem_append.mp hrec with h1 | h1
      · exact hev _ rec h1
      · have h2 : rec = c.record := by
          simpa [evaluated_checks] using h1
        rw [h2]
        exact hkind
    · intro rec hrec
      rw [handler_calls_cons_block_run, handler_calls_append,
        handler_calls_evaluations] at hrec
      have h2 : rec = c.record := by
        simpa [handler_calls] using hrec
      rw [h2]
      exact hkind
    · intro hall
      have hcm : c ∈ g.block := by
        rw [hblk]
        exact List.mem_append_right _ (List.mem_cons_self _ _)
      have hcond := hall c hcm hkind
      rw [check_fails_eq, hcond] at hc
      simp at hc

/-! ## The context of the class contract bodies -/

theorem class_context_active (k : type) (u : Bool)
    (h : check_ (contract_context.mk false false true) k u = true) : k = type.invariant := by
  cases k <;>
    simp [check_, contract_context.check_precondition,
      contract_context.check_postcondition] at h
  rfl

theorem class_context_inactive (cfg : build_config) (c : check σ) (u : Bool)
    (hk : c.kind ≠ type.invariant) :
    (!cfg.disabled c.kind && check_ (contract_context.mk false false true) c.kind u) =
      false := by
  cases hc : check_ (contract_context.mk false false true) c.kind u with
  | false => simp
  | true => exact absurd (class_context_active c.kind u hc) hk

theorem invariants_only_nil : invariants_only [] :=
  ⟨fun _ h => absurd h (List.not_mem_nil _), fun _ h => absurd h (List.not_mem_nil _)⟩

theorem invariants_only_append (a b : List event) (ha : invariants_only a)
    (hb : invariants_only b) : invariants_only (a ++ b) := by
  refine ⟨?_, ?_⟩
  · intro rec h
    rw [evaluated_checks_append] at h
    rcases List.mem_append.mp h with h1 | h1
    · exact ha.1 rec h1
    · exact hb.1 rec h1
  · intro rec h
    rw [handler_calls_append] at h
    rcases List.mem_append.mp h with h1 | h1
    · exact ha.2 rec h1
    · exact hb.2 rec h1

theorem invariants_only_cons_class_run (cls : String) (ctx : contract_context)
    (t : List event) (h : invariants_only t) :
    invariants_only (event.class_run cls ctx :: t) :=
  ⟨fun rec hr => h.1 rec hr, fun rec hr => h.2 rec hr⟩

theorem invariants_only_evaluations (cfg : build_config) (u : Bool) (b : block σ) :
    invariants_only (evaluations cfg (contract_context.mk false false true) u b) := by
  refine ⟨?_, ?_⟩
  · intro rec hrec
    obtain ⟨d, _, hd, _, hact⟩ := evaluated_checks_evaluations_mem cfg _ u b rec hrec
    rw [hd]
    exact class_context_active _ _ hact
  · intro rec hrec
    rw [handler_calls_evaluations] at hrec
    exact absurd hrec (List.not_mem_nil _)

theorem invariants_only_report (c : check σ) (hk : c.kind = type.invariant) :
    invariants_only [event.evaluated c.record, event.handler_called c.record] := by
  refine ⟨?_, ?_⟩
  · intro rec hrec
    have h2 : rec = c.record := by
      simpa [evaluated_checks] using hrec
    rw [h2]
    exact hk
  · intro rec hrec
    have h2 : rec = c.record := by
      simpa [handler_calls] using hrec
    rw [h2]
    exact hk

/-- The log of a run of the checks of a block in the context of the class
contract bodies. -/
theorem run_block_records (cfg : build_config) (blk : block σ) (m : machine σ ε) :
    ∃ new, (run_statements (contract_context.mk false false true) (expand cfg blk) m).2.trace =
        m.trace ++ new ∧ invariants_only new := by
  rcases run_block_cases cfg blk (contract_context.mk false false true) m with
    ⟨_, hrun⟩ | ⟨pre, c, rest, _, _, hc, hrun⟩
  · exact ⟨_, by rw [hrun], invariants_only_evaluations cfg _ blk⟩
  · refine ⟨evaluations cfg (contract_context.mk false false true) m.uncaught_exception pre ++
      [event.evaluated c.record, event.handler_called c.record], ?_,
      invariants_only_append _ _ (invariants_only_evaluations cfg _ pre)
        (invariants_only_report c (class_failure_is_invariant cfg _ _ c hc))⟩
    rw [hrun, handle_violation_trace]
    simp [List.append_assoc]

theorem class_contract_records (cfg : build_config) (T : class_decl σ) (m : machine σ ε) :
    ∃ new, (class_contract__ cfg T (contract_context.mk false false true) m).2.trace =
        m.trace ++ new ∧ invariants_only new := by
  cases hT : has_class_contract T with
  | false =>
      cases T with
      | no_contract => exact ⟨[], by simp [class_contract__], invariants_only_nil⟩
      | contract_class__ name body => simp [has_class_contract] at hT
      | contract_derived__ name bases body => simp [has_class_contract] at hT
  | true =>
      rw [class_contract_eq cfg T _ m hT]
      obtain ⟨new, htr, hinv⟩ := run_block_records cfg T.body
        (m.log (event.class_run T.name (contract_context.mk false false true)))
      refine ⟨event.class_run T.name (contract_context.mk false false true) :: new, ?_,
        invariants_only_cons_class_run _ _ _ hinv⟩
      rw [htr]
      simp [machine.log, List.append_assoc]

theorem invariants_only_seq (m : machine σ ε) (r1 : outcome ε × machine σ ε)
    (f : machine σ ε → outcome ε × machine σ ε) :
    (∃ new, r1.2.trace = m.trace ++ new ∧ invariants_only new) →
    (∀ m1, ∃ new, (f m1).2.trace = m1.trace ++ new ∧ invariants_only new) →
    ∃ new,
      (match r1 with
        | (outcome.normal, m1) => f m1
        | r => r).2.trace = m.trace ++ new ∧ invariants_only new := by
  obtain ⟨o, m1⟩ := r1
  intro h1 h2
  cases o with
  | normal =>
      obtain ⟨new1, ht1, hi1⟩ := h1
      obtain ⟨new2, ht2, hi2⟩ := h2 m1
      simp only at ht1
      refine ⟨new1 ++ new2, ?_, invariants_only_append _ _ hi1 hi2⟩
      show (f m1).2.trace = _
      rw [ht2, ht1, List.append_assoc]
  | raised e => exact h1
  | terminated => exact h1

theorem enforce_records (cfg : build_config) (bases : List (class_decl σ)) (m : machine σ ε) :
    ∃ new, (enforce cfg (contract_context.mk false false true) bases m).2.trace =
        m.trace ++ new ∧ invariants_only new := by
  induction bases generalizing m with
  | nil => exact ⟨[], by simp [enforce], invariants_only_nil⟩
  | cons B rest ih =>
      have hstep : ∃ new,
          (do_enforce cfg B (contract_context.mk false false true) m).2.trace =
            m.trace ++ new ∧ invariants_only new := by
        unfold do_enforce
        split
        · exact class_contract_records cfg B m
        · exact ⟨[], by simp, invariants_only_nil⟩
      have h := invariants_only_seq m
        (do_enforce cfg B (contract_context.mk false false true) m)
        (enforce cfg (contract_context.mk false false true) rest) hstep ih
      simpa only [enforce] using h

/-- The log of the expression `obj_->class_contract__(obj_->prepare_contract__(
contract_context{false, false, true}))`, whatever its course. -/
theorem class_invariant_records (cfg : build_config) (T : class_decl σ) (m : machine σ ε) :
    ∃ new, (class_invariant cfg T (contract_context.mk false false true) m).2.trace =
        m.trace ++ new ∧ invariants_only new := by
  unfold class_invariant
  rw [prepare_contract_eq]
  exact invariants_only_seq m _ _ (enforce_records cfg T.bases m)
    (fun m1 => class_contract_records cfg T m1)

theorem class_invariant_contexts_all (cfg : build_config) (T : class_decl σ)
    (ctx : contract_context) (m : machine σ ε) :
    ∃ new, (class_invariant cfg T ctx m).2.trace = m.trace ++ new ∧
      class_run_contexts new = List.replicate (class_runs new).length ctx := by
  cases hT : has_class_contract T with
  | true =>
      obtain ⟨new, h1, _, h3⟩ := class_invariant_log cfg T ctx m hT
      exact ⟨new, h1, h3⟩
  | false =>
      cases T with
      | no_contract =>
          exact ⟨[], by simp [class_invariant, prepare_contract__, class_contract__], rfl⟩
      | contract_class__ name body => simp [has_class_contract] at hT
      | contract_derived__ name bases body => simp [has_class_contract] at hT

/-! ## The handler is called at most once per activation -/

/-- An entry phase that does not complete has reported one record, and the
activation ends as the call of the handler on it ends, whatever the in-flight
flag. -/
theorem entry_violation_outcome (cfg : build_config) (T : class_decl σ)
    (enter exit : Bool) (blk : block σ) (b : body σ ε) (m : machine σ ε)
    (h : ((contractor T enter exit blk).construct cfg m).1 ≠ outcome.normal) :
    ∃ rec,
      handler_calls (emitted m (run_guarded cfg (contractor T enter exit blk) b m)) = [rec] ∧
      (run_guarded cfg (contractor T enter exit blk) b m).1 =
        (m.current_handler rec).exit.outcome := by
  by_cases hcl : has_class_contract T = true ∧ enter = true ∧
      class_invariant_passes cfg (contract_context.mk false false true)
        m.uncaught_exception m.state T = false
  · obtain ⟨hT, he, hfail⟩ := hcl
    subst he
    obtain ⟨c, _, _, _, _, hcalls, _, _, hout⟩ :=
      entry_class_failure cfg T exit blk b m hT hfail
    exact ⟨c.record, hcalls, hout⟩
  · have hclass : has_class_contract T = true → enter = true →
        class_invariant_passes cfg (contract_context.mk false false true)
          m.uncaught_exception m.state T = true := by
      intro h1 h2
      by_contra h3
      exact hcl ⟨h1, h2, Bool.eq_false_iff.mpr h3⟩
    rcases block_split cfg (contract_context.mk true false (entry_invariant_flag T enter))
        m.uncaught_exception m.state blk with hpass | ⟨pre, c, rest, heq, hpre, hc⟩
    · exfalso
      apply h
      rw [construct_of_class_pass cfg T enter exit blk m hclass,
        invoke_of_pass cfg blk _ _ (by exact hpass)]
    · subst heq
      obtain ⟨hcalls, _, _, hout⟩ :=
        entry_report cfg T enter exit pre c rest b m hclass hpre hc
      exact ⟨c.record, hcalls, hout⟩

/-- C21 (amended): for every guarded scope built by `contractor` (fun, mfun,
ctor or dtor, with or without a class contract), every block, every body and
every machine, hence every handler and every value of the in-flight flag at
entry, one activation calls the handler at most once.  When the entry phase
does not complete, the activation ends there: the handler has been called
once, on one record, the activation ends as that call of the handler ends
(an error raised by the handler leaves the scope, also when the scope was
entered while an exception is in flight), the body does not run and the block
is not called with an exit context.  When the first failing check of the
block at exit is reported after a body that completed, no class contract body
runs after the body.  And a violation reported in an activation whose own
body exited via an exception, the guard being destroyed by stack unwinding,
ends the process. -/
theorem C21_at_most_one_handler_call (cfg : build_config) (T : class_decl σ)
    (enter exit : Bool) (blk : block σ) (b : body σ ε) (m : machine σ ε) :
    (handler_calls
      (emitted m (run_guarded cfg (contractor T enter exit blk) b m))).length ≤ 1 ∧
    (((contractor T enter exit blk).construct cfg m).1 ≠ outcome.normal →
      run_guarded cfg (contractor T enter exit blk) b m =
        (contractor T enter exit blk).construct cfg m ∧
      (∃ rec,
        handler_calls
          (emitted m (run_guarded cfg (contractor T enter exit blk) b m)) = [rec] ∧
        (run_guarded cfg (contractor T enter exit blk) b m).1 =
          (m.current_handler rec).exit.outcome) ∧
      event.body_run ∉ emitted m (run_guarded cfg (contractor T enter exit blk) b m) ∧
      ∀ ctx ∈ block_runs (emitted m (run_guarded cfg (contractor T enter exit blk) b m)),
        ctx.check_pre = true ∧ ctx.check_post = false) ∧
    (∀ (pre : block σ) (c : check σ) (rest : block σ), blk = pre ++ c :: rest →
      ((contractor T enter exit blk).construct cfg m).1 = outcome.normal →
      (b m.state).2 = outcome.normal →
      (∀ d ∈ pre,
        d.fails cfg (contract_context.mk false true (exit_invariant_flag T exit))
          m.uncaught_exception (b m.state).1 = false) →
      c.fails cfg (contract_context.mk false true (exit_invariant_flag T exit))
        m.uncaught_exception (b m.state).1 = true →
      ∃ before after,
        emitted m (run_guarded cfg (contractor T enter exit blk) b m) =
          before ++ event.body_run :: after ∧
        handler_calls before = [] ∧ event.body_run ∉ before ∧
        handler_calls after = [c.record] ∧ class_runs after = []) ∧
    (∀ e : ε, ((contractor T enter exit blk).construct cfg m).1 = outcome.normal →
      (b m.state).2 = outcome.raised e →
      handler_calls (emitted m (run_guarded cfg (contractor T enter exit blk) b m)) ≠ [] →
      (run_guarded cfg (contractor T enter exit blk) b m).1 = outcome.terminated) := by
  refine ⟨(activation_log cfg T enter exit blk b m).2.1, ?_, ?_, ?_⟩
  · intro h
    obtain ⟨h1, _, h3, h4⟩ := entry_violation_ends_activation cfg T enter exit blk b m h
    exact ⟨h1, entry_violation_outcome cfg T enter exit blk b m h, h3,
      fun ctx hctx => h4 ctx hctx⟩
  · intro pre c rest hblk hentry hbody hpre hc
    subst hblk
    obtain ⟨before, after, h1, h2, h3, h4, h5, _, _⟩ :=
      exit_report cfg T enter exit pre c rest b m hentry hbody hpre hc
    exact ⟨before, after, h1, h2, h3, h4, h5⟩
  · intro e hentry hbody hcall
    exact unwinding_violation_terminates cfg T enter exit blk b m e hentry hbody hcall

/-- Counterexample to C21 as stated, on its last clause.  The scope
`{ CONTRACT(fun) { PRECONDITION(par); }; }` is entered with `par == false`
while an exception is in flight, with the raising test handler: the violation
is reported while an error is in flight, and the activation ends with the
error of the handler leaving the scope, not with the end of the process. -/
theorem C21_counterexample_violation_in_flight_propagates :
    (test.start_unwinding false : machine Bool test.error).uncaught_exception = true ∧
    handler_calls (emitted (test.start_unwinding false)
        (run_guarded build_config.all_enabled (contract_fun__ [test.check_par])
          test.empty_body (test.start_unwinding false))) =
      [violation_context.mk type.precondition "par" "par" "funcontract.cpp" 9] ∧
    (run_guarded build_config.all_enabled (contract_fun__ [test.check_par])
        test.empty_body (test.start_unwinding false)).1 =
      outcome.raised (test.error.contract_error type.precondition "par") ∧
    ¬ (run_guarded build_config.all_enabled (contract_fun__ [test.check_par])
        test.empty_body (test.start_unwinding false)).1 = outcome.terminated := by
  refine ⟨rfl, rfl, rfl, ?_⟩
  intro h
  exact absurd h (by decide)

/-- Witness of the amended C21.  On `{ CONTRACT(fun) { INVARIANT(x == 0); };
x = 1; throw non_contract_error{}; }` entered with `x == 0` the entry phase
completes, the body raises, the invariant is reported while the guard is
destroyed by stack unwinding: the handler is called once and the process
ends.  A method `{ CONTRACT(mfun) { PRECONDITION(x < 10); }; ++x; }` of
`bounded` entered with `x == 10` while an exception is in flight fails its
precondition: the handler is called on one record, the activation ends as
that call ends, and the body does not run.  And the method
`{ CONTRACT(mfun) { POSTCONDITION(x == 0); }; ++x; }` of `bounded` entered
with `x == 10` reports the postcondition, after which no class contract body
runs. -/
theorem C21_witness_unwinding_violation_terminates :
    ((contract_fun__ test.counter_invariant).construct build_config.all_enabled
        (test.start 0 : machine Nat test.error)).1 = outcome.normal ∧
    (test.increment_and_throw (test.start 0 : machine Nat test.error).state).2 =
      outcome.raised test.error.non_contract_error ∧
    (handler_calls (emitted (test.start 0)
      (run_guarded build_config.all_enabled (contract_fun__ test.counter_invariant)
        test.increment_and_throw (test.start 0)))).length ≤ 1 ∧
    (run_guarded build_config.all_enabled (contract_fun__ test.counter_invariant)
        test.increment_and_throw (test.start 0)).1 = outcome.terminated ∧
    ((test.start_unwinding 10 : machine Nat test.error).uncaught_exception = true ∧
      (∃ rec,
        handler_calls (emitted (test.start_unwinding 10)
          (run_guarded build_config.all_enabled
            (contract_mfun__ test.bounded test.below_ten)
            test.increment (test.start_unwinding 10))) = [rec] ∧
        (run_guarded build_config.all_enabled (contract_mfun__ test.bounded test.below_ten)
            test.increment (test.start_unwinding 10)).1 =
          ((test.start_unwinding 10 : machine Nat test.error).current_handler
            rec).exit.outcome) ∧
      event.body_run ∉ emitted (test.start_unwinding 10)
        (run_guarded build_config.all_enabled (contract_mfun__ test.bounded test.below_ten)
          test.increment (test.start_unwinding 10))) ∧
    ∃ before after,
      emitted (test.start 10)
          (run_guarded build_config.all_enabled
            (contract_mfun__ test.bounded ([] ++ test.post_zero :: []))
            test.increment (test.start 10)) =
        before ++ event.body_run :: after ∧
      handler_calls after = [test.post_zero.record] ∧ class_runs after = [] :=
  have h := C21_at_most_one_handler_call build_config.all_enabled class_decl.no_contract
    true true test.counter_invariant test.increment_and_throw (test.start 0)
  have h2 := (C21_at_most_one_handler_call build_config.all_enabled test.bounded
    true true test.below_ten test.increment (test.start_unwinding 10)).2.1 (by decide)
  have h3 := (C21_at_most_one_handler_call build_config.all_enabled test.bounded
    true true ([] ++ test.post_zero :: []) test.increment (test.start 10)).2.2.1
    [] test.post_zero [] rfl rfl rfl (fun _ hd => absurd hd (List.not_mem_nil _)) rfl
  ⟨rfl, rfl, h.1, h.2.2.2 test.error.non_contract_error rfl rfl (by decide),
    ⟨rfl, h2.2.1, h2.2.2.1⟩,
    h3.elim fun before h => h.elim fun after h =>
      ⟨before, after, h.1, h.2.2.2.1, h.2.2.2.2⟩⟩

/-! ## A scope entered while an exception is in flight -/

/-- C22: the suppression at exit reads the in-flight flag at the moment of
exit only.  A guard destroyed while the flag is set, on the normal path or by
stack unwinding, runs no class contract body and evaluates and reports
INVARIANT checks of its block only.  Hence a guarded scope entered while an
exception is in flight, whose entry phase and whose body complete, reports no
postcondition; in its exit phase no POSTCONDITION is evaluated and no class
contract body runs; and when every INVARIANT of the block holds at exit the
activation completes without a handler call, whatever the conditions of its
POSTCONDITION checks. -/
theorem C22_exit_suppression_reads_the_live_flag (cfg : build_config) (T : class_decl σ)
    (enter exit : Bool) (blk : block σ) (b : body σ ε) (m : machine σ ε)
    (hflag : m.uncaught_exception = true) :
    (∀ unwinding : Bool,
      class_runs (emitted m ((contractor T enter exit blk).destroy cfg unwinding m)) = [] ∧
      (∀ rec ∈ evaluated_checks
          (emitted m ((contractor T enter exit blk).destroy cfg unwinding m)),
        rec.contract_type = type.invariant) ∧
      ∀ rec ∈ handler_calls
          (emitted m ((contractor T enter exit blk).destroy cfg unwinding m)),
        rec.contract_type = type.invariant) ∧
    (((contractor T enter exit blk).construct cfg m).1 = outcome.normal →
      (b m.state).2 = outcome.normal →
      (∀ rec ∈ handler_calls
          (emitted m (run_guarded cfg (contractor T enter exit blk) b m)),
        rec.contract_type ≠ type.postcondition) ∧
      (∃ before after,
        emitted m (run_guarded cfg (contractor T enter exit blk) b m) =
          before ++ event.body_run :: after ∧
        event.body_run ∉ before ∧ event.body_run ∉ after ∧
        class_runs after = [] ∧
        block_runs after = [contract_context.mk false true (exit_invariant_flag T exit)] ∧
        ∀ rec ∈ evaluated_checks after, rec.contract_type = type.invariant) ∧
      ((∀ d ∈ blk, d.kind = type.invariant → d.cond (b m.state).1 = true) →
        (run_guarded cfg (contractor T enter exit blk) b m).1 = outcome.normal ∧
        handler_calls
          (emitted m (run_guarded cfg (contractor T enter exit blk) b m)) = [])) := by
  refine ⟨?_, ?_⟩
  · intro unwinding
    obtain ⟨X, htr, hcr, _, _, hev, hhc, _⟩ :=
      exit_in_flight_log cfg (contractor T enter exit blk) unwinding m hflag
    rw [emitted_of_trace_eq m _ X htr]
    exact ⟨hcr, hev, hhc⟩
  · intro hentry hbody
    obtain ⟨new1, ht1, hl1, hn1, _, _⟩ := phase_ok_construct cfg T enter exit blk m
    obtain ⟨hcalls1, hflag1⟩ := hn1 hentry
    obtain ⟨o, m1, hc⟩ : ∃ o m1, (contractor T enter exit blk).construct cfg m = (o, m1) :=
      ⟨_, _, rfl⟩
    rw [hc] at hentry ht1 hflag1
    simp only at hentry ht1 hflag1
    subst hentry
    have hst : m1.state = m.state := by
      rw [(construct_normal_inv cfg T enter exit blk m m1 hc).2.2]
    have hfl : m1.uncaught_exception = true := hflag1.trans hflag
    have hrun := run_guarded_of_body_normal cfg _ b m m1 hc (by rw [hst]; exact hbody)
    obtain ⟨X, htr, hcr, hbr, hblk, hev, hhc, hpass⟩ :=
      exit_in_flight_log cfg (contractor T enter exit blk) false
        { m1 with trace := m1.trace ++ [event.body_run], state := (b m1.state).1 } hfl
    rw [← hrun] at htr hpass
    rw [contractor_exit] at hblk
    rw [contractor_block] at hpass
    simp only at htr hpass
    rw [hst] at hpass
    have hem : emitted m (run_guarded cfg (contractor T enter exit blk) b m) =
        new1 ++ event.body_run :: X :=
      emitted_of_trace_eq m _ _ (by rw [htr, ht1]; simp [List.append_assoc])
    have hcalls : handler_calls (new1 ++ event.body_run :: X) = handler_calls X := by
      rw [handler_calls_append, hcalls1, handler_calls_cons_body_run]
      rfl
    rw [hem, hcalls]
    refine ⟨?_, ⟨new1, X, rfl, hl1.1, hbr, hcr, hblk, hev⟩, ?_⟩
    · intro rec hrec hk
      have := hhc rec hrec
      rw [hk] at this
      cases this
    · intro hall
      exact hpass hall

/-- Witness of C22 on the method `{ CONTRACT(mfun) { POSTCONDITION(x == 0); };
++x; }` of `bounded` entered with `x == 10` while an exception is in flight:
the entry phase and the body complete, after the body the postcondition and
the class invariant are both false, and yet the activation completes and the
handler is not called. -/
theorem C22_witness_method_entered_in_flight :
    (test.start_unwinding 10 : machine Nat test.error).uncaught_exception = true ∧
    test.post_zero.cond (test.increment (test.start_unwinding 10 :
      machine Nat test.error).state).1 = false ∧
    class_invariant_passes build_config.all_enabled (contract_context.mk false false true)
      true (test.increment (test.start_unwinding 10 : machine Nat test.error).state).1
      test.bounded = false ∧
    (run_guarded build_config.all_enabled (contract_mfun__ test.bounded [test.post_zero])
        test.increment (test.start_unwinding 10)).1 = outcome.normal ∧
    handler_calls (emitted (test.start_unwinding 10)
      (run_guarded build_config.all_enabled (contract_mfun__ test.bounded [test.post_zero])
        test.increment (test.start_unwinding 10))) = [] :=
  have h := ((C22_exit_suppression_reads_the_live_flag build_config.all_enabled test.bounded
    true true [test.post_zero] test.increment (test.start_unwinding 10) rfl).2 rfl rfl).2.2
    (fun d hd hk => by
      rw [List.mem_singleton.mp hd] at hk
      exact absurd hk (by decide))
  ⟨rfl, rfl, rfl, h.1, h.2⟩

/-! ## Checks written in a class contract body -/

/-- C23: the class contract bodies are run with the context `{false, false,
true}` only.  In every activation of a guarded scope every class contract body
that runs, the bodies of the listed bases included, gets that context; the
hierarchy composer hands the context it is given to every body it runs; in
that context a check that is not an `INVARIANT` never reports and is never
evaluated, whatever its condition and the in-flight flag; and at both
checkpoints, the construction and the destruction of `class_contract_base`,
every condition evaluated and every record reported is that of an
`INVARIANT`. -/
theorem C23_class_bodies_check_invariants_only (cfg : build_config) (T : class_decl σ)
    (enter exit : Bool) (blk : block σ) (b : body σ ε) (m : machine σ ε) :
    (∀ ctx ∈ class_run_contexts
        (emitted m (run_guarded cfg (contractor T enter exit blk) b m)),
      ctx = contract_context.mk false false true) ∧
    (∀ ctx : contract_context,
      class_run_contexts (emitted m (class_invariant cfg T ctx m)) =
        List.replicate (class_runs (emitted m (class_invariant cfg T ctx m))).length ctx) ∧
    (∀ (c : check σ) (u : Bool) (st : σ), c.kind ≠ type.invariant →
      c.fails cfg (contract_context.mk false false true) u st = false ∧
      (c.expand cfg).evaluation (contract_context.mk false false true) u = []) ∧
    (∀ rec ∈ evaluated_checks (emitted m (class_contract_base.constructor cfg T enter m)),
      rec.contract_type = type.invariant) ∧
    (∀ rec ∈ handler_calls (emitted m (class_contract_base.constructor cfg T enter m)),
      rec.contract_type = type.invariant) ∧
    (∀ rec ∈ evaluated_checks (emitted m (class_contract_base.destructor cfg T exit m)),
      rec.contract_type = type.invariant) ∧
    (∀ rec ∈ handler_calls (emitted m (class_contract_base.destructor cfg T exit m)),
      rec.contract_type = type.invariant) := by
  have hskip : invariants_only (emitted m ((outcome.normal, m) : outcome ε × machine σ ε)) := by
    rw [emitted_of_trace_eq m _ [] (by simp)]
    exact invariants_only_nil
  have hinv : invariants_only
      (emitted m (class_invariant cfg T (contract_context.mk false false true) m)) := by
    obtain ⟨new, htr, h⟩ := class_invariant_records cfg T m
    rw [emitted_of_trace_eq m _ new htr]
    exact h
  have hctor : invariants_only
      (emitted m (class_contract_base.constructor cfg T enter m)) := by
    unfold class_contract_base.constructor
    split
    · exact hinv
    · exact hskip
  have hdtor : invariants_only
      (emitted m (class_contract_base.destructor cfg T exit m)) := by
    unfold class_contract_base.destructor
    split
    · exact hinv
    · exact hskip
  refine ⟨(activation_log cfg T enter exit blk b m).2.2.2.1, ?_, ?_,
    hctor.1, hctor.2, hdtor.1, hdtor.2⟩
  · intro ctx
    obtain ⟨new, htr, h⟩ := class_invariant_contexts_all cfg T ctx m
    rw [emitted_of_trace_eq m _ new htr]
    exact h
  · intro c u st hk
    refine ⟨check_fails_of_inactive cfg _ u st c (class_context_inactive cfg c u hk), ?_⟩
    rw [evaluation_expand, class_context_inactive cfg c u hk]
    rfl

/-- Witness of C23 on a method `{ CONTRACT(mfun) { }; }` of the class with
`CONTRACT(class) { PRECONDITION(x < 10); INVARIANT(x <= 10);
POSTCONDITION(x == 0); }`, entered with `x == 10`: the conditions of the
precondition and of the postcondition are false, neither fails in the context
of the class contract body, the body is run twice with `{false, false, true}`,
only the invariant is evaluated and the activation completes. -/
theorem C23_witness_mixed_class_contract :
    test.pre_below_ten.cond 10 = false ∧ test.post_zero.cond 10 = false ∧
    test.pre_below_ten.fails build_config.all_enabled
      (contract_context.mk false false true) false 10 = false ∧
    test.post_zero.fails build_config.all_enabled
      (contract_context.mk false false true) false 10 = false ∧
    (∀ ctx ∈ class_run_contexts (emitted (test.start 10)
        (run_guarded build_config.all_enabled (contract_mfun__ test.mixed_contract [])
          test.keep (test.start 10))),
      ctx = contract_context.mk false false true) ∧
    class_runs (emitted (test.start 10)
        (run_guarded build_config.all_enabled (contract_mfun__ test.mixed_contract [])
          test.keep (test.start 10))) = ["mixed", "mixed"] ∧
    evaluated_checks (emitted (test.start 10)
        (run_guarded build_config.all_enabled (contract_mfun__ test.mixed_contract [])
          test.keep (test.start 10))) =
      [violation_context.mk type.invariant "x <= 10" "x <= 10" "example.cpp" 41,
        violation_context.mk type.invariant "x <= 10" "x <= 10" "example.cpp" 41] ∧
    (run_guarded build_config.all_enabled (contract_mfun__ test.mixed_contract [])
        test.keep (test.start 10)).1 = outcome.normal :=
  have h := C23_class_bodies_check_invariants_only build_config.all_enabled
    test.mixed_contract true true [] test.keep (test.start 10)
  ⟨rfl, rfl, (h.2.2.1 test.pre_below_ten false 10 (by decide)).1,
    (h.2.2.1 test.post_zero false 10 (by decide)).1, h.1, rfl, rfl, rfl⟩

/-! ## The checkpoints of the class invariant -/

/-- An activation entered while an exception is in flight that ends normally:
the log splits at the single run of the body; before it the class contract
bodies run are those of the entry phase, and after it none is run. -/
theorem activation_entered_in_flight (cfg : build_config) (T : class_decl σ)
    (enter exit : Bool) (blk : block σ) (b : body σ ε) (m : machine σ ε)
    (hflag : m.uncaught_exception = true)
    (hn : (run_guarded cfg (contractor T enter exit blk) b m).1 = outcome.normal) :
    ∃ before after,
      emitted m (run_guarded cfg (contractor T enter exit blk) b m) =
        before ++ event.body_run :: after ∧
      event.body_run ∉ before ∧ event.body_run ∉ after ∧
      class_runs before = class_runs (entry_class_trace cfg T enter m.uncaught_exception) ∧
      class_runs after = [] := by
  have hentry : ((contractor T enter exit blk).construct cfg m).1 = outcome.normal := by
    by_contra h
    rw [run_guarded_of_entry_not_normal cfg _ b m h] at hn
    exact h hn
  obtain ⟨o, m1, hc⟩ : ∃ o m1, (contractor T enter exit blk).construct cfg m = (o, m1) :=
    ⟨_, _, rfl⟩
  rw [hc] at hentry
  simp only at hentry
  subst hentry
  have hinv := (construct_normal_inv cfg T enter exit blk m m1 hc).2.2
  have hfl : m1.uncaught_exception = true := by
    rw [hinv]
    exact hflag
  have htr1 : m1.trace = m.trace ++
      (entry_class_trace cfg T enter m.uncaught_exception ++
        event.block_run (contract_context.mk true false (entry_invariant_flag T enter)) ::
          evaluations cfg (contract_context.mk true false (entry_invariant_flag T enter))
            m.uncaught_exception blk) := by
    rw [hinv]
  obtain ⟨ob, hb⟩ : ∃ ob, (b m1.state).2 = ob := ⟨_, rfl⟩
  cases ob with
  | terminated =>
      rw [run_guarded_of_body_terminated cfg _ b m m1 hc hb] at hn
      cases hn
  | raised e =>
      rw [run_guarded_of_body_raised cfg _ b m m1 e hc hb] at hn
      split at hn <;> cases hn
  | normal =>
      have hrun := run_guarded_of_body_normal cfg _ b m m1 hc hb
      obtain ⟨X, htr, hcr, hbr, _, _, _, _⟩ :=
        exit_in_flight_log cfg (contractor T enter exit blk) false
          { m1 with trace := m1.trace ++ [event.body_run], state := (b m1.state).1 } hfl
      rw [← hrun] at htr
      simp only at htr
      have hem : (run_guarded cfg (contractor T enter exit blk) b m).2.trace =
          m.trace ++
            ((entry_class_trace cfg T enter m.uncaught_exception ++
              event.block_run (contract_context.mk true false (entry_invariant_flag T enter)) ::
                evaluations cfg (contract_context.mk true false (entry_invariant_flag T enter))
                  m.uncaught_exception blk) ++ event.body_run :: X) := by
        rw [htr, htr1]
        simp [List.append_assoc]
      refine ⟨_, X, emitted_of_trace_eq m _ _ hem, ?_, hbr, ?_, hcr⟩
      · intro h
        rcases List.mem_append.mp h with h1 | h1
        · exact (silent_entry_class_trace cfg T enter m.uncaught_exception).2.2 h1
        · rcases List.mem_cons.mp h1 with h2 | h2
          · cases h2
          · exact body_run_not_mem_evaluations _ _ _ _ h2
      · rw [class_runs_append, class_runs_cons_block_run, class_runs_evaluations,
          List.append_nil]

/-- C5 (amended): for a type `T` with a class contract and a scope built with
the flags `enter`, `exit` (`CONTRACT(mfun)` passes true and true,
`CONTRACT(ctor)` false and true, `CONTRACT(dtor)` true and false): (1) in an
activation entered with no exception in flight that ends normally, the log
splits at the single run of the body; before it the class contract bodies run
are those of the composed invariant of `T` (its listed bases, then `T` once)
when `enter` is true and none when it is false, and after it the same
according to `exit`; (2) when the body raises after an entry phase that
passed, no class contract body is run afterwards; (3) with `enter` false the
constructor of `class_contract_base`, and with `exit_` false its destructor,
do nothing; (4) in an activation entered while an exception is in flight that
ends normally, the class contract bodies run before the body are as in (1),
and none is run after the body, whatever `exit`. -/
theorem C5_class_invariant_checkpoints (cfg : build_config) (T : class_decl σ)
    (hT : has_class_contract T = true) (blk : block σ) (b : body σ ε) (m : machine σ ε)
    (enter exit : Bool) :
    (m.uncaught_exception = false →
      (run_guarded cfg (contractor T enter exit blk) b m).1 = outcome.normal →
      ∃ before after,
        emitted m (run_guarded cfg (contractor T enter exit blk) b m) =
          before ++ event.body_run :: after ∧
        event.body_run ∉ before ∧ event.body_run ∉ after ∧
        class_runs before = (if enter then composed_order T else []) ∧
        class_runs after = (if exit then composed_order T else [])) ∧
    (∀ (m1 : machine σ ε) (e : ε),
      (contractor T enter exit blk).construct cfg m = (outcome.normal, m1) →
      (b m1.state).2 = outcome.raised e →
      class_runs (emitted m1 (run_guarded cfg (contractor T enter exit blk) b m)) = []) ∧
    (contract_mfun__ T blk = contractor T true true blk ∧
      contract_ctor__ T blk = contractor T false true blk ∧
      contract_dtor__ T blk = contractor T true false blk) ∧
    (∀ m0 : machine σ ε,
      class_contract_base.constructor cfg T false m0 = (outcome.normal, m0) ∧
      class_contract_base.destructor cfg T false m0 = (outcome.normal, m0)) ∧
    (m.uncaught_exception = true →
      (run_guarded cfg (contractor T enter exit blk) b m).1 = outcome.normal →
      ∃ before after,
        emitted m (run_guarded cfg (contractor T enter exit blk) b m) =
          before ++ event.body_run :: after ∧
        event.body_run ∉ before ∧ event.body_run ∉ after ∧
        class_runs before = (if enter then composed_order T else []) ∧
        class_runs after = []) := by
  refine ⟨?_, ?_, ⟨rfl, rfl, rfl⟩, fun m0 => ⟨?_, ?_⟩, ?_⟩
  · intro hflag hn
    rw [contractor_of_class_contract T enter exit blk hT] at hn ⊢
    refine ⟨_, _, class_activation_normal cfg T blk enter exit b m hT hflag hn, ?_, ?_, ?_, ?_⟩
    · intro h
      rcases List.mem_append.mp h with h1 | h1
      · cases enter with
        | false => simp at h1
        | true => exact body_run_not_mem_class_invariant_trace _ _ _ _ h1
      · rcases List.mem_cons.mp h1 with h2 | h2
        · cases h2
        · exact body_run_not_mem_evaluations _ _ _ _ h2
    · intro h
      rcases List.mem_append.mp h with h1 | h1
      · rcases List.mem_cons.mp h1 with h2 | h2
        · cases h2
        · exact body_run_not_mem_evaluations _ _ _ _ h2
      · cases exit with
        | false => simp at h1
        | true => exact body_run_not_mem_class_invariant_trace _ _ _ _ h1
    · rw [class_runs_append, class_runs_cons_block_run, class_runs_evaluations,
        List.append_nil]
      cases enter with
      | false => rfl
      | true => exact class_runs_class_invariant_trace _ _ _ _
    · rw [class_runs_append, class_runs_cons_block_run, class_runs_evaluations,
        List.nil_append]
      cases exit with
      | false => rfl
      | true => exact class_runs_class_invariant_trace _ _ _ _
  · intro m1 e hentry hbody
    rcases unwinding_exit_cases cfg _ b m m1 e hentry hbody with ⟨_, _, hem⟩ |
      ⟨pre, c, rest, _, _, _, _, hem⟩
    · rw [hem, class_runs_cons_body_run, class_runs_cons_block_run, class_runs_evaluations]
    · rw [hem, class_runs_cons_body_run, class_runs_cons_block_run, class_runs_append,
        class_runs_evaluations, class_runs_cons_evaluated, class_runs_cons_called]
      rfl
  · simp [class_contract_base.constructor]
  · simp [class_contract_base.destructor]
  · intro hflag hn
    obtain ⟨before, after, h1, h2, h3, h4, h5⟩ :=
      activation_entered_in_flight cfg T enter exit blk b m hflag hn
    refine ⟨before, after, h1, h2, h3, ?_, h5⟩
    rw [h4]
    unfold entry_class_trace
    rw [hT]
    cases enter with
    | false => rfl
    | true => exact class_runs_class_invariant_trace _ _ _ _

/-- Counterexample to C5 as stated.  The method `{ CONTRACT(mfun) {
PRECONDITION(x < 10); }; ++x; }` of `bounded` entered with `x == 0` while an
exception is in flight: its body completes, the activation ends normally, and
the class contract body has been run once, before the body, and not after it.
The constructor `{ CONTRACT(ctor) { INVARIANT(x == 1); }; x = 1; }` of
`at_most_one` entered while an exception is in flight: its body completes,
the activation ends normally, and the class contract body has not been run
at all. -/
theorem C5_counterexample_scopes_entered_in_flight :
    (test.start_unwinding 0 : machine Nat test.error).uncaught_exception = true ∧
    (test.increment (test.start_unwinding 0 : machine Nat test.error).state).2 =
      outcome.normal ∧
    (run_guarded build_config.all_enabled (contract_mfun__ test.bounded test.below_ten)
        test.increment (test.start_unwinding 0)).1 = outcome.normal ∧
    emitted (test.start_unwinding 0)
        (run_guarded build_config.all_enabled (contract_mfun__ test.bounded test.below_ten)
          test.increment (test.start_unwinding 0)) =
      [event.class_run "bounded" (contract_context.mk false false true),
        event.evaluated
          (violation_context.mk type.invariant "x <= 10" "x <= 10" "example.cpp" 10),
        event.block_run (contract_context.mk true false true),
        event.evaluated
          (violation_context.mk type.precondition "x < 10" "x < 10" "example.cpp" 20),
        event.body_run,
        event.block_run (contract_context.mk false true true)] ∧
    class_runs (emitted (test.start_unwinding 0)
        (run_guarded build_config.all_enabled (contract_mfun__ test.bounded test.below_ten)
          test.increment (test.start_unwinding 0))) = ["bounded"] ∧
    (test.set_one (test.start_unwinding 0 : machine Nat test.error).state).2 =
      outcome.normal ∧
    (run_guarded build_config.all_enabled (contract_ctor__ test.at_most_one test.is_one)
        test.set_one (test.start_unwinding 0)).1 = outcome.normal ∧
    class_runs (emitted (test.start_unwinding 0)
        (run_guarded build_config.all_enabled (contract_ctor__ test.at_most_one test.is_one)
          test.set_one (test.start_unwinding 0))) = [] :=
  ⟨rfl, rfl, rfl, rfl, rfl, rfl, rfl, rfl⟩

/-- Witness of the amended C5 on a method `{ CONTRACT(mfun) { PRECONDITION(x <
10); }; ++x; }` of the class `bounded`, entered with `x == 0`: with no
exception in flight the body of the class contract is run once before the
method body and once after it; entered while an exception is in flight it is
run once before the method body and not after it. -/
theorem C5_witness_method_of_bounded :
    (∃ before after,
      emitted (test.start 0)
          (run_guarded build_config.all_enabled (contractor test.bounded true true test.below_ten)
            test.increment (test.start 0)) =
        before ++ event.body_run :: after ∧
      event.body_run ∉ before ∧ event.body_run ∉ after ∧
      class_runs before = ["bounded"] ∧ class_runs after = ["bounded"]) ∧
    ∃ before after,
      emitted (test.start_unwinding 0)
          (run_guarded build_config.all_enabled (contractor test.bounded true true test.below_ten)
            test.increment (test.start_unwinding 0)) =
        before ++ event.body_run :: after ∧
      event.body_run ∉ before ∧ event.body_run ∉ after ∧
      class_runs before = ["bounded"] ∧ class_runs after = [] :=
  ⟨(C5_class_invariant_checkpoints build_config.all_enabled test.bounded rfl test.below_ten
      test.increment (test.start 0) true true).1 rfl rfl,
    (C5_class_invariant_checkpoints build_config.all_enabled test.bounded rfl test.below_ten
      test.increment (test.start_unwinding 0) true true).2.2.2.2 rfl rfl⟩

end contract
